import Mathlib

/-!
Download jobs of `dloader` (src/dloader/job.go) and URL helpers of `cmn`
(src/cmn/http.go).

A shallow embedding of the batch enumerators of the download job engine:
the list (slice) job, the range job and the backend job, each with its
`genNext`, together with the job constructors, the notifier installation, the
cleanup and the job record; and of `PrependProtocol` and `MatchItems`.

Conventions of the embedding.

* Go slices are Lean lists; `append(s, x)` is `s ++ [x]`; the `nil` slice and
  the empty slice are both `[]` (the code only ever takes their length or
  ranges over them).
* Go `int` cursors and lengths are natural numbers.  A slice of `dlObj`
  (two strings and a flag per element) cannot hold anywhere near `2^63`
  elements, so `current + downloadBatchSize` never wraps.
* A method that mutates its receiver returns the new receiver next to its
  results.
* Code that lives outside `job.go` (the partitioner `makeDlObj`, the template
  iterator, the remote backend, the path helpers) is a parameter.
-/

namespace cmn

/-! ## URL helpers (http.go) -/

/-- The constant `httpProto` (declared outside `http.go`); the comment of
`PrependProtocol` says that `http://` is what is added by default. -/
def httpProto : String := "http"

/-- Go's `strings.Contains(s, substr)`: `substr` starts at some position of
`s`. -/
def stringsContains (s substr : String) : Bool :=
  s.toList.tails.any (fun t => substr.toList.isPrefixOf t)

/-- Transcription of `PrependProtocol` (http.go, lines 68-77); the variadic
`protocol` is a list. -/
def PrependProtocol (url : String) (protocol : List String) : String :=
  if url = "" || stringsContains url "://" then url
  else
    let proto := match protocol with
      | [p] => p
      | _ => httpProto
    proto ++ "://" ++ url

/-- Go's `html.EscapeString` on one character: the five characters
`&`, apostrophe, `<`, `>` and double quote are replaced, all others kept. -/
def htmlEscapeChar (c : Char) : List Char :=
  if c = '&' then "&amp;".toList
  else if c = Char.ofNat 39 then "&#39;".toList
  else if c = '<' then "&lt;".toList
  else if c = '>' then "&gt;".toList
  else if c = Char.ofNat 34 then "&#34;".toList
  else [c]

/-- Go's `html.EscapeString`, on the characters of the string. -/
def htmlEscape (s : List Char) : List Char := s.flatMap htmlEscapeChar

/-- Go's `strings.Split(s, "/")`: the pieces between the slashes, one more
than there are slashes. -/
def stringsSplit : List Char → List (List Char)
  | [] => [[]]
  | c :: cs =>
    if c = '/' then [] :: stringsSplit cs
    else
      match stringsSplit cs with
      | [] => [[c]]
      | piece :: rest => (c :: piece) :: rest

/-- The part of `s` before its first slash, and the part after it, if there is
a slash (Go's `strings.Index` and the two slice expressions of `genSplit`). -/
def cutSlash : List Char → List Char × Option (List Char)
  | [] => ([], none)
  | c :: cs =>
    if c = '/' then ([], some cs)
    else ((c :: (cutSlash cs).1), (cutSlash cs).2)

/-- Go's `strings.SplitN(s, "/", n)` for `n ≥ 0`: nothing for `n = 0`;
otherwise at most `n` pieces, the last of which is the unsplit remainder. -/
def stringsSplitN : Nat → List Char → List (List Char)
  | 0, _ => []
  | 1, s => [s]
  | n + 2, s =>
    match cutSlash s with
    | (piece, none) => [piece]
    | (piece, some rest) => piece :: stringsSplitN (n + 1) rest

/-- The errors of `MatchItems`, one per `fmt.Errorf` call, with the values it
prints. -/
inductive MatchErr where
  | expectedItems (want got : Nat)
  | expectedItem (want got : String)
  | tooShort (got want : Int)
  | tooLong (got want : Int)
deriving DecidableEq, Repr

/-- The first part of `MatchItems` (http.go, lines 94-109): escape, drop one
leading slash, split, and keep the non-empty pieces (the variable `apiItems`
before the checks). -/
def apiItemsOf (unescapedPath : String) (itemsAfter : Int) (splitAfter : Bool)
    (items : List String) : List String :=
  let escaped := htmlEscape unescapedPath.toList
  let escaped := match escaped with
    | '/' :: rest => rest
    | other => other
  let split :=
    if splitAfter then stringsSplit escaped
    else stringsSplitN ((items.length : Int) + max 1 itemsAfter).toNat escaped
  (split.map String.mk).filter (fun item => item != "")

/-- The loop `for idx, item := range items` of `MatchItems` (http.go, lines
114-118) from index `idx` on: `none` when `apiItems[idx]` is out of range (a
run-time panic), otherwise the error it returns, if any. -/
def matchLoop (apiItems : List String) : Nat → List String → Option (Option MatchErr)
  | _, [] => some none
  | idx, item :: rest =>
    match apiItems.get? idx with
    | none => none
    | some got =>
      if item != got then some (some (.expectedItem item got))
      else matchLoop apiItems (idx + 1) rest

/-- Transcription of `MatchItems` (http.go, lines 93-130).  The outer `Option`
is `none` for an index out of range. -/
def MatchItems (unescapedPath : String) (itemsAfter : Int) (splitAfter : Bool)
    (items : List String) : Option (Except MatchErr (List String)) :=
  let apiItems := apiItemsOf unescapedPath itemsAfter splitAfter items
  if apiItems.length < items.length then
    some (.error (.expectedItems items.length apiItems.length))
  else
    match matchLoop apiItems 0 items with
    | none => none
    | some (some e) => some (.error e)
    | some none =>
      let rest := apiItems.drop items.length
      if (rest.length : Int) < itemsAfter then
        some (.error (.tooShort (rest.length + items.length) (itemsAfter + items.length)))
      else if (rest.length : Int) > itemsAfter && !splitAfter then
        some (.error (.tooLong (rest.length + items.length) (itemsAfter + items.length)))
      else some (.ok rest)

/-- The non-empty pieces of the escaped path, without its leading slash, split
at every slash. -/
def segments (unescapedPath : String) : List String :=
  apiItemsOf unescapedPath 0 true []

/-- The non-empty pieces of one string split at every slash. -/
def pieceSegments (piece : String) : List String :=
  ((stringsSplit piece.toList).map String.mk).filter (fun item => item != "")

/-! ## Range header (http.go) -/

/-- Go's `int64` value of an integer: wrap-around into `[-2^63, 2^63)`. -/
def wrapI64 (x : Int) : Int :=
  (x + 9223372036854775808) % 18446744073709551616 - 9223372036854775808

/-- Go's `uint` (64 bit) value of a natural number. -/
def wrapU64 (x : Nat) : Nat := x % 18446744073709551616

/-- Transcription of `MakeRangeHdr` (http.go, lines 80-87).  An `http.Header`
is the list of its keys with their values, the nil header the empty list.  The
constants `cos.HdrRange` and `cos.HdrRangeValPrefix` are declared outside
`http.go` and are parameters; `start+length-1` is `int64` arithmetic. -/
def MakeRangeHdr (hdrRange hdrRangeValPrefix : String) (start length : Int) :
    List (String × List String) :=
  if start = 0 && length = 0 then []
  else
    [(hdrRange,
      [hdrRangeValPrefix ++ toString start ++ "-" ++ toString (wrapI64 (start + length - 1))])]

/-! ## Retries (http.go) -/

/-- What `NetworkCallWithRetry` takes from outside `http.go`: the timeouts
`Timeout.CplaneOperation()` and `Timeout.MaxKeepalive()` (nanoseconds) and the
predicate `cos.IsRetriableConnErr`. -/
structure NetEnv where
  cplaneOperation : Int
  maxKeepalive : Int
  isRetriableConnErr : String → Bool

/-- The arguments (http.go, `RetryArgs`).  `Call` gives the status and error
(`none` for nil) of each invocation, numbered from 0; `IsFatal` is `none` for
a nil function; `SoftErr` and `HardErr` are `uint`; `Sleep` is a duration in
nanoseconds. -/
structure RetryArgs where
  Call : Nat → Int × Option String
  IsFatal : Option (String → Bool)
  Action : String
  Caller : String
  SoftErr : Nat
  HardErr : Nat
  Sleep : Int
  Verbosity : Int
  BackOff : Bool
  IsClient : Bool

/-- What `NetworkCallWithRetry` does to its surroundings besides logging: an
invocation of `Call`, or a `time.Sleep` of the given duration. -/
inductive NetEvent where
  | call
  | sleep (d : Int)
deriving DecidableEq, Repr

/-- The arguments after lines 191-203 of `NetworkCallWithRetry`: a zero
`Sleep` is replaced by half a second for a client and by a quarter of
`Timeout.CplaneOperation()` otherwise; an empty `Action` becomes `call`. -/
def RetryArgs.withDefaults (env : NetEnv) (args : RetryArgs) : RetryArgs :=
  { args with
    Sleep :=
      if args.Sleep = 0 then
        if args.IsClient then Int.tdiv 1000000000 2 else Int.tdiv env.cplaneOperation 4
      else args.Sleep
    Action := if args.Action = "" then "call" else args.Action }

/-- Whether `args.IsFatal != nil && args.IsFatal(err)`. -/
def RetryArgs.fatal (args : RetryArgs) (err : String) : Bool :=
  match args.IsFatal with
  | some f => f err
  | none => false

/-- The `for` loop of `NetworkCallWithRetry` (http.go, lines 204-236) from the
state `hardErrCnt`, `softErrCnt`, `iter`, `sleep`, with `k` invocations of
`Call` made so far.  The result is the returned error and the calls and sleeps
in order; `none` when `fuel` iterations were not enough.  The `glog` calls are
left out. -/
def retryLoop (env : NetEnv) (args : RetryArgs) :
    Nat → Nat → Nat → Nat → Int → Nat → Option (Option String × List NetEvent)
  | 0, _, _, _, _, _ => none
  | fuel + 1, hardErrCnt, softErrCnt, iter, sleep, k =>
    match (args.Call k).2 with
    | none => some (none, [NetEvent.call])
    | some err =>
      if args.fatal err then some (some err, [NetEvent.call])
      else
        let softErrCnt := if env.isRetriableConnErr err then wrapU64 (softErrCnt + 1)
          else softErrCnt
        let hardErrCnt := if env.isRetriableConnErr err then hardErrCnt
          else wrapU64 (hardErrCnt + 1)
        let sleep :=
          if args.BackOff && decide (iter > 1) then
            if args.IsClient then min (wrapI64 (sleep + Int.tdiv args.Sleep 2)) (4 * 1000000000)
            else min (wrapI64 (sleep + Int.tdiv args.Sleep 2)) env.maxKeepalive
          else sleep
        if hardErrCnt > args.HardErr || softErrCnt > args.SoftErr then
          some (some err, [NetEvent.call])
        else
          match retryLoop env args fuel hardErrCnt softErrCnt (wrapU64 (iter + 1)) sleep (k + 1) with
          | none => none
          | some (res, evs) => some (res, NetEvent.call :: NetEvent.sleep sleep :: evs)

/-- Transcription of `NetworkCallWithRetry` (http.go, lines 183-243).  The
local `sleep` is initialised from `args.Sleep` in the `var` block, before the
zero `Sleep` is replaced. -/
def NetworkCallWithRetry (env : NetEnv) (args : RetryArgs) (fuel : Nat) :
    Option (Option String × List NetEvent) :=
  retryLoop env (args.withDefaults env) fuel 0 0 1 args.Sleep 0

/-- A client that never gets through: every call fails with the same error,
which is neither fatal nor a retriable connection error; two retries on hard
errors, no `Sleep` given, no back-off. -/
def exRetryArgs : RetryArgs :=
  { Call := fun _ => (500, some "boom"), IsFatal := none, Action := "", Caller := "",
    SoftErr := 0, HardErr := 2, Sleep := 0, Verbosity := 2, BackOff := false, IsClient := true }

/-- Timeouts of a cluster: one second for a control-plane operation, two for
the longest keep-alive; no error counts as a retriable connection error. -/
def exNetEnv : NetEnv := ⟨1000000000, 2000000000, fun _ => false⟩

end cmn

namespace dloader

/-- Size of a single batch generated by `genNext` (job.go, line 26). -/
def downloadBatchSize : Nat := 10000

/-- One unit of work (job.go, `dlObj`). -/
structure dlObj where
  objName : String
  link : String
  fromRemote : Bool
deriving DecidableEq, Repr

/-- Errors seen by the enumerators: the partitioner's sentinel
`errInvalidTarget` ("not my object"), or any other error. -/
inductive DlErr where
  | errInvalidTarget
  | other (msg : String)
deriving DecidableEq, Repr

/-- The `Limits` of a request payload: bytes per hour and connections. -/
structure Limits where
  BytesPerHour : Int
  Connections : Int
deriving DecidableEq, Repr

/-- The bucket as far as `job.go` looks at it: its name and the answers of
`IsRemote()` and `IsHTTP()`. -/
structure Bck where
  name : String
  isRemote : Bool
  isHTTP : Bool
deriving DecidableEq, Repr

/-- The download notifier (`NotifDownload`, declared outside `job.go`) as far
as `AddNotif` looks at it: whether the completion callback `F` and the progress
callback `P` are set, whether it is registered upon progress
(`Upon(cluster.UponProgress)`), and the job it is bound to, by id. -/
structure NotifDownload where
  F : Bool
  P : Bool
  uponProgress : Bool
  job : Option String
deriving DecidableEq, Repr

/-- A value of the interface `cluster.Notif`: a download notifier, or a
notifier of another type (for which the type assertion
`n.(*NotifDownload)` fails). -/
inductive ClusterNotif where
  | download (n : NotifDownload)
  | foreign
deriving DecidableEq, Repr

/-- The common base of all jobs (job.go, `baseDlJob`); `t` is the throttler,
represented by the limits it was created with; `notif` is `none` for the nil
pointer. -/
structure baseDlJob where
  id : String
  bck : Bck
  timeout : Int
  description : String
  t : Limits
  notif : Option NotifDownload := none
deriving DecidableEq, Repr

/-- The collaborators of `job.go` that live in other files: the partitioner
`makeDlObj` (read with the target's cluster map and id; `errInvalidTarget`
when another target owns the object), Go's `path.Join` and `path.Base`,
`Smap.CountActiveTargets`, and `time.ParseDuration` (value only, the code
drops its error). -/
structure Env where
  makeDlObj : Bck → String → String → Except DlErr dlObj
  pathJoin : String → String → String
  pathBase : String → String
  countActiveTargets : Nat
  parseDuration : String → Int

/-- The three results of one `genNext` call: `(objs, ok, err)`. -/
structure GenResult where
  objs : List dlObj
  ok : Bool
  err : Option DlErr
deriving DecidableEq, Repr

/-! ## List (slice) job -/

/-- The list job (job.go, `sliceDlJob`): the prebuilt objects and a cursor. -/
structure sliceDlJob where
  base : baseDlJob
  objs : List dlObj
  current : Nat
deriving DecidableEq, Repr

/-- Transcription of `sliceDlJob.Len` (job.go, line 220). -/
def sliceDlJob.Len (j : sliceDlJob) : Nat := j.objs.length

/-- Transcription of `sliceDlJob.genNext` (job.go, lines 222-235).  The slice
expressions `objs[current:]` and `objs[current:current+B]` are `drop` and
`take`; they agree with Go whenever `current ≤ len(objs)`, which is the only
case in which Go does not panic. -/
def sliceDlJob.genNext (j : sliceDlJob) : GenResult × sliceDlJob :=
  if j.current = j.objs.length then
    (⟨[], false, none⟩, j)
  else if j.current + downloadBatchSize ≥ j.objs.length then
    (⟨j.objs.drop j.current, true, none⟩, { j with current := j.objs.length })
  else
    (⟨(j.objs.drop j.current).take downloadBatchSize, true, none⟩,
      { j with current := j.current + downloadBatchSize })

/-- The dispatcher's pull loop, common to all jobs: call `genNext` until it
returns `ok = false`, collecting the batches in call order.  The result is the
batches, the error of the last call and the final job; `none` means that
`fuel` calls were not enough (or that a call itself did not return). -/
def collect {J : Type} (step : J → Option (GenResult × J)) :
    Nat → J → Option (List (List dlObj) × Option DlErr × J)
  | 0, _ => none
  | fuel + 1, j =>
    match step j with
    | none => none
    | some (r, j1) =>
      if r.ok then
        match collect step fuel j1 with
        | none => none
        | some (bs, e, j2) => some (r.objs :: bs, e, j2)
      else some ([], r.err, j1)

/-- The pull loop of a list job. -/
def sliceDlJob.collect (fuel : Nat) (j : sliceDlJob) :
    Option (List (List dlObj) × Option DlErr × sliceDlJob) :=
  dloader.collect (fun s => some s.genNext) fuel j

/-! ## Range job -/

/-- The range job (job.go, `rangeDlJob`).  The template iterator `pt` is the
list of links it has not produced yet: `pt.Next()` pops the head, and reports
`ok = false` on the empty list. -/
structure rangeDlJob where
  base : baseDlJob
  objs : List dlObj
  pt : List String
  dir : String
  count : Nat
  done : Bool
deriving DecidableEq, Repr

/-- The `for len(j.objs) < downloadBatchSize` loop of `rangeDlJob.getNextObjs`
(job.go, lines 323-338) on the remaining links and the batch buffer.  Returns
the error, the buffer, the remaining links and the `done` flag. -/
def rangeDlJob.loop (env : Env) (j : rangeDlJob) :
    List String → List dlObj → Option DlErr × List dlObj × List String × Bool
  | [], objs =>
    if objs.length < downloadBatchSize then (none, objs, [], true)
    else (none, objs, [], j.done)
  | link :: rest, objs =>
    if objs.length < downloadBatchSize then
      match env.makeDlObj j.base.bck (env.pathJoin j.dir (env.pathBase link)) link with
      | .error e =>
        if e = DlErr.errInvalidTarget then rangeDlJob.loop env j rest objs
        else (some e, objs, rest, j.done)
      | .ok obj => rangeDlJob.loop env j rest (objs ++ [obj])
    else (none, objs, link :: rest, j.done)

/-- Transcription of `rangeDlJob.getNextObjs` (job.go, lines 317-340): the
buffer is emptied (`j.objs[:0]`) and refilled. -/
def rangeDlJob.getNextObjs (env : Env) (j : rangeDlJob) : Option DlErr × rangeDlJob :=
  match rangeDlJob.loop env j j.pt [] with
  | (e, objs, pt, done) => (e, { j with objs := objs, pt := pt, done := done })

/-- Transcription of `rangeDlJob.genNext` (job.go, lines 303-311). -/
def rangeDlJob.genNext (env : Env) (j : rangeDlJob) : GenResult × rangeDlJob :=
  if j.done then (⟨[], false, none⟩, j)
  else
    match rangeDlJob.getNextObjs env j with
    | (some e, j1) => (⟨[], false, some e⟩, j1)
    | (none, j1) => (⟨j1.objs, true, none⟩, j1)

/-- The item that a template link contributes to this target: the result of
the partitioner on the name `path.Join(dir, path.Base(link))` and the link, or
nothing when the partitioner does not return an object. -/
def rangeDlJob.item (env : Env) (j : rangeDlJob) (link : String) : Option dlObj :=
  match env.makeDlObj j.base.bck (env.pathJoin j.dir (env.pathBase link)) link with
  | .ok obj => some obj
  | .error _ => none

/-- The links for which the partitioner fails with a real error, that is with
anything but `errInvalidTarget`, are absent from `links`. -/
def rangeDlJob.NoErr (env : Env) (j : rangeDlJob) (links : List String) : Prop :=
  ∀ link ∈ links, ∀ e,
    env.makeDlObj j.base.bck (env.pathJoin j.dir (env.pathBase link)) link = .error e →
      e = DlErr.errInvalidTarget

/-- The pull loop of a range job. -/
def rangeDlJob.collect (env : Env) (fuel : Nat) (j : rangeDlJob) :
    Option (List (List dlObj) × Option DlErr × rangeDlJob) :=
  dloader.collect (fun s => some (rangeDlJob.genNext env s)) fuel j

/-! ## Backend job -/

/-- One page of a remote listing (`cmn.LsoResult`): the entry names and the
continuation token. -/
structure LsoResult where
  Entries : List String
  ContinuationToken : String
deriving DecidableEq, Repr

/-- The listing request (`apc.LsoMsg`) as `getNextObjs` fills it. -/
structure LsoMsg where
  Prefix : String
  ContinuationToken : String
  PageSize : Nat
deriving DecidableEq, Repr

/-- The remote backend of the bucket, with its own state `σ` (so that it may
answer the same request differently at different times, and fail). -/
structure Backend (σ : Type) where
  ListObjects : σ → Bck → LsoMsg → Except DlErr LsoResult × σ
  MaxPageSize : Nat

/-- The backend job (job.go, `backendDlJob`); `pfx` and `sfx` are the source's
fields `prefix` and `suffix`. -/
structure backendDlJob where
  base : baseDlJob
  pfx : String
  sfx : String
  continuationToken : String
  objs : List dlObj
  sync : Bool
  done : Bool
deriving DecidableEq, Repr

/-- Transcription of `backendDlJob.Len` (job.go, line 363). -/
def backendDlJob.Len (_ : backendDlJob) : Int := -1

/-- Transcription of `backendDlJob.Sync` (job.go, line 364). -/
def backendDlJob.Sync (j : backendDlJob) : Bool := j.sync

/-- Transcription of `backendDlJob.checkObj` (job.go, lines 370-372):
`strings.HasPrefix(objName, prefix) && strings.HasSuffix(objName, suffix)`. -/
def backendDlJob.checkObj (j : backendDlJob) (objName : String) : Bool :=
  j.pfx.toList.isPrefixOf objName.toList && j.sfx.toList.isSuffixOf objName.toList

/-- The `for _, entry := range lst.Entries` loop of `backendDlJob.getNextObjs`
(job.go, lines 404-416) on the entry names and the batch buffer. -/
def backendDlJob.addEntries (env : Env) (j : backendDlJob) :
    List String → List dlObj → Option DlErr × List dlObj
  | [], objs => (none, objs)
  | name :: rest, objs =>
    if !j.checkObj name then backendDlJob.addEntries env j rest objs
    else
      match env.makeDlObj j.base.bck name "" with
      | .error e =>
        if e = DlErr.errInvalidTarget then backendDlJob.addEntries env j rest objs
        else (some e, objs)
      | .ok obj => backendDlJob.addEntries env j rest (objs ++ [obj])

/-- The `for len(j.objs) < downloadBatchSize` loop of
`backendDlJob.getNextObjs` (job.go, lines 393-421).  Every iteration lists one
page; `fuel` bounds the number of pages, and `none` means it was not enough. -/
def backendDlJob.loop {σ : Type} (env : Env) (be : Backend σ) :
    Nat → σ → backendDlJob → Option (Option DlErr × σ × backendDlJob)
  | 0, w, j => if j.objs.length < downloadBatchSize then none else some (none, w, j)
  | fuel + 1, w, j =>
    if j.objs.length < downloadBatchSize then
      match be.ListObjects w j.base.bck ⟨j.pfx, j.continuationToken, be.MaxPageSize⟩ with
      | (.error e, w1) => some (some e, w1, j)
      | (.ok lst, w1) =>
        match backendDlJob.addEntries env j lst.Entries j.objs with
        | (some e, objs) =>
          some (some e, w1, { j with continuationToken := lst.ContinuationToken, objs := objs })
        | (none, objs) =>
          if lst.ContinuationToken = "" then
            some (none, w1,
              { j with continuationToken := lst.ContinuationToken, objs := objs, done := true })
          else
            backendDlJob.loop env be fuel w1
              { j with continuationToken := lst.ContinuationToken, objs := objs }
    else some (none, w, j)

/-- Transcription of `backendDlJob.getNextObjs` (job.go, lines 386-423). -/
def backendDlJob.getNextObjs {σ : Type} (env : Env) (be : Backend σ) (fuel : Nat)
    (w : σ) (j : backendDlJob) : Option (Option DlErr × σ × backendDlJob) :=
  backendDlJob.loop env be fuel w { j with objs := [] }

/-- Transcription of `backendDlJob.genNext` (job.go, lines 374-382). -/
def backendDlJob.genNext {σ : Type} (env : Env) (be : Backend σ) (fuel : Nat)
    (w : σ) (j : backendDlJob) : Option (GenResult × σ × backendDlJob) :=
  if j.done then some (⟨[], false, none⟩, w, j)
  else
    match backendDlJob.getNextObjs env be fuel w j with
    | none => none
    | some (some e, w1, j1) => some (⟨[], false, some e⟩, w1, j1)
    | some (none, w1, j1) => some (⟨j1.objs, true, none⟩, w1, j1)

/-- The pull loop of a backend job; `fuel` bounds both the number of `genNext`
calls and the number of pages listed by each of them. -/
def backendDlJob.collect {σ : Type} (env : Env) (be : Backend σ) (fuel : Nat)
    (w : σ) (j : backendDlJob) : Option (List (List dlObj) × Option DlErr × σ × backendDlJob) :=
  dloader.collect (fun s => backendDlJob.genNext env be fuel s.1 s.2) fuel (w, j)

/-- The item that a listed entry contributes to this target: the
partitioner's object for the entry name (with an empty link) when the name
passes `checkObj`, nothing otherwise. -/
def backendDlJob.keep (env : Env) (j : backendDlJob) (name : String) : Option dlObj :=
  if j.checkObj name then
    match env.makeDlObj j.base.bck name "" with
    | .ok obj => some obj
    | .error _ => none
  else none

/-- The remote listing as the job sees it: the pages obtained by listing with
token `token` and then following the returned continuation tokens until an
empty one comes back.  `none` when a call fails or `fuel` pages do not reach
the end. -/
def Backend.pages {σ : Type} (be : Backend σ) (bck : Bck) (pfx : String) :
    Nat → σ → String → Option (List (List String))
  | 0, _, _ => none
  | fuel + 1, w, token =>
    match be.ListObjects w bck ⟨pfx, token, be.MaxPageSize⟩ with
    | (.error _, _) => none
    | (.ok lst, w1) =>
      if lst.ContinuationToken = "" then some [lst.Entries]
      else
        match Backend.pages be bck pfx fuel w1 lst.ContinuationToken with
        | none => none
        | some ps => some (lst.Entries :: ps)

/-- The backend `be` with a log: every `ListObjects` call is answered by `be`
and appended to the log, as the request together with its answer. -/
def Backend.recording {σ : Type} (be : Backend σ) :
    Backend (σ × List (LsoMsg × Except DlErr LsoResult)) where
  ListObjects := fun s bck msg =>
    ((be.ListObjects s.1 bck msg).1,
      ((be.ListObjects s.1 bck msg).2, s.2 ++ [(msg, (be.ListObjects s.1 bck msg).1)]))
  MaxPageSize := be.MaxPageSize

/-- What a log of `ListObjects` calls of one run looks like.  Starting with
the token `tok`: every request carries the job's prefix, the page size and the
current token; an answer that is followed by another request is a page with a
non-empty token, which becomes the current token; a failed call is the last
one and leaves the token as it is; `tok1` is the token at the end;
`latched` holds exactly when the last answer is a page with an empty token and
the run did not fail (`failed`). -/
def listingLog (pfx : String) (pageSize : Nat) :
    String → List (LsoMsg × Except DlErr LsoResult) → String → Bool → Bool → Prop
  | tok, [], tok1, latched, _ => tok1 = tok ∧ latched = false
  | tok, (msg, res) :: rest, tok1, latched, failed =>
    msg = ⟨pfx, tok, pageSize⟩ ∧
    match res with
    | .error _ => rest = [] ∧ tok1 = tok ∧ latched = false ∧ failed = true
    | .ok lst =>
      (rest = [] → tok1 = lst.ContinuationToken ∧
        (latched = true ↔ (lst.ContinuationToken = "" ∧ failed = false))) ∧
      (rest ≠ [] → lst.ContinuationToken ≠ "" ∧
        listingLog pfx pageSize lst.ContinuationToken rest tok1 latched failed)

/-! ## Constructors -/

/-- Transcription of `newBaseDlJob` (job.go, lines 138-154).  `none` is the
run-time panic of Go's integer division by zero. -/
def newBaseDlJob (env : Env) (id : String) (bck : Bck) (timeout desc : String)
    (limits : Limits) : Option baseDlJob :=
  if limits.BytesPerHour > 0 then
    if env.countActiveTargets = 0 then none
    else
      some
        { id := id, bck := bck, timeout := env.parseDuration timeout, description := desc,
          t := { limits with
            BytesPerHour := Int.tdiv limits.BytesPerHour (env.countActiveTargets : Int) } }
  else
    some
      { id := id, bck := bck, timeout := env.parseDuration timeout, description := desc,
        t := limits }

/-- The payload of a backend download request (`BackendBody`); `Describe` is
the result of its `Describe()` method. -/
structure BackendBody where
  Describe : String
  Timeout : String
  Limits : Limits
  Prefix : String
  Suffix : String
  Sync : Bool
deriving DecidableEq, Repr

/-- Transcription of `newBackendDlJob` (job.go, lines 346-361).  The outer
`Option` is `none` when `newBaseDlJob` panics. -/
def newBackendDlJob (env : Env) (id : String) (bck : Bck) (payload : BackendBody) :
    Option (Except String backendDlJob) :=
  if !bck.isRemote then
    some (.error "bucket download requires a remote bucket")
  else if bck.isHTTP then
    some (.error "bucket download does not support HTTP buckets")
  else
    match newBaseDlJob env id bck payload.Timeout payload.Describe payload.Limits with
    | none => none
    | some base =>
      some (.ok
        { base := base, sync := payload.Sync, pfx := payload.Prefix, sfx := payload.Suffix,
          continuationToken := "", objs := [], done := false })

/-! ## Base job: notifier and cleanup -/

/-- Transcription of `baseDlJob.ID` (job.go, line 156). -/
def baseDlJob.ID (j : baseDlJob) : String := j.id

/-- Transcription of `baseDlJob.Notif` (job.go, line 170). -/
def baseDlJob.Notif (j : baseDlJob) : Option NotifDownload := j.notif

/-- The four `debug.Assert` calls of `baseDlJob.AddNotif`, by what they
check. -/
inductive AssertFail where
  | notifNotNil
  | notDownload
  | noF
  | noP
deriving DecidableEq, Repr

/-- Transcription of `baseDlJob.AddNotif` (job.go, lines 172-182), with
`debug.Assert` as in a debug build: the first violated assertion ends the call
and is the result.  The job `job` is bound by its id. -/
def baseDlJob.AddNotif (j : baseDlJob) (n : ClusterNotif) (job : String) :
    Except AssertFail baseDlJob :=
  if j.notif.isSome then .error .notifNotNil
  else
    match n with
    | .foreign => .error .notDownload
    | .download nd =>
      if !nd.F then .error .noF
      else if nd.uponProgress && !nd.P then .error .noP
      else .ok { j with notif := some { nd with job := some job } }

/-- What `cleanup` does to its surroundings, one entry per call it makes. -/
inductive Effect where
  | throttlerStop
  | markFinished (id : String)
  | logError (err : DlErr)
  | flush (id : String)
  | onFinished (notif : Option NotifDownload) (err : Option DlErr)
deriving DecidableEq, Repr

/-- Transcription of `baseDlJob.cleanup` (job.go, lines 195-203) as the list
of calls it makes, in order.  `markFinished` is the answer of
`dlStore.markFinished` (its error, `none` for nil). -/
def baseDlJob.cleanup (markFinished : String → Option DlErr) (j : baseDlJob) : List Effect :=
  let err := markFinished j.ID
  [Effect.throttlerStop, Effect.markFinished j.ID] ++
    (match err with
     | some e => [Effect.logError e]
     | none => []) ++
    [Effect.flush j.ID, Effect.onFinished j.Notif err]

/-- Whether an effect is the `glog.Errorf` call. -/
def Effect.isLog : Effect → Bool
  | .logError _ => true
  | _ => false

/-! ## The persisted job record -/

/-- Go's `int32` value of an integer: wrap-around into `[-2^31, 2^31)`. -/
def wrap32 (x : Int) : Int := (x + 2147483648) % 4294967296 - 2147483648

/-- The job record (job.go, `dljob`).  Times are integers; the atomic
counters hold `int32` values. -/
structure dljob where
  ID : String
  XactID : String
  Description : String
  StartedTime : Int
  FinishedTime : Int
  FinishedCnt : Int
  ScheduledCnt : Int
  SkippedCnt : Int
  ErrorCnt : Int
  Total : Int
  Aborted : Bool
  AllDispatched : Bool
deriving DecidableEq, Repr

/-- Transcription of `dljob.valid` (job.go, lines 447-458): the error (`none`
for nil) and the record after the call.  `b + c` is an `int32` addition. -/
def dljob.valid (j : dljob) : Option String × dljob :=
  if j.Aborted then (none, j)
  else if !j.AllDispatched then (none, j)
  else if j.ScheduledCnt != wrap32 (j.FinishedCnt + j.ErrorCnt) then
    (some ("invalid: " ++ toString j.ScheduledCnt ++ " != " ++ toString j.FinishedCnt ++
      " + " ++ toString j.ErrorCnt), j)
  else (none, j)

/-- The status snapshot of a job (`Job`, declared outside `job.go`), with the
fields that `clone` fills. -/
structure Job where
  ID : String
  XactID : String
  Description : String
  FinishedCnt : Int
  ScheduledCnt : Int
  SkippedCnt : Int
  ErrorCnt : Int
  Total : Int
  AllDispatched : Bool
  Aborted : Bool
  StartedTime : Int
  FinishedTime : Int
deriving DecidableEq, Repr

/-- Transcription of `dljob.clone` (job.go, lines 429-444): the snapshot and
the record after the call.  The conversions `int(...)` of the `int32` counters
keep their values. -/
def dljob.clone (j : dljob) : Job × dljob :=
  ({ ID := j.ID, XactID := j.XactID, Description := j.Description,
     FinishedCnt := j.FinishedCnt, ScheduledCnt := j.ScheduledCnt,
     SkippedCnt := j.SkippedCnt, ErrorCnt := j.ErrorCnt, Total := j.Total,
     AllDispatched := j.AllDispatched, Aborted := j.Aborted,
     StartedTime := j.StartedTime, FinishedTime := j.FinishedTime }, j)

/-! ## Small concrete inputs -/

/-- A bucket of a cloud backend: remote, not HTTP. -/
def exBck : Bck := ⟨"bck", true, false⟩

/-- A base job without limits. -/
def exBase : baseDlJob := ⟨"job-1", exBck, 0, "", ⟨0, 0⟩, none⟩

/-- A work item fetched from a link. -/
def exObj (name : String) : dlObj := ⟨name, "http://x/" ++ name, false⟩

/-- A list job of three objects, cursor at the start. -/
def exSlice : sliceDlJob := ⟨exBase, [exObj "a", exObj "b", exObj "c"], 0⟩

/-- The part of a link after its last slash: Go's `path.Base` on a link that
is not empty and does not end in a slash. -/
def exPathBase (link : String) : String :=
  String.mk (link.toList.reverse.takeWhile (fun c => c != '/')).reverse

/-- Go's `path.Join` on a directory and a clean base name: the name itself
when the directory is empty. -/
def exPathJoin (dir name : String) : String :=
  if dir = "" then name else dir ++ "/" ++ name

/-- A target of a cluster in which the object `other.jpg` belongs to another
target and the name `%zz` cannot be normalised (a real error); every other
object is this target's. -/
def exEnv : Env where
  makeDlObj := fun _ name link =>
    if name = "%zz" then .error (.other "invalid URL escape")
    else if name = "other.jpg" then .error .errInvalidTarget
    else .ok ⟨name, link, link == ""⟩
  pathJoin := exPathJoin
  pathBase := exPathBase
  countActiveTargets := 2
  parseDuration := fun _ => 0

/-- The only target of a cluster: it owns every object. -/
def exEnvAll : Env where
  makeDlObj := fun _ name link => .ok ⟨name, link, link == ""⟩
  pathJoin := exPathJoin
  pathBase := exPathBase
  countActiveTargets := 1
  parseDuration := fun _ => 0

/-- A range job over three links, the second of which is another target's. -/
def exRange : rangeDlJob :=
  ⟨exBase, [], ["http://x/a.jpg", "http://x/other.jpg", "http://x/b.jpg"], "", 2, false⟩

/-- A range job whose first link makes the partitioner fail. -/
def exRangeBad : rangeDlJob :=
  ⟨exBase, [], ["http://x/%zz", "http://x/a.jpg"], "", 1, false⟩

/-- A range job over exactly 10000 links. -/
def exRangeFull : rangeDlJob :=
  ⟨exBase, [], (List.range 10000).map (fun i => "http://x/img-" ++ toString i), "", 10000,
    false⟩

/-- A backend that replays a fixed list of pages, one per call, whatever the
request; once the pages are used up it reports an empty last page. -/
def exScript : Backend (List LsoResult) where
  ListObjects := fun w _ _ =>
    match w with
    | [] => (.ok ⟨[], ""⟩, [])
    | page :: rest => (.ok page, rest)
  MaxPageSize := 1000

/-- The listing `foo-1, foo-2 | bar-3, foo-3` in two pages. -/
def exPages : List LsoResult :=
  [⟨["foo-1", "foo-2"], "page-2"⟩, ⟨["bar-3", "foo-3"], ""⟩]

/-- A backend job with prefix `foo-`, as `newBackendDlJob` creates it. -/
def exBackendJob : backendDlJob := ⟨exBase, "foo-", "", "", [], false, false⟩

/-- A backend job without filter, as `newBackendDlJob` creates it. -/
def exBackendAll : backendDlJob := ⟨exBase, "", "", "", [], false, false⟩

/-- A backend whose state counts the pages listed so far.  It lists eleven
pages of at most `MaxPageSize = 1000` entries: the first has 999 entries, the
others 1000, and the eleventh carries the empty continuation token. -/
def exPaged : Backend Nat where
  ListObjects := fun w _ _ =>
    (.ok ⟨(List.range (if w = 0 then 999 else 1000)).map
        (fun i => "obj-" ++ toString w ++ "-" ++ toString i),
      if w = 10 then "" else "page-" ++ toString (w + 1)⟩, w + 1)
  MaxPageSize := 1000

/-- A backend whose first call fails and whose later calls return one last
page with one entry. -/
def exFlaky : Backend Nat where
  ListObjects := fun w _ _ =>
    if w = 0 then (.error (.other "timeout"), 1) else (.ok ⟨["foo-1"], ""⟩, w + 1)
  MaxPageSize := 1000

/-- A backend request without limits: prefix `foo-`, no suffix, with sync. -/
def exBody : BackendBody := ⟨"backend download", "1h", ⟨0, 0⟩, "foo-", "", true⟩

/-- A target of a cluster of four active targets. -/
def exEnv4 : Env := { exEnv with countActiveTargets := 4 }

/-- A target whose cluster map holds no active target. -/
def exEnvNoTargets : Env := { exEnv with countActiveTargets := 0 }

/-- A backend request with a limit of 1000 bytes per hour. -/
def exBodyLimited : BackendBody := ⟨"backend download", "1h", ⟨1000, 0⟩, "foo-", "", true⟩

/-- A download notifier with a completion callback, not registered upon
progress, not bound yet. -/
def exNotif : NotifDownload := ⟨true, false, false, none⟩

/-- A job record that is finalized, with 3 scheduled, 2 finished, 1 failed. -/
def exRecord : dljob := ⟨"job-1", "xact-1", "", 10, 20, 2, 3, 1, 1, 3, false, true⟩

/-- A listing of one last page whose only entry has a name that cannot be
normalised. -/
def exBadPage : List LsoResult := [⟨["%zz"], ""⟩]

/-- The two `ListObjects` calls of the job with prefix `foo-` on the two-page
listing, with their answers. -/
def exListingLog : List (LsoMsg × Except DlErr LsoResult) :=
  [(⟨"foo-", "", 1000⟩, .ok ⟨["foo-1", "foo-2"], "page-2"⟩),
   (⟨"foo-", "page-2", 1000⟩, .ok ⟨["bar-3", "foo-3"], ""⟩)]

/-- The job with prefix `foo-` after its run on the two-page listing. -/
def exBackendDone : backendDlJob :=
  ⟨exBase, "foo-", "", "", [⟨"foo-1", "", true⟩, ⟨"foo-2", "", true⟩, ⟨"foo-3", "", true⟩],
    false, true⟩

/-! ## The pull loop -/

theorem collect_succ {J : Type} (step : J → Option (GenResult × J)) (fuel : Nat) (j : J) :
    collect step (fuel + 1) j =
      match step j with
      | none => none
      | some (r, j1) =>
        if r.ok then
          match collect step fuel j1 with
          | none => none
          | some (bs, e, j2) => some (r.objs :: bs, e, j2)
        else some ([], r.err, j1) := rfl

/-! ## List (slice) job: lemmas -/

theorem sliceDlJob.slice_genNext_end (j : sliceDlJob) (h : j.current = j.objs.length) :
    j.genNext = (⟨[], false, none⟩, j) := by
  simp [sliceDlJob.genNext, h]

theorem sliceDlJob.slice_genNext_last (j : sliceDlJob) (h1 : j.current ≠ j.objs.length)
    (h2 : j.objs.length ≤ j.current + downloadBatchSize) :
    j.genNext = (⟨j.objs.drop j.current, true, none⟩, { j with current := j.objs.length }) := by
  simp [sliceDlJob.genNext, h1, h2]

theorem sliceDlJob.slice_genNext_full (j : sliceDlJob)
    (h2 : j.current + downloadBatchSize < j.objs.length) :
    j.genNext = (⟨(j.objs.drop j.current).take downloadBatchSize, true, none⟩,
      { j with current := j.current + downloadBatchSize }) := by
  have h1 : j.current ≠ j.objs.length := by omega
  have h3 : ¬ j.objs.length ≤ j.current + downloadBatchSize := by omega
  simp [sliceDlJob.genNext, h1, h3]

/-- The whole run of a list job from any cursor inside the slice. -/
theorem sliceDlJob.slice_collect_spec (fuel : Nat) : ∀ j : sliceDlJob,
    j.current ≤ j.objs.length → j.objs.length - j.current < fuel →
    ∃ bs, j.collect fuel = some (bs, none, { j with current := j.objs.length }) ∧
      bs.flatten = j.objs.drop j.current ∧
      (∀ b ∈ bs, 0 < b.length ∧ b.length ≤ downloadBatchSize) ∧
      (∀ b ∈ bs.dropLast, b.length = downloadBatchSize) ∧
      bs.length = (j.objs.length - j.current + (downloadBatchSize - 1)) / downloadBatchSize := by
  induction fuel with
  | zero => intro j _ h; omega
  | succ fuel ih =>
    intro j hle hfuel
    unfold sliceDlJob.collect
    rw [collect_succ]
    by_cases h1 : j.current = j.objs.length
    · refine ⟨[], ?_, ?_, ?_, ?_, ?_⟩
      · rw [sliceDlJob.slice_genNext_end j h1]
        cases j
        simp_all
      · simp [h1]
      · simp
      · simp
      · simp [h1, downloadBatchSize]
    · by_cases h2 : j.objs.length ≤ j.current + downloadBatchSize
      · have hf : 0 < fuel := by omega
        obtain ⟨bs, hc, hfl, -, -, hlen⟩ :=
          ih { j with current := j.objs.length } (le_refl _) (by simpa using hf)
        have hbs : bs = [] := by
          apply List.eq_nil_of_length_eq_zero
          rw [hlen]
          simp [downloadBatchSize]
        subst hbs
        unfold sliceDlJob.collect at hc
        refine ⟨[j.objs.drop j.current], ?_, ?_, ?_, ?_, ?_⟩
        · rw [sliceDlJob.slice_genNext_last j h1 h2]
          simp only [hc]
          simp
        · simp
        · intro b hb
          simp only [List.mem_singleton] at hb
          subst hb
          simp only [List.length_drop]
          omega
        · simp
        · simp only [List.length_singleton, downloadBatchSize] at *
          omega
      · have h3 : j.current + downloadBatchSize < j.objs.length := by omega
        obtain ⟨bs, hc, hfl, hsz, hfull, hlen⟩ :=
          ih { j with current := j.current + downloadBatchSize } (by simpa using h3.le)
            (by simp only [downloadBatchSize] at *; omega)
        unfold sliceDlJob.collect at hc
        have hbl : ((j.objs.drop j.current).take downloadBatchSize).length = downloadBatchSize := by
          simp only [List.length_take, List.length_drop]
          omega
        have hne : bs ≠ [] := by
          intro h
          rw [h] at hlen
          simp only [List.length_nil, downloadBatchSize] at *
          omega
        refine ⟨(j.objs.drop j.current).take downloadBatchSize :: bs, ?_, ?_, ?_, ?_, ?_⟩
        · rw [sliceDlJob.slice_genNext_full j h3]
          simp only [hc]
          simp
        · rw [List.flatten_cons, hfl]
          simp only [List.drop_drop]
          rw [← List.drop_drop, List.take_append_drop]
        · intro b hb
          rcases List.mem_cons.1 hb with hb | hb
          · subst hb
            rw [hbl]
            simp [downloadBatchSize]
          · exact hsz b hb
        · rw [List.dropLast_cons_of_ne_nil hne]
          intro b hb
          rcases List.mem_cons.1 hb with hb | hb
          · subst hb
            exact hbl
          · exact hfull b hb
        · simp only [List.length_cons, hlen, downloadBatchSize] at *
          omega

/-! ## List (slice) job: properties -/

/-- C1: for a list job whose cursor starts at 0, pulling `genNext` until the
first `ok = false` terminates (any fuel above the number of objects is
enough), ends without error, and the batches concatenated in call order are
exactly the job's `objs`. -/
theorem sliceDlJob.slice_collect_flatten (j : sliceDlJob) (h0 : j.current = 0) (fuel : Nat)
    (hf : j.objs.length < fuel) :
    ∃ bs j1, j.collect fuel = some (bs, none, j1) ∧ bs.flatten = j.objs := by
  obtain ⟨bs, hc, hfl, -⟩ := sliceDlJob.slice_collect_spec fuel j (by omega) (by omega)
  exact ⟨bs, _, hc, by simpa [h0] using hfl⟩

theorem sliceDlJob.slice_collect_flatten_witness :
    exSlice.current = 0 ∧ exSlice.objs.length < 4 ∧
      ∃ bs j1, exSlice.collect 4 = some (bs, none, j1) ∧ bs.flatten = exSlice.objs :=
  ⟨rfl, by decide, sliceDlJob.slice_collect_flatten exSlice rfl 4 (by decide)⟩

/-- C2: a single `genNext` call of a list job (cursor inside the slice) that
returns `ok = true` returns between 1 and 10000 items; and the run of a job of
`n` objects from cursor 0 returns exactly `ceil (n / 10000)` batches, each
non-empty and of at most 10000 items, all but the last of exactly 10000 items;
for `n = 25000` the sizes are 10000, 10000, 5000. -/
theorem sliceDlJob.slice_batch_sizes (j : sliceDlJob) (h0 : j.current = 0) (fuel : Nat)
    (hf : j.objs.length < fuel) :
    (∀ k : sliceDlJob, k.current ≤ k.objs.length → k.genNext.1.ok = true →
      0 < k.genNext.1.objs.length ∧ k.genNext.1.objs.length ≤ downloadBatchSize) ∧
    ∃ bs j1, j.collect fuel = some (bs, none, j1) ∧
      (∀ b ∈ bs, 0 < b.length ∧ b.length ≤ 10000) ∧
      (∀ b ∈ bs.dropLast, b.length = 10000) ∧
      bs.length = (j.objs.length + 9999) / 10000 ∧
      (j.objs.length = 25000 → bs.map List.length = [10000, 10000, 5000]) := by
  constructor
  · intro k hk hok
    by_cases h1 : k.current = k.objs.length
    · rw [sliceDlJob.slice_genNext_end k h1] at hok
      simp at hok
    · by_cases h2 : k.objs.length ≤ k.current + downloadBatchSize
      · rw [sliceDlJob.slice_genNext_last k h1 h2]
        simp only [List.length_drop]
        omega
      · rw [sliceDlJob.slice_genNext_full k (by omega)]
        simp only [List.length_take, List.length_drop, downloadBatchSize] at *
        omega
  · obtain ⟨bs, hc, hfl, hsz, hfull, hlen⟩ :=
      sliceDlJob.slice_collect_spec fuel j (by omega) (by omega)
    simp only [h0, downloadBatchSize, List.drop_zero, Nat.sub_zero] at hfl hsz hfull hlen
    refine ⟨bs, _, hc, hsz, hfull, by simpa using hlen, ?_⟩
    intro hn
    rw [hn] at hlen
    have h3 : bs.length = 3 := by omega
    obtain ⟨a, b, c, rfl⟩ := List.length_eq_three.1 h3
    have ha : a.length = 10000 := hfull a (by simp [List.dropLast])
    have hb : b.length = 10000 := hfull b (by simp [List.dropLast])
    have hsum := congrArg List.length hfl
    simp only [List.flatten_cons, List.flatten_nil, List.length_append, List.length_nil, hn] at hsum
    simp only [List.map_cons, List.map_nil, ha, hb]
    have hcl : c.length = 5000 := by omega
    rw [hcl]

theorem sliceDlJob.slice_batch_sizes_witness :
    exSlice.current = 0 ∧ exSlice.objs.length < 4 ∧
      ∃ bs j1, exSlice.collect 4 = some (bs, none, j1) ∧
        (∀ b ∈ bs, 0 < b.length ∧ b.length ≤ 10000) ∧
        (∀ b ∈ bs.dropLast, b.length = 10000) ∧
        bs.length = (exSlice.objs.length + 9999) / 10000 ∧
        (exSlice.objs.length = 25000 → bs.map List.length = [10000, 10000, 5000]) :=
  ⟨rfl, by decide, (sliceDlJob.slice_batch_sizes exSlice rfl 4 (by decide)).2⟩

/-- C5: for a list job whose cursor lies inside the slice, `genNext` never
returns an error and returns `ok = false` exactly when the cursor is at the end
of `objs`; a call that returns `ok = false` returns no items and leaves the job
as it was, and so does every later call; a job without objects (cursor 0)
returns `ok = false` on its first call. -/
theorem sliceDlJob.slice_genNext_terminal (j : sliceDlJob) (hwf : j.current ≤ j.objs.length) :
    j.genNext.1.err = none ∧
    (j.genNext.1.ok = false ↔ j.current = j.objs.length) ∧
    (j.genNext.1.ok = false →
      j.genNext = (⟨[], false, none⟩, j) ∧
      ∀ k : Nat,
        ((fun s : sliceDlJob => s.genNext.2)^[k] j.genNext.2).genNext = (⟨[], false, none⟩, j)) ∧
    (j.objs = [] → j.genNext.1.ok = false) := by
  have hiff : j.genNext.1.ok = false ↔ j.current = j.objs.length := by
    by_cases h1 : j.current = j.objs.length
    · simp [sliceDlJob.slice_genNext_end j h1, h1]
    · by_cases h2 : j.objs.length ≤ j.current + downloadBatchSize
      · simp [sliceDlJob.slice_genNext_last j h1 h2, h1]
      · simp [sliceDlJob.slice_genNext_full j (by omega), h1]
  refine ⟨?_, hiff, ?_, ?_⟩
  · unfold sliceDlJob.genNext
    split
    · rfl
    · split <;> rfl
  · intro hok
    have h1 := hiff.1 hok
    have hg := sliceDlJob.slice_genNext_end j h1
    refine ⟨hg, ?_⟩
    intro k
    have hfix : ∀ n : Nat, ((fun s : sliceDlJob => s.genNext.2)^[n] j) = j := by
      intro n
      induction n with
      | zero => rfl
      | succ n ih => rw [Function.iterate_succ_apply, hg]; exact ih
    rw [hg]
    simp only
    rw [hfix k, hg]
  · intro he
    apply hiff.2
    rw [he] at hwf ⊢
    simpa using hwf

theorem sliceDlJob.slice_genNext_terminal_witness :
    exSlice.current ≤ exSlice.objs.length ∧
    (exSlice.genNext.1.ok = false ↔ exSlice.current = exSlice.objs.length) :=
  ⟨by decide, (sliceDlJob.slice_genNext_terminal exSlice (by decide)).2.1⟩

/-! ## Range job: lemmas -/

theorem rangeDlJob.range_NoErr_tail {env : Env} {j : rangeDlJob} {link : String} {rest : List String}
    (h : rangeDlJob.NoErr env j (link :: rest)) : rangeDlJob.NoErr env j rest :=
  fun l hl e he => h l (List.mem_cons_of_mem _ hl) e he

/-- What the fill loop does when the partitioner raises no real error: it
appends the items of a prefix of the links, and stops either on exhaustion
(buffer below the batch size) or with a full buffer. -/
theorem rangeDlJob.range_loop_spec (env : Env) (j : rangeDlJob) :
    ∀ (pt : List String) (objs : List dlObj), rangeDlJob.NoErr env j pt →
      objs.length ≤ downloadBatchSize →
      ∃ took rest d, rangeDlJob.loop env j pt objs = (none, objs ++ took, rest, d) ∧
        took ++ rest.filterMap (rangeDlJob.item env j) = pt.filterMap (rangeDlJob.item env j) ∧
        took.length + rest.length ≤ pt.length ∧ rest <:+ pt ∧
        ((d = true ∧ rest = [] ∧ (objs ++ took).length < downloadBatchSize) ∨
          (d = j.done ∧ (objs ++ took).length = downloadBatchSize)) := by
  intro pt
  induction pt with
  | nil =>
    intro objs _ hle
    by_cases hlt : objs.length < downloadBatchSize
    · exact ⟨[], [], true, by simp [rangeDlJob.loop, hlt], by simp, by simp, List.suffix_rfl,
        Or.inl ⟨rfl, rfl, by simpa using hlt⟩⟩
    · exact ⟨[], [], j.done, by simp [rangeDlJob.loop, hlt], by simp, by simp, List.suffix_rfl,
        Or.inr ⟨rfl, by simp; omega⟩⟩
  | cons link rest ih =>
    intro objs hne hle
    by_cases hlt : objs.length < downloadBatchSize
    · cases hmk : env.makeDlObj j.base.bck (env.pathJoin j.dir (env.pathBase link)) link with
      | error e =>
        have he : e = DlErr.errInvalidTarget := hne link (List.mem_cons_self _ _) e hmk
        obtain ⟨took, rest1, d, hl, hown, hlen, hsuf, hd⟩ :=
          ih objs (rangeDlJob.range_NoErr_tail hne) hle
        refine ⟨took, rest1, d, ?_, ?_, ?_, hsuf.trans (List.suffix_cons _ _), hd⟩
        · rw [rangeDlJob.loop]
          simp only [hlt, if_true, hmk, he]
          exact hl
        · rw [hown, List.filterMap_cons]
          simp [rangeDlJob.item, hmk]
        · simp only [List.length_cons]
          omega
      | ok obj =>
        have hle1 : (objs ++ [obj]).length ≤ downloadBatchSize := by
          simp only [List.length_append, List.length_singleton]
          omega
        obtain ⟨took, rest1, d, hl, hown, hlen, hsuf, hd⟩ :=
          ih (objs ++ [obj]) (rangeDlJob.range_NoErr_tail hne) hle1
        refine ⟨obj :: took, rest1, d, ?_, ?_, ?_, hsuf.trans (List.suffix_cons _ _), ?_⟩
        · rw [rangeDlJob.loop]
          simp only [hlt, if_true, hmk]
          rw [hl]
          simp
        · rw [List.filterMap_cons]
          simp only [rangeDlJob.item, hmk]
          rw [List.cons_append, hown]
        · simp only [List.length_cons]
          omega
        · simpa using hd
    · refine ⟨[], link :: rest, j.done, ?_, by simp, by simp, List.suffix_rfl,
        Or.inr ⟨rfl, by simp; omega⟩⟩
      rw [rangeDlJob.loop]
      simp [hlt]

/-- The fill loop never makes the buffer longer than the batch size, and a
loop that ends without error and without latching `done` leaves it full. -/
theorem rangeDlJob.range_loop_bound (env : Env) (j : rangeDlJob) :
    ∀ (pt : List String) (objs : List dlObj), objs.length ≤ downloadBatchSize →
      (rangeDlJob.loop env j pt objs).2.1.length ≤ downloadBatchSize ∧
      ((rangeDlJob.loop env j pt objs).1 = none →
        (rangeDlJob.loop env j pt objs).2.2.2 = false →
        (rangeDlJob.loop env j pt objs).2.1.length = downloadBatchSize) := by
  intro pt
  induction pt with
  | nil =>
    intro objs hle
    by_cases hlt : objs.length < downloadBatchSize
    · simp [rangeDlJob.loop, hlt, hle]
    · simp only [rangeDlJob.loop, hlt, if_false]
      exact ⟨hle, fun _ _ => by omega⟩
  | cons link rest ih =>
    intro objs hle
    by_cases hlt : objs.length < downloadBatchSize
    · rw [rangeDlJob.loop]
      simp only [hlt, if_true]
      cases hmk : env.makeDlObj j.base.bck (env.pathJoin j.dir (env.pathBase link)) link with
      | error e =>
        by_cases he : e = DlErr.errInvalidTarget
        · simp only [he, if_true]
          exact ih objs hle
        · simp only [he, if_false]
          exact ⟨hle, fun h _ => by simp at h⟩
      | ok obj =>
        simp only
        exact ih (objs ++ [obj]) (by simp only [List.length_append, List.length_singleton]; omega)
    · rw [rangeDlJob.loop]
      simp only [hlt, if_false]
      exact ⟨hle, fun _ _ => by omega⟩

theorem rangeDlJob.range_genNext_done (env : Env) (j : rangeDlJob) (hd : j.done = true) :
    rangeDlJob.genNext env j = (⟨[], false, none⟩, j) := by
  simp [rangeDlJob.genNext, hd]

/-- Once `done` is latched, any number of further calls of a range job return
no items, `ok = false` and a nil error, and leave the job as it is. -/
theorem rangeDlJob.range_genNext_done_iterate (env : Env) (j : rangeDlJob)
    (hd : j.done = true) (k : Nat) :
    rangeDlJob.genNext env ((fun s => (rangeDlJob.genNext env s).2)^[k] j) =
      (⟨[], false, none⟩, j) := by
  have hfix : ∀ n : Nat, ((fun s => (rangeDlJob.genNext env s).2)^[n] j) = j := by
    intro n
    induction n with
    | zero => rfl
    | succ n ih =>
      rw [Function.iterate_succ_apply, rangeDlJob.range_genNext_done env j hd]
      exact ih
  rw [hfix k, rangeDlJob.range_genNext_done env j hd]

/-- The loop of a range job leaves `done` as it was when it ends with an
error. -/
theorem rangeDlJob.range_loop_err_done (env : Env) (j : rangeDlJob) :
    ∀ (links : List String) (objs : List dlObj),
      (rangeDlJob.loop env j links objs).1 ≠ none →
      (rangeDlJob.loop env j links objs).2.2.2 = j.done := by
  intro links
  induction links with
  | nil =>
    intro objs h
    rw [rangeDlJob.loop] at h ⊢
    by_cases hlt : objs.length < downloadBatchSize
    · simp [hlt] at h
    · simp [hlt]
  | cons link rest ih =>
    intro objs h
    rw [rangeDlJob.loop] at h ⊢
    by_cases hlt : objs.length < downloadBatchSize
    · simp only [hlt, if_true] at h ⊢
      cases hm : env.makeDlObj j.base.bck (env.pathJoin j.dir (env.pathBase link)) link with
      | error e =>
        simp only [hm] at h ⊢
        by_cases he : e = DlErr.errInvalidTarget
        · simp only [he, if_true] at h ⊢
          exact ih objs h
        · simp only [he, if_false]
      | ok obj =>
        simp only [hm] at h ⊢
        exact ih _ h
    · simp [hlt]

/-- A call of a range job that returns an error returns no items and
`ok = false`, was made on a job that was not done, and does not latch `done`. -/
theorem rangeDlJob.range_genNext_err_done (env : Env) (j : rangeDlJob)
    (herr : (rangeDlJob.genNext env j).1.err ≠ none) :
    (rangeDlJob.genNext env j).1.ok = false ∧ (rangeDlJob.genNext env j).1.objs = [] ∧
    j.done = false ∧ (rangeDlJob.genNext env j).2.done = false := by
  cases hd : j.done with
  | true =>
    rw [rangeDlJob.range_genNext_done env j hd] at herr
    exact absurd rfl herr
  | false =>
    have hl := rangeDlJob.range_loop_err_done env j j.pt []
    rcases hlo : rangeDlJob.loop env j j.pt [] with ⟨e, objs, pt, done⟩
    rw [hlo] at hl
    cases e with
    | none => simp [rangeDlJob.genNext, rangeDlJob.getNextObjs, hd, hlo] at herr
    | some e =>
      have hdone : done = false := by
        have := hl (by simp)
        simp only at this
        rw [this, hd]
      simp [rangeDlJob.genNext, rangeDlJob.getNextObjs, hd, hlo, hdone]

/-- One call of a range job that is not done, when the partitioner raises no
real error on the remaining links. -/
theorem rangeDlJob.range_genNext_spec (env : Env) (j : rangeDlJob) (hd : j.done = false)
    (hne : rangeDlJob.NoErr env j j.pt) :
    ∃ took rest d,
      rangeDlJob.genNext env j =
        (⟨took, true, none⟩, { j with objs := took, pt := rest, done := d }) ∧
      took ++ rest.filterMap (rangeDlJob.item env j) = j.pt.filterMap (rangeDlJob.item env j) ∧
      took.length + rest.length ≤ j.pt.length ∧ rest <:+ j.pt ∧
      ((d = true ∧ rest = [] ∧ took.length < downloadBatchSize) ∨
        (d = false ∧ took.length = downloadBatchSize)) := by
  obtain ⟨took, rest, d, hl, hown, hlen, hsuf, hcase⟩ :=
    rangeDlJob.range_loop_spec env j j.pt [] hne (by simp)
  refine ⟨took, rest, d, ?_, hown, hlen, hsuf, ?_⟩
  · simp only [rangeDlJob.genNext, hd, rangeDlJob.getNextObjs, hl]
    simp
  · simpa [hd] using hcase

/-- The whole run of a range job when the partitioner raises no real error. -/
theorem rangeDlJob.range_collect_spec (env : Env) (fuel : Nat) : ∀ j : rangeDlJob,
    j.done = false → rangeDlJob.NoErr env j j.pt → j.pt.length + 2 ≤ fuel →
    ∃ bs j1, rangeDlJob.collect env fuel j = some (bs, none, j1) ∧
      bs.flatten = j.pt.filterMap (rangeDlJob.item env j) ∧
      (∀ b ∈ bs, b.length ≤ downloadBatchSize) ∧
      (∀ b ∈ bs.dropLast, b.length = downloadBatchSize) ∧
      bs.length = (j.pt.filterMap (rangeDlJob.item env j)).length / downloadBatchSize + 1 := by
  induction fuel with
  | zero => intro j _ _ h; omega
  | succ fuel ih =>
    intro j hd hne hfuel
    obtain ⟨took, rest, d, hg, hown, hlen, hsuf, hcase⟩ := rangeDlJob.range_genNext_spec env j hd hne
    unfold rangeDlJob.collect
    rw [collect_succ]
    simp only [hg]
    rcases hcase with ⟨hd1, hrest, hlt⟩ | ⟨hd1, hfull⟩
    · subst hd1 hrest
      obtain ⟨f, rfl⟩ : ∃ f, fuel = f + 1 := ⟨fuel - 1, by omega⟩
      rw [collect_succ]
      rw [rangeDlJob.range_genNext_done env { j with objs := took, pt := [], done := true } rfl]
      simp only [List.filterMap_nil, List.append_nil] at hown
      refine ⟨[took], _, rfl, by simpa using hown, ?_, by simp, ?_⟩
      · intro b hb
        simp only [List.mem_singleton] at hb
        subst hb
        omega
      · rw [← hown]
        simp only [List.length_singleton, downloadBatchSize] at *
        omega
    · subst hd1
      have hne1 : rangeDlJob.NoErr env { j with objs := took, pt := rest, done := false } rest :=
        fun l hl e he => hne l (hsuf.subset hl) e he
      obtain ⟨bs, j1, hc, hfl, hsz, hfullb, hcnt⟩ :=
        ih { j with objs := took, pt := rest, done := false } rfl hne1
          (by simp only [downloadBatchSize] at *; omega)
      have hitem : rangeDlJob.item env { j with objs := took, pt := rest, done := false } =
          rangeDlJob.item env j := rfl
      simp only [hitem] at hfl hcnt
      unfold rangeDlJob.collect at hc
      have hne2 : bs ≠ [] := by
        intro h
        rw [h] at hcnt
        simp at hcnt
      have hl2 := congrArg List.length hown
      simp only [List.length_append] at hl2
      refine ⟨took :: bs, j1, ?_, ?_, ?_, ?_, ?_⟩
      · simp only [hc]
        simp
      · rw [List.flatten_cons, hfl, hown]
      · intro b hb
        rcases List.mem_cons.1 hb with hb | hb
        · subst hb
          omega
        · exact hsz b hb
      · rw [List.dropLast_cons_of_ne_nil hne2]
        intro b hb
        rcases List.mem_cons.1 hb with hb | hb
        · subst hb
          exact hfull
        · exact hfullb b hb
      · simp only [List.length_cons, hcnt, downloadBatchSize] at *
        omega

theorem length_filterMap_of_isSome {α β : Type} (f : α → Option β) :
    ∀ l : List α, (∀ a ∈ l, ∃ b, f a = some b) → (l.filterMap f).length = l.length := by
  intro l
  induction l with
  | nil => intro _; rfl
  | cons a l ih =>
    intro h
    obtain ⟨b, hb⟩ := h a (List.mem_cons_self _ _)
    rw [List.filterMap_cons, hb]
    simp only [List.length_cons]
    rw [ih (fun x hx => h x (List.mem_cons_of_mem _ hx))]

/-- The two size facts of a single call of a range job, in any state. -/
theorem rangeDlJob.range_genNext_bound (env : Env) (j : rangeDlJob) :
    (rangeDlJob.genNext env j).1.objs.length ≤ downloadBatchSize ∧
    ((rangeDlJob.genNext env j).1.ok = true → (rangeDlJob.genNext env j).2.done = false →
      (rangeDlJob.genNext env j).1.objs.length = downloadBatchSize) := by
  by_cases hd : j.done = true
  · rw [rangeDlJob.range_genNext_done env j hd]
    simp
  · have hb := rangeDlJob.range_loop_bound env j j.pt [] (by simp)
    rcases hl : rangeDlJob.loop env j j.pt [] with ⟨e, objs, pt, d⟩
    rw [hl] at hb
    cases e with
    | none =>
      simp only [rangeDlJob.genNext, hd, rangeDlJob.getNextObjs, hl]
      exact ⟨hb.1, fun _ hdd => hb.2 rfl hdd⟩
    | some e =>
      simp only [rangeDlJob.genNext, hd, rangeDlJob.getNextObjs, hl]
      simp

/-! ## Range job: properties -/

/-- C3: every batch a range job returns has at most 10000 items, and a batch
returned by a call that did not reach the end of the template (it returned
`ok = true` and did not latch `done`) has exactly 10000 items; a job over a
template of 25000 links, all owned by this target, returns batches of sizes
10000, 10000, 5000 and then `ok = false` without error. -/
theorem rangeDlJob.range_batch_sizes (env : Env) (j : rangeDlJob) :
    (rangeDlJob.genNext env j).1.objs.length ≤ 10000 ∧
    ((rangeDlJob.genNext env j).1.ok = true → (rangeDlJob.genNext env j).2.done = false →
      (rangeDlJob.genNext env j).1.objs.length = 10000) ∧
    (j.done = false → j.pt.length = 25000 →
      (∀ link ∈ j.pt, ∃ obj,
        env.makeDlObj j.base.bck (env.pathJoin j.dir (env.pathBase link)) link = .ok obj) →
      ∀ fuel, 25002 ≤ fuel →
        ∃ bs j1, rangeDlJob.collect env fuel j = some (bs, none, j1) ∧
          bs.map List.length = [10000, 10000, 5000]) := by
  refine ⟨(rangeDlJob.range_genNext_bound env j).1, (rangeDlJob.range_genNext_bound env j).2, ?_⟩
  intro hd hn hall fuel hfuel
  have hne : rangeDlJob.NoErr env j j.pt := by
    intro l hl e he
    obtain ⟨obj, ho⟩ := hall l hl
    rw [ho] at he
    cases he
  have hcount : (j.pt.filterMap (rangeDlJob.item env j)).length = 25000 := by
    rw [length_filterMap_of_isSome _ _ (fun l hl => ?_), hn]
    obtain ⟨obj, ho⟩ := hall l hl
    exact ⟨obj, by simp [rangeDlJob.item, ho]⟩
  obtain ⟨bs, j1, hc, hfl, -, hfull, hlen⟩ :=
    rangeDlJob.range_collect_spec env fuel j hd hne (by omega)
  refine ⟨bs, j1, hc, ?_⟩
  rw [hcount] at hlen
  simp only [downloadBatchSize] at hlen hfull
  have h3 : bs.length = 3 := by omega
  obtain ⟨a, b, c, rfl⟩ := List.length_eq_three.1 h3
  have ha : a.length = 10000 := hfull a (by simp [List.dropLast])
  have hb : b.length = 10000 := hfull b (by simp [List.dropLast])
  have hsum := congrArg List.length hfl
  simp only [List.flatten_cons, List.flatten_nil, List.length_append, List.length_nil,
    hcount] at hsum
  have hcl : c.length = 5000 := by omega
  simp only [List.map_cons, List.map_nil, ha, hb, hcl]

theorem rangeDlJob.range_batch_sizes_witness :
    (rangeDlJob.genNext exEnv exRange).1.ok = true ∧
    (rangeDlJob.genNext exEnv exRange).1.objs.length ≤ 10000 :=
  ⟨by decide, (rangeDlJob.range_batch_sizes exEnv exRange).1⟩

/-- C7: for a range job that is not done and on whose remaining links the
partitioner raises no error but `errInvalidTarget`, pulling `genNext` until the
first `ok = false` terminates without error, and the batches concatenated in
call order are the template's links, in template order, restricted to those for
which the partitioner returns an object for the name
`path.Join(dir, path.Base(link))` and the link, each replaced by that object.
A link of another target contributes nothing, and every batch but the last
holds exactly 10000 such objects (skipped links do not count). -/
theorem rangeDlJob.range_collect_flatten (env : Env) (j : rangeDlJob) (hd : j.done = false)
    (hne : ∀ link ∈ j.pt, ∀ e,
      env.makeDlObj j.base.bck (env.pathJoin j.dir (env.pathBase link)) link = .error e →
        e = DlErr.errInvalidTarget)
    (fuel : Nat) (hf : j.pt.length + 2 ≤ fuel) :
    ∃ bs j1, rangeDlJob.collect env fuel j = some (bs, none, j1) ∧
      bs.flatten = j.pt.filterMap (rangeDlJob.item env j) ∧
      (∀ b ∈ bs.dropLast, b.length = downloadBatchSize) ∧
      (∀ link obj,
        env.makeDlObj j.base.bck (env.pathJoin j.dir (env.pathBase link)) link = .ok obj →
          rangeDlJob.item env j link = some obj) ∧
      (∀ link,
        env.makeDlObj j.base.bck (env.pathJoin j.dir (env.pathBase link)) link =
            .error DlErr.errInvalidTarget →
          rangeDlJob.item env j link = none) := by
  obtain ⟨bs, j1, hc, hfl, -, hfull, -⟩ := rangeDlJob.range_collect_spec env fuel j hd hne hf
  refine ⟨bs, j1, hc, hfl, hfull, ?_, ?_⟩
  · intro link obj h
    simp [rangeDlJob.item, h]
  · intro link h
    simp [rangeDlJob.item, h]

theorem rangeDlJob.range_collect_flatten_witness :
    ∃ bs j1, rangeDlJob.collect exEnv 5 exRange = some (bs, none, j1) ∧
      bs.flatten = exRange.pt.filterMap (rangeDlJob.item exEnv exRange) :=
  have h := rangeDlJob.range_collect_flatten exEnv exRange rfl
    (by
      intro link hl e he
      simp only [exRange, List.mem_cons, List.mem_singleton, List.not_mem_nil, or_false] at hl
      rcases hl with rfl | rfl | rfl
      · exact absurd he (by rw [show exEnv.makeDlObj exRange.base.bck
            (exEnv.pathJoin exRange.dir (exEnv.pathBase "http://x/a.jpg")) "http://x/a.jpg" =
            .ok ⟨"a.jpg", "http://x/a.jpg", false⟩ from rfl]; simp)
      · rw [show exEnv.makeDlObj exRange.base.bck
            (exEnv.pathJoin exRange.dir (exEnv.pathBase "http://x/other.jpg"))
            "http://x/other.jpg" = .error .errInvalidTarget from rfl] at he
        cases he
        rfl
      · exact absurd he (by rw [show exEnv.makeDlObj exRange.base.bck
            (exEnv.pathJoin exRange.dir (exEnv.pathBase "http://x/b.jpg")) "http://x/b.jpg" =
            .ok ⟨"b.jpg", "http://x/b.jpg", false⟩ from rfl]; simp))
    5 (by decide)
  ⟨h.choose, h.choose_spec.choose, h.choose_spec.choose_spec.1, h.choose_spec.choose_spec.2.1⟩

/-- C8 fails as stated: a range job over exactly 10000 links, all owned by
this target, returns the 10000 items on its first call and an empty batch with
`ok = true` and no error on its second call. -/
theorem rangeDlJob.range_empty_batch_counterexample :
    (rangeDlJob.genNext exEnvAll exRangeFull).1.ok = true ∧
    (rangeDlJob.genNext exEnvAll exRangeFull).1.err = none ∧
    (rangeDlJob.genNext exEnvAll exRangeFull).1.objs.length = 10000 ∧
    (rangeDlJob.genNext exEnvAll (rangeDlJob.genNext exEnvAll exRangeFull).2).1 =
      ⟨[], true, none⟩ := by
  have hne : rangeDlJob.NoErr exEnvAll exRangeFull exRangeFull.pt := by
    intro l _ e he
    simp [exEnvAll] at he
  have hcount : (exRangeFull.pt.filterMap (rangeDlJob.item exEnvAll exRangeFull)).length =
      10000 := by
    have hall : ∀ l ∈ exRangeFull.pt, ∃ b, rangeDlJob.item exEnvAll exRangeFull l = some b :=
      fun l _ => ⟨_, rfl⟩
    rw [length_filterMap_of_isSome (rangeDlJob.item exEnvAll exRangeFull) exRangeFull.pt hall]
    simp [exRangeFull]
  have hpt : exRangeFull.pt.length = 10000 := by simp [exRangeFull]
  obtain ⟨took, rest, d, hg, hown, hlen, -, hcase⟩ :=
    rangeDlJob.range_genNext_spec exEnvAll exRangeFull rfl hne
  have hl := congrArg List.length hown
  rw [hcount, List.length_append] at hl
  rcases hcase with ⟨-, hrest, hlt⟩ | ⟨hd, hfull⟩
  · subst hrest
    simp only [List.filterMap_nil, List.length_nil, downloadBatchSize] at hl hlt
    omega
  · have hrest : rest = [] := by
      apply List.eq_nil_of_length_eq_zero
      simp only [downloadBatchSize] at hfull
      omega
    subst hrest hd
    rw [hg]
    refine ⟨rfl, rfl, hfull, ?_⟩
    simp [rangeDlJob.genNext, rangeDlJob.getNextObjs, rangeDlJob.loop, downloadBatchSize]

/-- C8, amended: a `genNext` call of a range job that returns `ok = true`
without latching `done` (the template was not exhausted during the call)
returns a non-empty batch, of exactly 10000 items; a call that returns
`ok = true` with an empty batch has latched `done`, so the next call returns
`ok = false` and no items; and a call that returns `ok = true` with `done`
latched is the last one that does: every later call, whatever the partitioner,
returns no items, `ok = false` and a nil error, and leaves the job as it is. -/
theorem rangeDlJob.range_nonempty_unless_exhausted (env : Env) (j : rangeDlJob)
    (hok : (rangeDlJob.genNext env j).1.ok = true) :
    ((rangeDlJob.genNext env j).2.done = false →
      (rangeDlJob.genNext env j).1.objs ≠ [] ∧
      (rangeDlJob.genNext env j).1.objs.length = downloadBatchSize) ∧
    ((rangeDlJob.genNext env j).1.objs = [] →
      (rangeDlJob.genNext env j).2.done = true ∧
      rangeDlJob.genNext env (rangeDlJob.genNext env j).2 =
        (⟨[], false, none⟩, (rangeDlJob.genNext env j).2)) ∧
    ((rangeDlJob.genNext env j).2.done = true → ∀ (env2 : Env) (k : Nat),
      rangeDlJob.genNext env2
          ((fun s => (rangeDlJob.genNext env2 s).2)^[k] (rangeDlJob.genNext env j).2) =
        (⟨[], false, none⟩, (rangeDlJob.genNext env j).2)) := by
  have hb := (rangeDlJob.range_genNext_bound env j).2 hok
  have h1 : (rangeDlJob.genNext env j).2.done = false →
      (rangeDlJob.genNext env j).1.objs ≠ [] ∧
      (rangeDlJob.genNext env j).1.objs.length = downloadBatchSize := by
    intro hd
    refine ⟨?_, hb hd⟩
    intro he
    have := hb hd
    rw [he] at this
    simp [downloadBatchSize] at this
  refine ⟨h1, ?_, ?_⟩
  · intro he
    have hd : (rangeDlJob.genNext env j).2.done = true := by
      cases hdd : (rangeDlJob.genNext env j).2.done with
      | true => rfl
      | false => exact absurd he (h1 hdd).1
    exact ⟨hd, rangeDlJob.range_genNext_done env _ hd⟩
  · intro hd env2 k
    exact rangeDlJob.range_genNext_done_iterate env2 _ hd k

theorem rangeDlJob.range_nonempty_unless_exhausted_witness :
    (rangeDlJob.genNext exEnv exRange).1.ok = true ∧
    ((rangeDlJob.genNext exEnv exRange).2.done = false →
      (rangeDlJob.genNext exEnv exRange).1.objs ≠ [] ∧
      (rangeDlJob.genNext exEnv exRange).1.objs.length = downloadBatchSize) :=
  ⟨by decide, (rangeDlJob.range_nonempty_unless_exhausted exEnv exRange (by decide)).1⟩

/-! ## Backend job: lemmas -/

theorem backendDlJob.backend_genNext_done {σ : Type} (env : Env) (be : Backend σ) (fuel : Nat) (w : σ)
    (j : backendDlJob) (hd : j.done = true) :
    backendDlJob.genNext env be fuel w j = some (⟨[], false, none⟩, w, j) := by
  simp [backendDlJob.genNext, hd]

/-- The entries loop appends at most one item per entry. -/
theorem backendDlJob.backend_addEntries_length (env : Env) (j : backendDlJob) :
    ∀ (names : List String) (objs : List dlObj),
      (backendDlJob.addEntries env j names objs).2.length ≤ objs.length + names.length := by
  intro names
  induction names with
  | nil => intro objs; simp [backendDlJob.addEntries]
  | cons name rest ih =>
    intro objs
    rw [backendDlJob.addEntries]
    by_cases hc : j.checkObj name = true
    · simp only [hc, Bool.not_true, Bool.false_eq_true, if_false]
      cases hmk : env.makeDlObj j.base.bck name "" with
      | error e =>
        by_cases he : e = DlErr.errInvalidTarget
        · simp only [he, if_true]
          have := ih objs
          simp only [List.length_cons]
          omega
        · simp only [he, if_false, List.length_cons]
          omega
      | ok obj =>
        simp only
        have := ih (objs ++ [obj])
        simp only [List.length_append, List.length_cons, List.length_nil] at this ⊢
        omega
    · simp only [hc, Bool.not_false, if_true]
      have := ih objs
      simp only [List.length_cons]
      omega

/-- The entries loop when the partitioner raises no real error on the entries
that pass `checkObj`: it appends the kept entries, in order. -/
theorem backendDlJob.backend_addEntries_spec (env : Env) (j : backendDlJob) :
    ∀ (names : List String) (objs : List dlObj),
      (∀ name ∈ names, j.checkObj name = true → ∀ e,
        env.makeDlObj j.base.bck name "" = .error e → e = DlErr.errInvalidTarget) →
      backendDlJob.addEntries env j names objs =
        (none, objs ++ names.filterMap (backendDlJob.keep env j)) := by
  intro names
  induction names with
  | nil => intro objs _; simp [backendDlJob.addEntries]
  | cons name rest ih =>
    intro objs hne
    have hrest := fun n hn => hne n (List.mem_cons_of_mem _ hn)
    rw [backendDlJob.addEntries, List.filterMap_cons]
    by_cases hc : j.checkObj name = true
    · simp only [hc, Bool.not_true, Bool.false_eq_true, if_false]
      cases hmk : env.makeDlObj j.base.bck name "" with
      | error e =>
        have he := hne name (List.mem_cons_self _ _) hc e hmk
        simp only [he, if_true, backendDlJob.keep, hc, hmk]
        exact ih objs hrest
      | ok obj =>
        simp only [backendDlJob.keep, hc, hmk, if_true]
        rw [ih (objs ++ [obj]) hrest]
        simp
    · simp only [hc, Bool.not_false, if_true, backendDlJob.keep, Bool.false_eq_true, if_false]
      exact ih objs hrest

/-- The page loop keeps the buffer below the batch size plus one page. -/
theorem backendDlJob.backend_loop_bound {σ : Type} (env : Env) (be : Backend σ)
    (hP : ∀ w bck pfx token lst w1,
      be.ListObjects w bck ⟨pfx, token, be.MaxPageSize⟩ = (.ok lst, w1) →
        lst.Entries.length ≤ be.MaxPageSize) :
    ∀ (fuel : Nat) (w : σ) (j : backendDlJob) e w1 j1,
      j.objs.length < downloadBatchSize + be.MaxPageSize →
      backendDlJob.loop env be fuel w j = some (e, w1, j1) →
      j1.objs.length < downloadBatchSize + be.MaxPageSize := by
  intro fuel
  induction fuel with
  | zero =>
    intro w j e w1 j1 hj hl
    by_cases hlt : j.objs.length < downloadBatchSize
    · simp [backendDlJob.loop, hlt] at hl
    · simp only [backendDlJob.loop, hlt, if_false, Option.some.injEq, Prod.mk.injEq] at hl
      rw [← hl.2.2]
      exact hj
  | succ fuel ih =>
    intro w j e w1 j1 hj hl
    by_cases hlt : j.objs.length < downloadBatchSize
    · rw [backendDlJob.loop] at hl
      simp only [hlt, if_true] at hl
      rcases hlo : be.ListObjects w j.base.bck ⟨j.pfx, j.continuationToken, be.MaxPageSize⟩
        with ⟨res, w2⟩
      rw [hlo] at hl
      cases res with
      | error e2 =>
        simp only [Option.some.injEq, Prod.mk.injEq] at hl
        rw [← hl.2.2]
        exact hj
      | ok lst =>
        have hpage := hP _ _ _ _ _ _ hlo
        have hadd := backendDlJob.backend_addEntries_length env j lst.Entries j.objs
        rcases hae : backendDlJob.addEntries env j lst.Entries j.objs with ⟨e3, objs⟩
        rw [hae] at hadd
        simp only [hae] at hl
        have hobjs : objs.length < downloadBatchSize + be.MaxPageSize := by
          simp only at hadd
          omega
        cases e3 with
        | some e4 =>
          simp only [Option.some.injEq, Prod.mk.injEq] at hl
          rw [← hl.2.2]
          exact hobjs
        | none =>
          simp only at hl
          by_cases htok : lst.ContinuationToken = ""
          · simp only [htok, if_true, Option.some.injEq, Prod.mk.injEq] at hl
            rw [← hl.2.2]
            exact hobjs
          · simp only [htok, if_false] at hl
            exact ih _ _ _ _ _ hobjs hl
    · rw [backendDlJob.loop] at hl
      simp only [hlt, if_false, Option.some.injEq, Prod.mk.injEq] at hl
      rw [← hl.2.2]
      exact hj

/-- On the only target of a cluster and without filter, the entries loop
keeps every entry. -/
theorem backendDlJob.backend_addEntries_all (j : backendDlJob) (hp : j.pfx = "") (hs : j.sfx = "")
    (names : List String) (objs : List dlObj) :
    ∃ objs1, backendDlJob.addEntries exEnvAll j names objs = (none, objs1) ∧
      objs1.length = objs.length + names.length := by
  refine ⟨_, backendDlJob.backend_addEntries_spec exEnvAll j names objs ?_, ?_⟩
  · intro name _ _ e he
    simp [exEnvAll] at he
  · rw [List.length_append, length_filterMap_of_isSome (backendDlJob.keep exEnvAll j) names]
    intro name _
    exact ⟨⟨name, "", true⟩, by simp [backendDlJob.keep, backendDlJob.checkObj, hp, hs, exEnvAll]⟩

/-- One call of a backend job that is not done is one run of the page loop
on the emptied buffer. -/
theorem backendDlJob.backend_genNext_run {σ : Type} (env : Env) (be : Backend σ) (fuel : Nat) (w : σ)
    (j : backendDlJob) (hd : j.done = false) :
    backendDlJob.genNext env be fuel w j =
      match backendDlJob.loop env be fuel w { j with objs := [] } with
      | none => none
      | some (some e, w1, j1) => some (⟨[], false, some e⟩, w1, j1)
      | some (none, w1, j1) => some (⟨j1.objs, true, none⟩, w1, j1) := by
  unfold backendDlJob.genNext backendDlJob.getNextObjs
  rw [if_neg (by simp [hd])]

theorem exPaged_token (w : Nat) : ¬ ("page-" ++ toString (w + 1) = "") := by
  intro h
  have h1 := congrArg String.length h
  rw [String.length_append] at h1
  have h2 : "page-".length = 5 := by decide
  have h3 : "".length = 0 := by decide
  omega

/-- One iteration of the page loop on the eleven-page listing. -/
theorem exPaged_step (w : Nat) (j : backendDlJob) (f : Nat) (hp : j.pfx = "") (hs : j.sfx = "")
    (hlt : j.objs.length < downloadBatchSize) :
    ∃ objs1, objs1.length = j.objs.length + (if w = 0 then 999 else 1000) ∧
      backendDlJob.loop exEnvAll exPaged (f + 1) w j =
        if w = 10 then
          some (none, w + 1, { j with continuationToken := "", objs := objs1, done := true })
        else
          backendDlJob.loop exEnvAll exPaged f (w + 1)
            { j with continuationToken := "page-" ++ toString (w + 1), objs := objs1 } := by
  obtain ⟨objs1, hadd, hl1⟩ := backendDlJob.backend_addEntries_all j hp hs
    ((List.range (if w = 0 then 999 else 1000)).map
      (fun i => "obj-" ++ toString w ++ "-" ++ toString i)) j.objs
  refine ⟨objs1, by simpa using hl1, ?_⟩
  rw [backendDlJob.loop, if_pos hlt]
  show (match backendDlJob.addEntries exEnvAll j
      ((List.range (if w = 0 then 999 else 1000)).map
        (fun i => "obj-" ++ toString w ++ "-" ++ toString i)) j.objs with
    | (some e, objs) => _
    | (none, objs) => _) = _
  rw [hadd]
  by_cases h10 : w = 10
  · simp only [h10, if_true]
  · simp only [h10, if_false, exPaged_token w]

/-- The page loop on the eleven-page listing, from page `w ≥ 1` on, with
`1000 * w - 1` items in the buffer: it reads all remaining pages and ends with
10999 items. -/
theorem exPaged_loop : ∀ (k w : Nat) (j : backendDlJob) (fuel : Nat),
    w + k = 10 → 1 ≤ w → j.pfx = "" → j.sfx = "" → j.objs.length + 1 = 1000 * w → k < fuel →
    ∃ w1 j1, backendDlJob.loop exEnvAll exPaged fuel w j = some (none, w1, j1) ∧
      j1.objs.length = 10999 ∧ j1.done = true := by
  intro k
  induction k with
  | zero =>
    intro w j fuel hw _ hp hs hlen hf
    obtain ⟨f, rfl⟩ : ∃ f, fuel = f + 1 := ⟨fuel - 1, by omega⟩
    have hw10 : w = 10 := by omega
    have hw0 : w ≠ 0 := by omega
    have hlt : j.objs.length < downloadBatchSize := by simp only [downloadBatchSize]; omega
    obtain ⟨objs1, hl1, hstep⟩ := exPaged_step w j f hp hs hlt
    rw [hstep, if_pos hw10]
    rw [if_neg hw0] at hl1
    exact ⟨_, _, rfl, by simp only; omega, rfl⟩
  | succ k ih =>
    intro w j fuel hw hw1 hp hs hlen hf
    obtain ⟨f, rfl⟩ : ∃ f, fuel = f + 1 := ⟨fuel - 1, by omega⟩
    have hlt : j.objs.length < downloadBatchSize := by simp only [downloadBatchSize]; omega
    have hw0 : w ≠ 0 := by omega
    have hw10 : w ≠ 10 := by omega
    obtain ⟨objs1, hl1, hstep⟩ := exPaged_step w j f hp hs hlt
    rw [hstep, if_neg hw10]
    rw [if_neg hw0] at hl1
    exact ih (w + 1) _ f (by omega) (by omega) hp hs (by simp only; omega) (by omega)

/-! ## Backend job: properties -/

/-- The first call of an unfiltered backend job on the eleven-page listing. -/
theorem exPaged_genNext (j : backendDlJob) (hp : j.pfx = "") (hs : j.sfx = "")
    (hd : j.done = false) (f : Nat) (hf : 10 ≤ f) :
    (backendDlJob.genNext exEnvAll exPaged (f + 1) 0 j).map
      (fun x => (x.1.ok, x.1.err, x.1.objs.length)) = some (true, none, 10999) := by
  obtain ⟨objs1, hl1, hstep⟩ := exPaged_step 0 { j with objs := [] } f hp hs
    (by simp [downloadBatchSize])
  rw [if_neg (by decide)] at hstep
  rw [if_pos rfl] at hl1
  have hl2 : objs1.length = 999 := hl1
  obtain ⟨w1, j1, hloop, hlen, -⟩ := exPaged_loop 9 1
    { j with continuationToken := "page-" ++ toString (0 + 1), objs := objs1 } f
    (by omega) (by omega) hp hs (by show objs1.length + 1 = 1000 * 1; omega) (by omega)
  have hg : backendDlJob.loop exEnvAll exPaged (f + 1) 0 { j with objs := [] } =
      some (none, w1, j1) := hstep.trans hloop
  rw [backendDlJob.backend_genNext_run exEnvAll exPaged (f + 1) 0 j hd, hg]
  simp only [Option.map_some', hlen]

/-- C4 fails as stated: on a listing of eleven pages of at most 1000 entries
(999, then ten times 1000), all kept, the first `genNext` call of a backend
job returns a batch of 10999 items. -/
theorem backendDlJob.backend_batch_overflow_counterexample :
    (backendDlJob.genNext exEnvAll exPaged 11 0 exBackendAll).map
      (fun x => (x.1.ok, x.1.err, x.1.objs.length)) = some (true, none, 10999) :=
  exPaged_genNext exBackendAll rfl rfl rfl 10 (le_refl _)

/-- C4, amended: if the backend never returns more than the requested
`PageSize = MaxPageSize` entries in a page, every batch returned by `genNext`
of a backend job has fewer than `10000 + MaxPageSize` items: the loop stops
listing once the buffer holds 10000 items, but appends every page whole. -/
theorem backendDlJob.backend_batch_bound {σ : Type} (env : Env) (be : Backend σ)
    (hP : ∀ w bck pfx token lst w1,
      be.ListObjects w bck ⟨pfx, token, be.MaxPageSize⟩ = (.ok lst, w1) →
        lst.Entries.length ≤ be.MaxPageSize)
    (fuel : Nat) (w : σ) (j : backendDlJob) (r : GenResult) (w1 : σ) (j1 : backendDlJob)
    (h : backendDlJob.genNext env be fuel w j = some (r, w1, j1)) :
    r.objs.length < 10000 + be.MaxPageSize := by
  cases hd : j.done with
  | true =>
    rw [backendDlJob.backend_genNext_done env be fuel w j hd] at h
    simp only [Option.some.injEq, Prod.mk.injEq] at h
    rw [← h.1]
    simp
  | false =>
    rw [backendDlJob.backend_genNext_run env be fuel w j hd] at h
    rcases hl : backendDlJob.loop env be fuel w { j with objs := [] } with _ | ⟨e, w2, j2⟩
    · rw [hl] at h
      simp at h
    · have hb := backendDlJob.backend_loop_bound env be hP fuel w _ e w2 j2
        (by simp [downloadBatchSize]) hl
      rw [hl] at h
      cases e with
      | none =>
        simp only [Option.some.injEq, Prod.mk.injEq] at h
        rw [← h.1]
        simpa [downloadBatchSize] using hb
      | some e =>
        simp only [Option.some.injEq, Prod.mk.injEq] at h
        rw [← h.1]
        simp

theorem backendDlJob.backend_batch_bound_witness :
    backendDlJob.genNext exEnv exFlaky 1 1 exBackendJob =
        some (⟨[⟨"foo-1", "", true⟩], true, none⟩, 2,
          { exBackendJob with objs := [⟨"foo-1", "", true⟩], done := true }) ∧
      ([⟨"foo-1", "", true⟩] : List dlObj).length < 10000 + exFlaky.MaxPageSize :=
  ⟨by decide,
    backendDlJob.backend_batch_bound exEnv exFlaky
      (by
        intro w bck pfx token lst w1 h
        by_cases hw : w = 0
        · simp [exFlaky, hw] at h
        · simp only [exFlaky, hw, if_false, Prod.mk.injEq, Except.ok.injEq] at h
          rw [← h.1]
          decide)
      1 1 exBackendJob ⟨[⟨"foo-1", "", true⟩], true, none⟩ 2
      { exBackendJob with objs := [⟨"foo-1", "", true⟩], done := true } (by decide)⟩

/-! ## Range and backend jobs: `ok = false` and later calls -/

/-- A call of a range job returns `ok = false` without error only when `done`
was already latched, and is then a no-op. -/
theorem rangeDlJob.range_genNext_false (env : Env) (j : rangeDlJob)
    (hok : (rangeDlJob.genNext env j).1.ok = false)
    (herr : (rangeDlJob.genNext env j).1.err = none) :
    j.done = true ∧ rangeDlJob.genNext env j = (⟨[], false, none⟩, j) := by
  cases hd : j.done with
  | true => exact ⟨rfl, rangeDlJob.range_genNext_done env j hd⟩
  | false =>
    rcases hg : rangeDlJob.getNextObjs env j with ⟨e, j1⟩
    cases e with
    | none => simp [rangeDlJob.genNext, hd, hg] at hok
    | some e => simp [rangeDlJob.genNext, hd, hg] at herr

/-- A call of a backend job returns `ok = false` without error only when
`done` was already latched, and is then a no-op. -/
theorem backendDlJob.backend_genNext_false {σ : Type} (env : Env) (be : Backend σ) (fuel : Nat)
    (w : σ) (j : backendDlJob) (r : GenResult) (w1 : σ) (j1 : backendDlJob)
    (h : backendDlJob.genNext env be fuel w j = some (r, w1, j1))
    (hok : r.ok = false) (herr : r.err = none) :
    j.done = true ∧ r = ⟨[], false, none⟩ ∧ w1 = w ∧ j1 = j := by
  cases hd : j.done with
  | true =>
    rw [backendDlJob.backend_genNext_done env be fuel w j hd] at h
    simp only [Option.some.injEq, Prod.mk.injEq] at h
    exact ⟨rfl, h.1.symm, h.2.1.symm, h.2.2.symm⟩
  | false =>
    rw [backendDlJob.backend_genNext_run env be fuel w j hd] at h
    rcases hl : backendDlJob.loop env be fuel w { j with objs := [] } with _ | ⟨e, w2, j2⟩
    · rw [hl] at h
      simp at h
    · rw [hl] at h
      cases e with
      | none =>
        simp only [Option.some.injEq, Prod.mk.injEq] at h
        rw [← h.1] at hok
        simp at hok
      | some e =>
        simp only [Option.some.injEq, Prod.mk.injEq] at h
        rw [← h.1] at herr
        simp at herr

/-- The page loop of a backend job leaves `done` as it was when it ends with
an error. -/
theorem backendDlJob.backend_loop_err_done {σ : Type} (env : Env) (be : Backend σ) :
    ∀ (fuel : Nat) (w : σ) (j : backendDlJob) (e : DlErr) (w1 : σ) (j1 : backendDlJob),
      backendDlJob.loop env be fuel w j = some (some e, w1, j1) → j1.done = j.done := by
  intro fuel
  induction fuel with
  | zero =>
    intro w j e w1 j1 hl
    by_cases hlt : j.objs.length < downloadBatchSize
    · simp [backendDlJob.loop, hlt] at hl
    · simp [backendDlJob.loop, hlt] at hl
  | succ fuel ih =>
    intro w j e w1 j1 hl
    by_cases hlt : j.objs.length < downloadBatchSize
    · rw [backendDlJob.loop] at hl
      simp only [hlt, if_true] at hl
      rcases hlo : be.ListObjects w j.base.bck ⟨j.pfx, j.continuationToken, be.MaxPageSize⟩
        with ⟨res, w2⟩
      rw [hlo] at hl
      cases res with
      | error e2 =>
        simp only [Option.some.injEq, Prod.mk.injEq] at hl
        obtain ⟨-, -, hj⟩ := hl
        subst hj
        rfl
      | ok lst =>
        rcases hae : backendDlJob.addEntries env j lst.Entries j.objs with ⟨e3, objs⟩
        simp only [hae] at hl
        cases e3 with
        | some e4 =>
          simp only [Option.some.injEq, Prod.mk.injEq] at hl
          obtain ⟨-, -, hj⟩ := hl
          subst hj
          rfl
        | none =>
          simp only at hl
          by_cases htok : lst.ContinuationToken = ""
          · simp [htok] at hl
          · simp only [htok, if_false] at hl
            exact ih w2 ⟨j.base, j.pfx, j.sfx, lst.ContinuationToken, objs, j.sync, j.done⟩
              e w1 j1 hl
    · rw [backendDlJob.loop] at hl
      simp [hlt] at hl

/-- A call of a backend job that returns an error returns no items and
`ok = false`, was made on a job that was not done, and does not latch `done`. -/
theorem backendDlJob.backend_genNext_err_done {σ : Type} (env : Env) (be : Backend σ)
    (fuel : Nat) (w : σ) (j : backendDlJob) (r : GenResult) (w1 : σ) (j1 : backendDlJob)
    (h : backendDlJob.genNext env be fuel w j = some (r, w1, j1)) (herr : r.err ≠ none) :
    r.ok = false ∧ r.objs = [] ∧ j.done = false ∧ j1.done = false := by
  cases hd : j.done with
  | true =>
    rw [backendDlJob.backend_genNext_done env be fuel w j hd] at h
    simp only [Option.some.injEq, Prod.mk.injEq] at h
    rw [← h.1] at herr
    exact absurd rfl herr
  | false =>
    rw [backendDlJob.backend_genNext_run env be fuel w j hd] at h
    rcases hl : backendDlJob.loop env be fuel w { j with objs := [] } with _ | ⟨e, w2, j2⟩
    · rw [hl] at h
      simp at h
    · rw [hl] at h
      cases e with
      | none =>
        simp only [Option.some.injEq, Prod.mk.injEq] at h
        rw [← h.1] at herr
        exact absurd rfl herr
      | some e =>
        have hdone := backendDlJob.backend_loop_err_done env be fuel w { j with objs := [] }
          e w2 j2 hl
        simp only [Option.some.injEq, Prod.mk.injEq] at h
        obtain ⟨hr, -, hj⟩ := h
        subst hr hj
        exact ⟨rfl, rfl, rfl, by rw [hdone]; exact hd⟩

/-- C6 fails as stated: a range job whose first link makes the partitioner
fail returns `ok = false` (with the error) on its first call and a batch of one
item with `ok = true` on its second call; a backend job whose first listing
fails does the same. -/
theorem genNext_resumes_counterexample :
    (rangeDlJob.genNext exEnv exRangeBad).1 =
      ⟨[], false, some (.other "invalid URL escape")⟩ ∧
    (rangeDlJob.genNext exEnv (rangeDlJob.genNext exEnv exRangeBad).2).1 =
      ⟨[⟨"a.jpg", "http://x/a.jpg", false⟩], true, none⟩ ∧
    (backendDlJob.genNext exEnv exFlaky 1 0 exBackendJob).map (fun x => x.1) =
      some ⟨[], false, some (.other "timeout")⟩ ∧
    ((backendDlJob.genNext exEnv exFlaky 1 0 exBackendJob).bind
        (fun x => backendDlJob.genNext exEnv exFlaky 1 x.2.1 x.2.2)).map (fun x => x.1) =
      some ⟨[⟨"foo-1", "", true⟩], true, none⟩ := by
  decide

/-- C6, amended: once a `genNext` call of a range job or of a backend job has
returned `ok = false` with a nil error, `done` is latched, and every later
call, whatever the partitioner, the backend and its state, returns no items,
`ok = false` and a nil error, and leaves the job (and the backend) untouched.
A call that returns an error returns `ok = false` and no items, was made on a
job that was not done, and does not latch `done`. -/
theorem genNext_terminal_after_done {σ : Type} (env env2 : Env) (be be2 : Backend σ)
    (fuel fuel2 : Nat) :
    (∀ j : rangeDlJob, (rangeDlJob.genNext env j).1.ok = false →
      (rangeDlJob.genNext env j).1.err = none →
      (rangeDlJob.genNext env j).2.done = true ∧
      ∀ k : Nat,
        rangeDlJob.genNext env2
            ((fun s => (rangeDlJob.genNext env2 s).2)^[k] (rangeDlJob.genNext env j).2) =
          (⟨[], false, none⟩, (rangeDlJob.genNext env j).2)) ∧
    (∀ (w : σ) (j : backendDlJob) (r : GenResult) (w1 : σ) (j1 : backendDlJob),
      backendDlJob.genNext env be fuel w j = some (r, w1, j1) → r.ok = false → r.err = none →
      j1.done = true ∧
      ∀ (w2 : σ) (k : Nat),
        backendDlJob.genNext env2 be2 fuel2
            ((fun s : σ × backendDlJob =>
              ((backendDlJob.genNext env2 be2 fuel2 s.1 s.2).map (fun x => x.2)).getD s)^[k]
              (w2, j1)).1
            ((fun s : σ × backendDlJob =>
              ((backendDlJob.genNext env2 be2 fuel2 s.1 s.2).map (fun x => x.2)).getD s)^[k]
              (w2, j1)).2 =
          some (⟨[], false, none⟩, w2, j1)) ∧
    (∀ j : rangeDlJob, (rangeDlJob.genNext env j).1.err ≠ none →
      (rangeDlJob.genNext env j).1.ok = false ∧ (rangeDlJob.genNext env j).1.objs = [] ∧
      j.done = false ∧ (rangeDlJob.genNext env j).2.done = false) ∧
    (∀ (w : σ) (j : backendDlJob) (r : GenResult) (w1 : σ) (j1 : backendDlJob),
      backendDlJob.genNext env be fuel w j = some (r, w1, j1) → r.err ≠ none →
      r.ok = false ∧ r.objs = [] ∧ j.done = false ∧ j1.done = false) := by
  refine ⟨?_, ?_, ?_, ?_⟩
  · intro j hok herr
    obtain ⟨hd, hg⟩ := rangeDlJob.range_genNext_false env j hok herr
    rw [hg]
    refine ⟨hd, ?_⟩
    intro k
    have hfix : ∀ n : Nat, ((fun s => (rangeDlJob.genNext env2 s).2)^[n] j) = j := by
      intro n
      induction n with
      | zero => rfl
      | succ n ih =>
        rw [Function.iterate_succ_apply, rangeDlJob.range_genNext_done env2 j hd]
        exact ih
    simp only
    rw [hfix k, rangeDlJob.range_genNext_done env2 j hd]
  · intro w j r w1 j1 h hok herr
    obtain ⟨hd, -, -, hj⟩ := backendDlJob.backend_genNext_false env be fuel w j r w1 j1 h hok herr
    subst hj
    refine ⟨hd, ?_⟩
    intro w2 k
    have hfix : ∀ n : Nat, ((fun s : σ × backendDlJob =>
        ((backendDlJob.genNext env2 be2 fuel2 s.1 s.2).map (fun x => x.2)).getD s)^[n]
        (w2, j1)) = (w2, j1) := by
      intro n
      induction n with
      | zero => rfl
      | succ n ih =>
        rw [Function.iterate_succ_apply]
        simp only [backendDlJob.backend_genNext_done env2 be2 fuel2 w2 j1 hd, Option.map_some',
          Option.getD_some]
        exact ih
    rw [hfix k]
    exact backendDlJob.backend_genNext_done env2 be2 fuel2 w2 j1 hd
  · intro j herr
    exact rangeDlJob.range_genNext_err_done env j herr
  · intro w j r w1 j1 h herr
    exact backendDlJob.backend_genNext_err_done env be fuel w j r w1 j1 h herr

theorem genNext_terminal_after_done_witness :
    (rangeDlJob.genNext exEnv { exRange with done := true }).1.ok = false ∧
    (rangeDlJob.genNext exEnv { exRange with done := true }).1.err = none ∧
    (rangeDlJob.genNext exEnv { exRange with done := true }).2.done = true :=
  ⟨by decide, by decide,
    ((genNext_terminal_after_done exEnv exEnvAll exFlaky exFlaky 1 1).1
      { exRange with done := true } (by decide) (by decide)).1⟩

/-! ## Backend job: the whole run -/

theorem Backend.pages_succ {σ : Type} (be : Backend σ) (bck : Bck) (pfx : String) (n : Nat)
    (w : σ) (token : String) :
    be.pages bck pfx (n + 1) w token =
      match be.ListObjects w bck ⟨pfx, token, be.MaxPageSize⟩ with
      | (.error _, _) => none
      | (.ok lst, w1) =>
        if lst.ContinuationToken = "" then some [lst.Entries]
        else
          match be.pages bck pfx n w1 lst.ContinuationToken with
          | none => none
          | some ps => some (lst.Entries :: ps) := rfl

theorem backendDlJob.backend_loop_full {σ : Type} (env : Env) (be : Backend σ) (fuel : Nat)
    (w : σ) (j : backendDlJob) (h : ¬ j.objs.length < downloadBatchSize) :
    backendDlJob.loop env be fuel w j = some (none, w, j) := by
  cases fuel with
  | zero => simp [backendDlJob.loop, h]
  | succ f => rw [backendDlJob.loop, if_neg h]

/-- The page loop on a listing that ends without error, when the partitioner
raises no real error on the listed entries that pass `checkObj`: it appends
the kept entries of the first pages `used` of the listing, and stops either at
the end of the listing (latching `done`) or with `rest` still to list. -/
theorem backendDlJob.backend_loop_spec {σ : Type} (env : Env) (be : Backend σ) :
    ∀ (n fuel : Nat) (w : σ) (j : backendDlJob) (pages : List (List String)),
      n ≤ fuel → j.done = false →
      be.pages j.base.bck j.pfx n w j.continuationToken = some pages →
      (∀ p ∈ pages, ∀ name ∈ p, j.checkObj name = true → ∀ e,
        env.makeDlObj j.base.bck name "" = .error e → e = DlErr.errInvalidTarget) →
      ∃ w1 j1 used rest, backendDlJob.loop env be fuel w j = some (none, w1, j1) ∧
        pages = used ++ rest ∧
        j1.objs = j.objs ++ used.flatten.filterMap (backendDlJob.keep env j) ∧
        j1.base = j.base ∧ j1.pfx = j.pfx ∧ j1.sfx = j.sfx ∧
        (j.objs.length < downloadBatchSize → used ≠ []) ∧
        ((j1.done = true ∧ rest = []) ∨
          (j1.done = false ∧
            be.pages j.base.bck j.pfx (n - used.length) w1 j1.continuationToken = some rest)) := by
  intro n
  induction n with
  | zero =>
    intro fuel w j pages _ _ hp _
    simp [Backend.pages] at hp
  | succ n ih =>
    intro fuel w j pages hfuel hd hp hne
    by_cases hlt : j.objs.length < downloadBatchSize
    · obtain ⟨f, rfl⟩ : ∃ f, fuel = f + 1 := ⟨fuel - 1, by omega⟩
      rw [Backend.pages_succ] at hp
      rw [backendDlJob.loop, if_pos hlt]
      rcases hlo : be.ListObjects w j.base.bck ⟨j.pfx, j.continuationToken, be.MaxPageSize⟩
        with ⟨res, w2⟩
      rw [hlo] at hp
      cases res with
      | error e => simp at hp
      | ok lst =>
        simp only at hp ⊢
        by_cases htok : lst.ContinuationToken = ""
        · rw [if_pos htok] at hp
          simp only [Option.some.injEq] at hp
          subst hp
          rw [backendDlJob.backend_addEntries_spec env j lst.Entries j.objs
            (hne lst.Entries (List.mem_singleton_self _))]
          simp only [htok, if_true]
          exact ⟨_, _, [lst.Entries], [], rfl, rfl, by simp, rfl, rfl, rfl, fun _ => by simp,
            Or.inl ⟨rfl, rfl⟩⟩
        · rw [if_neg htok] at hp
          rcases hps : be.pages j.base.bck j.pfx n w2 lst.ContinuationToken with _ | ps
          · rw [hps] at hp
            simp at hp
          · rw [hps] at hp
            simp only [Option.some.injEq] at hp
            subst hp
            rw [backendDlJob.backend_addEntries_spec env j lst.Entries j.objs
              (hne lst.Entries (List.mem_cons_self _ _))]
            simp only [htok, if_false]
            obtain ⟨w1, j1, used, rest, hl, hsplit, hobjs, hb, hpf, hsf, -, hcase⟩ :=
              ih f w2
                { j with continuationToken := lst.ContinuationToken,
                         objs := j.objs ++ lst.Entries.filterMap (backendDlJob.keep env j) }
                ps (by omega) hd hps
                (fun p hp1 => hne p (List.mem_cons_of_mem _ hp1))
            refine ⟨w1, j1, lst.Entries :: used, rest, hl, by rw [hsplit]; rfl, ?_, hb, hpf, hsf,
              fun _ => by simp, ?_⟩
            · rw [hobjs]
              simp only [List.flatten_cons, List.filterMap_append, List.append_assoc]
              rfl
            · simpa using hcase
    · rw [backendDlJob.backend_loop_full env be fuel w j hlt]
      exact ⟨w, j, [], pages, rfl, rfl, by simp, rfl, rfl, rfl, fun h => absurd h hlt,
        Or.inr ⟨hd, by simpa using hp⟩⟩

theorem backendDlJob.backend_keep_congr (env : Env) (j1 j : backendDlJob) (hb : j1.base = j.base)
    (hp : j1.pfx = j.pfx) (hs : j1.sfx = j.sfx) :
    backendDlJob.keep env j1 = backendDlJob.keep env j := by
  funext name
  simp [backendDlJob.keep, backendDlJob.checkObj, hb, hp, hs]

/-- The whole run of a backend job on a listing of at most `n` pages that ends
without error; `F` is the page budget of each call. -/
theorem backendDlJob.backend_collect_spec {σ : Type} (env : Env) (be : Backend σ) (F : Nat) :
    ∀ (fuel n : Nat) (w : σ) (j : backendDlJob) (pages : List (List String)),
      n < fuel → n ≤ F → j.done = false →
      be.pages j.base.bck j.pfx n w j.continuationToken = some pages →
      (∀ p ∈ pages, ∀ name ∈ p, j.checkObj name = true → ∀ e,
        env.makeDlObj j.base.bck name "" = .error e → e = DlErr.errInvalidTarget) →
      ∃ bs w1 j1,
        dloader.collect (fun s : σ × backendDlJob => backendDlJob.genNext env be F s.1 s.2)
            fuel (w, j) = some (bs, none, w1, j1) ∧
        bs.flatten = pages.flatten.filterMap (backendDlJob.keep env j) := by
  intro fuel
  induction fuel with
  | zero => intro n w j pages h; omega
  | succ fuel ih =>
    intro n w j pages hfuel hF hd hp hne
    obtain ⟨w1, j1, used, rest, hl, hsplit, hobjs, hb, hpf, hsf, hused, hcase⟩ :=
      backendDlJob.backend_loop_spec env be n F w { j with objs := [] } pages hF hd hp hne
    have hkeep0 : backendDlJob.keep env { j with objs := [] } = backendDlJob.keep env j := rfl
    rw [hkeep0] at hobjs
    simp only [List.nil_append] at hobjs
    have hu : used ≠ [] := hused (by simp [downloadBatchSize])
    have hulen : 0 < used.length := List.length_pos.2 hu
    have hn : 0 < n := by
      cases n with
      | zero => simp [Backend.pages] at hp
      | succ m => omega
    rw [collect_succ]
    simp only [backendDlJob.backend_genNext_run env be F w j hd, hl]
    rcases hcase with ⟨hd1, hrest⟩ | ⟨hd1, hp1⟩
    · subst hrest
      obtain ⟨f, rfl⟩ : ∃ f, fuel = f + 1 := ⟨fuel - 1, by omega⟩
      rw [collect_succ]
      simp only [backendDlJob.backend_genNext_done env be F w1 j1 hd1]
      refine ⟨[j1.objs], w1, j1, rfl, ?_⟩
      rw [hsplit, hobjs]
      simp
    · have hp2 : be.pages j1.base.bck j1.pfx (n - used.length) w1 j1.continuationToken =
          some rest := by
        rw [hb, hpf]
        exact hp1
      have hne2 : ∀ p ∈ rest, ∀ name ∈ p, j1.checkObj name = true → ∀ e,
          env.makeDlObj j1.base.bck name "" = .error e → e = DlErr.errInvalidTarget := by
        intro p hpm name hname hc e he
        have hc2 : j.checkObj name = true := by
          simpa [backendDlJob.checkObj, hpf, hsf] using hc
        rw [hb] at he
        exact hne p (by rw [hsplit]; exact List.mem_append_right _ hpm) name hname hc2 e he
      obtain ⟨bs, w2, j2, hc, hfl⟩ :=
        ih (n - used.length) w1 j1 rest (by omega) (by omega) hd1 hp2 hne2
      rw [backendDlJob.backend_keep_congr env j1 _ hb hpf hsf, hkeep0] at hfl
      refine ⟨j1.objs :: bs, w2, j2, ?_, ?_⟩
      · simp only [hc]
        simp
      · rw [List.flatten_cons, hfl, hobjs, hsplit]
        simp

/-- C10: for a backend job that is not done, on a listing that (from the
job's continuation token on) ends within `n` pages without error, and with a
partitioner that raises no error but `errInvalidTarget` on the listed entries
that pass `checkObj`: pulling `genNext` until the first `ok = false`
terminates without error, and the batches concatenated in call order are the
listed entries, in page order and in entry order within each page, restricted
to those that pass `checkObj` and for which the partitioner returns an object,
each replaced by that object. -/
theorem backendDlJob.backend_collect_flatten {σ : Type} (env : Env) (be : Backend σ) (w : σ)
    (j : backendDlJob) (n : Nat) (pages : List (List String)) (hd : j.done = false)
    (hp : be.pages j.base.bck j.pfx n w j.continuationToken = some pages)
    (hne : ∀ p ∈ pages, ∀ name ∈ p, j.checkObj name = true → ∀ e,
      env.makeDlObj j.base.bck name "" = .error e → e = DlErr.errInvalidTarget)
    (fuel : Nat) (hf : n < fuel) :
    ∃ bs w1 j1, backendDlJob.collect env be fuel w j = some (bs, none, w1, j1) ∧
      bs.flatten = pages.flatten.filterMap (backendDlJob.keep env j) :=
  backendDlJob.backend_collect_spec env be fuel fuel n w j pages hf (by omega) hd hp hne

theorem backendDlJob.backend_collect_flatten_witness :
    exScript.pages exBackendJob.base.bck exBackendJob.pfx 2 exPages
        exBackendJob.continuationToken =
      some [["foo-1", "foo-2"], ["bar-3", "foo-3"]] ∧
    ∃ bs w1 j1, backendDlJob.collect exEnv exScript 3 exPages exBackendJob =
        some (bs, none, w1, j1) ∧
      bs.flatten = [⟨"foo-1", "", true⟩, ⟨"foo-2", "", true⟩, ⟨"foo-3", "", true⟩] := by
  refine ⟨by decide, ?_⟩
  obtain ⟨bs, w1, j1, h1, h2⟩ :=
    backendDlJob.backend_collect_flatten exEnv exScript exPages exBackendJob 2
      [["foo-1", "foo-2"], ["bar-3", "foo-3"]] rfl (by decide)
      (by
        intro p hp name hname _ e he
        have hok : exEnv.makeDlObj exBackendJob.base.bck name "" = .ok ⟨name, "", true⟩ := by
          simp only [List.mem_cons, List.mem_singleton, List.not_mem_nil, or_false] at hp
          rcases hp with rfl | rfl
          · simp only [List.mem_cons, List.mem_singleton, List.not_mem_nil, or_false] at hname
            rcases hname with rfl | rfl <;> rfl
          · simp only [List.mem_cons, List.mem_singleton, List.not_mem_nil, or_false] at hname
            rcases hname with rfl | rfl <;> rfl
        rw [hok] at he
        cases he)
      3 (by decide)
  exact ⟨bs, w1, j1, h1, h2.trans (by decide)⟩

/-! ## Backend job: the log of listings -/

theorem listingLog_nil (pfx : String) (pageSize : Nat) (tok tok1 : String)
    (latched failed : Bool) :
    listingLog pfx pageSize tok [] tok1 latched failed ↔ (tok1 = tok ∧ latched = false) := by
  simp [listingLog]

theorem listingLog_error (pfx : String) (pageSize : Nat) (tok : String) (msg : LsoMsg)
    (e : DlErr) (rest : List (LsoMsg × Except DlErr LsoResult)) (tok1 : String)
    (latched failed : Bool) :
    listingLog pfx pageSize tok ((msg, .error e) :: rest) tok1 latched failed ↔
      (msg = ⟨pfx, tok, pageSize⟩ ∧ rest = [] ∧ tok1 = tok ∧ latched = false ∧
        failed = true) := by
  simp [listingLog]

theorem listingLog_ok (pfx : String) (pageSize : Nat) (tok : String) (msg : LsoMsg)
    (lst : LsoResult) (rest : List (LsoMsg × Except DlErr LsoResult)) (tok1 : String)
    (latched failed : Bool) :
    listingLog pfx pageSize tok ((msg, .ok lst) :: rest) tok1 latched failed ↔
      (msg = ⟨pfx, tok, pageSize⟩ ∧
        (rest = [] → tok1 = lst.ContinuationToken ∧
          (latched = true ↔ (lst.ContinuationToken = "" ∧ failed = false))) ∧
        (rest ≠ [] → lst.ContinuationToken ≠ "" ∧
          listingLog pfx pageSize lst.ContinuationToken rest tok1 latched failed)) := by
  simp [listingLog]

theorem Backend.recording_ListObjects {σ : Type} (be : Backend σ) (w : σ)
    (log : List (LsoMsg × Except DlErr LsoResult)) (bck : Bck) (msg : LsoMsg) :
    be.recording.ListObjects (w, log) bck msg =
      ((be.ListObjects w bck msg).1,
        ((be.ListObjects w bck msg).2, log ++ [(msg, (be.ListObjects w bck msg).1)])) := rfl

theorem Backend.recording_MaxPageSize {σ : Type} (be : Backend σ) :
    be.recording.MaxPageSize = be.MaxPageSize := rfl

/-- The page loop on a recording backend: the requests it adds to the log
form a listing log that starts at the job's token and ends at the token of the
job afterwards. -/
theorem backendDlJob.backend_loop_log {σ : Type} (env : Env) (be : Backend σ) :
    ∀ (fuel : Nat) (w : σ) (log : List (LsoMsg × Except DlErr LsoResult)) (j : backendDlJob)
      e w1 log1 j1,
      j.done = false →
      backendDlJob.loop env be.recording fuel (w, log) j = some (e, (w1, log1), j1) →
      ∃ new, log1 = log ++ new ∧
        listingLog j.pfx be.MaxPageSize j.continuationToken new j1.continuationToken j1.done
          e.isSome ∧
        j1.pfx = j.pfx ∧ (j.objs.length < downloadBatchSize → new ≠ []) := by
  intro fuel
  induction fuel with
  | zero =>
    intro w log j e w1 log1 j1 hd hl
    by_cases hlt : j.objs.length < downloadBatchSize
    · simp [backendDlJob.loop, hlt] at hl
    · simp only [backendDlJob.loop, hlt, if_false, Option.some.injEq, Prod.mk.injEq] at hl
      obtain ⟨-, ⟨-, hlog⟩, hj⟩ := hl
      subst hj hlog
      exact ⟨[], by simp, (listingLog_nil _ _ _ _ _ _).2 ⟨rfl, hd⟩, rfl, fun h => absurd h hlt⟩
  | succ fuel ih =>
    intro w log j e w1 log1 j1 hd hl
    by_cases hlt : j.objs.length < downloadBatchSize
    · rw [backendDlJob.loop] at hl
      simp only [hlt, if_true, Backend.recording_ListObjects,
        Backend.recording_MaxPageSize] at hl
      rcases hlo : be.ListObjects w j.base.bck ⟨j.pfx, j.continuationToken, be.MaxPageSize⟩
        with ⟨res, w2⟩
      rw [hlo] at hl
      cases res with
      | error e2 =>
        simp only [Option.some.injEq, Prod.mk.injEq] at hl
        obtain ⟨he, ⟨-, hlog⟩, hj⟩ := hl
        subst hj hlog he
        exact ⟨[(⟨j.pfx, j.continuationToken, be.MaxPageSize⟩, .error e2)], rfl,
          (listingLog_error _ _ _ _ _ _ _ _ _).2 ⟨rfl, rfl, rfl, hd, rfl⟩, rfl,
          fun _ => by simp⟩
      | ok lst =>
        rcases hae : backendDlJob.addEntries env j lst.Entries j.objs with ⟨e3, objs⟩
        simp only [hae] at hl
        cases e3 with
        | some e4 =>
          simp only [Option.some.injEq, Prod.mk.injEq] at hl
          obtain ⟨he, ⟨-, hlog⟩, hj⟩ := hl
          subst hj hlog he
          refine ⟨[(⟨j.pfx, j.continuationToken, be.MaxPageSize⟩, .ok lst)], rfl,
            (listingLog_ok _ _ _ _ _ _ _ _ _).2 ⟨rfl, fun _ => ⟨rfl, ?_⟩, fun h => absurd rfl h⟩,
            rfl, fun _ => by simp⟩
          simp [hd]
        | none =>
          simp only at hl
          by_cases htok : lst.ContinuationToken = ""
          · simp only [htok, if_true, Option.some.injEq, Prod.mk.injEq] at hl
            obtain ⟨he, ⟨-, hlog⟩, hj⟩ := hl
            subst hj hlog he
            refine ⟨[(⟨j.pfx, j.continuationToken, be.MaxPageSize⟩, .ok lst)], rfl,
              (listingLog_ok _ _ _ _ _ _ _ _ _).2
                ⟨rfl, fun _ => ⟨htok.symm, ?_⟩, fun h => absurd rfl h⟩,
              rfl, fun _ => by simp⟩
            simp [htok]
          · simp only [htok, if_false] at hl
            obtain ⟨new, hlog, hchain, hpfx, -⟩ :=
              ih w2
                (log ++ [(LsoMsg.mk j.pfx j.continuationToken be.MaxPageSize, Except.ok lst)])
                ⟨j.base, j.pfx, j.sfx, lst.ContinuationToken, objs, j.sync, j.done⟩
                e w1 log1 j1 hd hl
            refine ⟨(⟨j.pfx, j.continuationToken, be.MaxPageSize⟩, .ok lst) :: new,
              by rw [hlog]; simp, ?_, hpfx, fun _ => by simp⟩
            rw [listingLog_ok]
            refine ⟨rfl, ?_, fun _ => ⟨htok, hchain⟩⟩
            intro hnil
            subst hnil
            obtain ⟨h1, h2⟩ := (listingLog_nil _ _ _ _ _ _).1 hchain
            refine ⟨h1, ?_⟩
            simp [h2, htok]
    · rw [backendDlJob.backend_loop_full env be.recording (fuel + 1) (w, log) j hlt] at hl
      simp only [Option.some.injEq, Prod.mk.injEq] at hl
      obtain ⟨he, ⟨-, hlog⟩, hj⟩ := hl
      subst hj hlog he
      exact ⟨[], by simp, (listingLog_nil _ _ _ _ _ _).2 ⟨rfl, hd⟩, rfl, fun h => absurd h hlt⟩

/-- Two listing logs, the first of which neither latched nor failed, make one. -/
theorem listingLog_append (pfx : String) (pageSize : Nat) :
    ∀ (new1 : List (LsoMsg × Except DlErr LsoResult)) (tok tok1 : String)
      (new2 : List (LsoMsg × Except DlErr LsoResult)) (tok2 : String) (latched failed : Bool),
      listingLog pfx pageSize tok new1 tok1 false false →
      listingLog pfx pageSize tok1 new2 tok2 latched failed →
      listingLog pfx pageSize tok (new1 ++ new2) tok2 latched failed := by
  intro new1
  induction new1 with
  | nil =>
    intro tok tok1 new2 tok2 latched failed h1 h2
    obtain ⟨ht, -⟩ := (listingLog_nil _ _ _ _ _ _).1 h1
    subst ht
    exact h2
  | cons head rest ih =>
    intro tok tok1 new2 tok2 latched failed h1 h2
    obtain ⟨msg, res⟩ := head
    cases res with
    | error e =>
      have := ((listingLog_error _ _ _ _ _ _ _ _ _).1 h1).2.2.2.2
      cases this
    | ok lst =>
      obtain ⟨hmsg, hnil, hcons⟩ := (listingLog_ok _ _ _ _ _ _ _ _ _).1 h1
      rw [List.cons_append, listingLog_ok]
      by_cases hrest : rest = []
      · subst hrest
        obtain ⟨ht, hiff⟩ := hnil rfl
        have htok : lst.ContinuationToken ≠ "" := by
          intro hcon
          have := hiff.2 ⟨hcon, rfl⟩
          cases this
        subst ht
        refine ⟨hmsg, ?_, ?_⟩
        · intro hn
          simp only [List.nil_append] at hn
          subst hn
          obtain ⟨h3, h4⟩ := (listingLog_nil _ _ _ _ _ _).1 h2
          refine ⟨h3, ?_⟩
          simp [h4, htok]
        · intro _
          exact ⟨htok, by simpa using h2⟩
      · obtain ⟨htok, hchain⟩ := hcons hrest
        refine ⟨hmsg, ?_, ?_⟩
        · intro hn
          exact absurd (List.append_eq_nil.1 hn).1 hrest
        · intro _
          exact ⟨htok, ih _ _ _ _ _ _ hchain h2⟩

/-- In a listing log every request carries the job's prefix and the page
size. -/
theorem listingLog_requests (pfx : String) (pageSize : Nat) :
    ∀ (new : List (LsoMsg × Except DlErr LsoResult)) (tok tok1 : String)
      (latched failed : Bool),
      listingLog pfx pageSize tok new tok1 latched failed →
      ∀ msg res, (msg, res) ∈ new → msg.Prefix = pfx ∧ msg.PageSize = pageSize := by
  intro new
  induction new with
  | nil => intro _ _ _ _ _ msg res hm; cases hm
  | cons head rest ih =>
    intro tok tok1 latched failed h msg res hm
    obtain ⟨msg0, res0⟩ := head
    have hmsg0 : msg0 = ⟨pfx, tok, pageSize⟩ := by
      cases res0 with
      | error e => exact ((listingLog_error _ _ _ _ _ _ _ _ _).1 h).1
      | ok lst => exact ((listingLog_ok _ _ _ _ _ _ _ _ _).1 h).1
    rcases List.mem_cons.1 hm with heq | hin
    · simp only [Prod.mk.injEq] at heq
      rw [heq.1, hmsg0]
      exact ⟨rfl, rfl⟩
    · cases res0 with
      | error e =>
        have hnil := ((listingLog_error _ _ _ _ _ _ _ _ _).1 h).2.1
        rw [hnil] at hin
        cases hin
      | ok lst =>
        have hne : rest ≠ [] := List.ne_nil_of_mem hin
        exact ih _ _ _ _ (((listingLog_ok _ _ _ _ _ _ _ _ _).1 h).2.2 hne).2 msg res hin

/-- In a listing log the first request carries the starting token, and a
request that follows another carries the token of the page that the other
returned, which is not empty. -/
theorem listingLog_chain (pfx : String) (pageSize : Nat) :
    ∀ (new : List (LsoMsg × Except DlErr LsoResult)) (tok tok1 : String)
      (latched failed : Bool),
      listingLog pfx pageSize tok new tok1 latched failed →
      (∀ msg res, new.head? = some (msg, res) → msg = ⟨pfx, tok, pageSize⟩) ∧
      (∀ (i : Nat) m1 r1 m2 r2, new[i]? = some (m1, r1) → new[i + 1]? = some (m2, r2) →
        ∃ lst, r1 = .ok lst ∧ lst.ContinuationToken ≠ "" ∧
          m2 = ⟨pfx, lst.ContinuationToken, pageSize⟩) := by
  intro new
  induction new with
  | nil =>
    intro _ _ _ _ _
    exact ⟨fun _ _ h => (by cases h), fun i _ _ _ _ h => (by simp at h)⟩
  | cons head rest ih =>
    intro tok tok1 latched failed h
    obtain ⟨msg0, res0⟩ := head
    have hmsg0 : msg0 = ⟨pfx, tok, pageSize⟩ := by
      cases res0 with
      | error e => exact ((listingLog_error _ _ _ _ _ _ _ _ _).1 h).1
      | ok lst => exact ((listingLog_ok _ _ _ _ _ _ _ _ _).1 h).1
    refine ⟨?_, ?_⟩
    · intro msg res hh
      simp only [List.head?_cons, Option.some.injEq, Prod.mk.injEq] at hh
      rw [← hh.1]
      exact hmsg0
    · intro i m1 r1 m2 r2 h1 h2
      cases res0 with
      | error e =>
        have hnil := ((listingLog_error _ _ _ _ _ _ _ _ _).1 h).2.1
        subst hnil
        simp at h2
      | ok lst =>
        have hne : rest ≠ [] := by
          intro hn
          subst hn
          simp at h2
        obtain ⟨htok, hchain⟩ := ((listingLog_ok _ _ _ _ _ _ _ _ _).1 h).2.2 hne
        obtain ⟨hhead, hnext⟩ := ih _ _ _ _ hchain
        cases i with
        | zero =>
          simp only [List.getElem?_cons_zero, Option.some.injEq, Prod.mk.injEq] at h1
          simp only [Nat.zero_add, List.getElem?_cons_succ] at h2
          refine ⟨lst, h1.2.symm, htok, ?_⟩
          apply hhead m2 r2
          cases rest with
          | nil => simp at h2
          | cons x xs =>
            simp only [List.getElem?_cons_zero, Option.some.injEq] at h2
            simp [h2]
        | succ i =>
          simp only [List.getElem?_cons_succ] at h1 h2
          exact hnext i m1 r1 m2 r2 h1 h2

/-- In a listing log, `latched` holds exactly when the run did not fail and
the last answer is a page with an empty token. -/
theorem listingLog_latched (pfx : String) (pageSize : Nat) :
    ∀ (new : List (LsoMsg × Except DlErr LsoResult)) (tok tok1 : String)
      (latched failed : Bool),
      listingLog pfx pageSize tok new tok1 latched failed →
      (latched = true ↔
        (failed = false ∧
          ∃ msg lst, new.getLast? = some (msg, .ok lst) ∧ lst.ContinuationToken = "")) := by
  intro new
  induction new with
  | nil =>
    intro tok tok1 latched failed h
    obtain ⟨-, hl⟩ := (listingLog_nil _ _ _ _ _ _).1 h
    simp [hl]
  | cons head rest ih =>
    intro tok tok1 latched failed h
    obtain ⟨msg0, res0⟩ := head
    cases res0 with
    | error e =>
      obtain ⟨-, hnil, -, hl, hf⟩ := (listingLog_error _ _ _ _ _ _ _ _ _).1 h
      simp [hl, hf]
    | ok lst =>
      obtain ⟨-, hnil, hcons⟩ := (listingLog_ok _ _ _ _ _ _ _ _ _).1 h
      by_cases hrest : rest = []
      · subst hrest
        obtain ⟨-, hiff⟩ := hnil rfl
        rw [hiff]
        simp only [List.getLast?_singleton, Option.some.injEq, Prod.mk.injEq, Except.ok.injEq]
        constructor
        · rintro ⟨h1, h2⟩
          exact ⟨h2, msg0, lst, ⟨rfl, rfl⟩, h1⟩
        · rintro ⟨h2, m, l, ⟨-, hl⟩, h1⟩
          rw [hl]
          exact ⟨h1, h2⟩
      · rw [ih _ _ _ _ (hcons hrest).2]
        cases rest with
        | nil => exact absurd rfl hrest
        | cons x xs => rw [List.getLast?_cons_cons]

/-- In a listing log a failed call is the last one, the token at the end is
the token that the failed request carried, and the run failed without latching;
when the last answer is a page, the token at the end is the token of that
page. -/
theorem listingLog_token (pfx : String) (pageSize : Nat) :
    ∀ (new : List (LsoMsg × Except DlErr LsoResult)) (tok tok1 : String)
      (latched failed : Bool),
      listingLog pfx pageSize tok new tok1 latched failed →
      (∀ (i : Nat) (msg : LsoMsg) (err : DlErr), new[i]? = some (msg, Except.error err) →
        i + 1 = new.length ∧ tok1 = msg.ContinuationToken ∧ latched = false ∧
          failed = true) ∧
      (∀ (msg : LsoMsg) (lst : LsoResult), new.getLast? = some (msg, Except.ok lst) →
        tok1 = lst.ContinuationToken) := by
  intro new
  induction new with
  | nil =>
    intro _ _ _ _ _
    exact ⟨fun i _ _ h => (by simp at h), fun _ _ h => (by simp at h)⟩
  | cons head rest ih =>
    intro tok tok1 latched failed h
    obtain ⟨msg0, res0⟩ := head
    cases res0 with
    | error e =>
      obtain ⟨hmsg, hnil, htok, hl, hf⟩ := (listingLog_error _ _ _ _ _ _ _ _ _).1 h
      subst hnil
      refine ⟨?_, ?_⟩
      · intro i msg err hi
        cases i with
        | zero =>
          simp only [List.getElem?_cons_zero, Option.some.injEq, Prod.mk.injEq] at hi
          refine ⟨rfl, ?_, hl, hf⟩
          rw [htok, ← hi.1, hmsg]
        | succ i => simp at hi
      · intro msg lst hlast
        simp at hlast
    | ok lst0 =>
      obtain ⟨-, hnil, hcons⟩ := (listingLog_ok _ _ _ _ _ _ _ _ _).1 h
      by_cases hrest : rest = []
      · subst hrest
        obtain ⟨ht, -⟩ := hnil rfl
        refine ⟨?_, ?_⟩
        · intro i msg err hi
          cases i with
          | zero => simp at hi
          | succ i => simp at hi
        · intro msg lst hlast
          simp only [List.getLast?_singleton, Option.some.injEq, Prod.mk.injEq,
            Except.ok.injEq] at hlast
          rw [ht, hlast.2]
      · obtain ⟨herr, hok⟩ := ih _ _ _ _ (hcons hrest).2
        refine ⟨?_, ?_⟩
        · intro i msg err hi
          cases i with
          | zero => simp at hi
          | succ i =>
            simp only [List.getElem?_cons_succ] at hi
            obtain ⟨h1, h2⟩ := herr i msg err hi
            exact ⟨by rw [List.length_cons, ← h1], h2⟩
        · intro msg lst hlast
          cases rest with
          | nil => exact absurd rfl hrest
          | cons x xs =>
            rw [List.getLast?_cons_cons] at hlast
            exact hok msg lst hlast

/-- One call of a backend job that is not done, on a recording backend: it
adds at least one request, the requests form a listing log, and `ok` tells
whether there was an error. -/
theorem backendDlJob.backend_genNext_log {σ : Type} (env : Env) (be : Backend σ) (fuel : Nat)
    (w : σ) (log : List (LsoMsg × Except DlErr LsoResult)) (j : backendDlJob) (r : GenResult)
    (w1 : σ) (log1 : List (LsoMsg × Except DlErr LsoResult)) (j1 : backendDlJob)
    (hd : j.done = false)
    (h : backendDlJob.genNext env be.recording fuel (w, log) j = some (r, (w1, log1), j1)) :
    ∃ new, log1 = log ++ new ∧ new ≠ [] ∧
      listingLog j.pfx be.MaxPageSize j.continuationToken new j1.continuationToken j1.done
        r.err.isSome ∧
      j1.pfx = j.pfx ∧ (r.ok = true ↔ r.err = none) := by
  rw [backendDlJob.backend_genNext_run env be.recording fuel (w, log) j hd] at h
  rcases hl : backendDlJob.loop env be.recording fuel (w, log) { j with objs := [] }
    with _ | ⟨e, ⟨w2, log2⟩, j2⟩
  · rw [hl] at h
    simp at h
  · obtain ⟨new, hlog, hchain, hpfx, hne⟩ :=
      backendDlJob.backend_loop_log env be fuel w log { j with objs := [] } e w2 log2 j2 hd hl
    rw [hl] at h
    cases e with
    | none =>
      simp only [Option.some.injEq, Prod.mk.injEq] at h
      obtain ⟨hr, ⟨-, hl2⟩, hj⟩ := h
      subst hr hl2 hj
      exact ⟨new, hlog, hne (by simp [downloadBatchSize]), hchain, hpfx, by simp⟩
    | some e =>
      simp only [Option.some.injEq, Prod.mk.injEq] at h
      obtain ⟨hr, ⟨-, hl2⟩, hj⟩ := h
      subst hr hl2 hj
      exact ⟨new, hlog, hne (by simp [downloadBatchSize]), hchain, hpfx, by simp⟩

/-- The whole run of a backend job that is not done, on a recording backend:
the requests of all its calls form one listing log. -/
theorem backendDlJob.backend_collect_log {σ : Type} (env : Env) (be : Backend σ) (F : Nat) :
    ∀ (fuel : Nat) (w : σ) (log : List (LsoMsg × Except DlErr LsoResult)) (j : backendDlJob)
      bs e w1 log1 j1,
      j.done = false →
      dloader.collect
          (fun s : (σ × List (LsoMsg × Except DlErr LsoResult)) × backendDlJob =>
            backendDlJob.genNext env be.recording F s.1 s.2)
          fuel ((w, log), j) = some (bs, e, (w1, log1), j1) →
      ∃ new, log1 = log ++ new ∧ new ≠ [] ∧
        listingLog j.pfx be.MaxPageSize j.continuationToken new j1.continuationToken j1.done
          e.isSome ∧
        (e = none → j1.done = true) := by
  intro fuel
  induction fuel with
  | zero =>
    intro w log j bs e w1 log1 j1 _ h
    simp [dloader.collect] at h
  | succ fuel ih =>
    intro w log j bs e w1 log1 j1 hd h
    rw [collect_succ] at h
    rcases hg : backendDlJob.genNext env be.recording F (w, log) j
      with _ | ⟨r, ⟨w2, log2⟩, j2⟩
    · simp only [hg] at h
      cases h
    · obtain ⟨new1, hlog1, hne1, hchain1, hpfx1, hok⟩ :=
        backendDlJob.backend_genNext_log env be F w log j r w2 log2 j2 hd hg
      simp only [hg] at h
      cases hrok : r.ok with
      | false =>
        simp only [hrok, Bool.false_eq_true, if_false, Option.some.injEq, Prod.mk.injEq] at h
        obtain ⟨-, he, ⟨-, hl2⟩, hj⟩ := h
        subst he hl2 hj
        refine ⟨new1, hlog1, hne1, hchain1, ?_⟩
        intro hnone
        have := hok.2 hnone
        rw [hrok] at this
        cases this
      | true =>
        have herr : r.err = none := hok.1 hrok
        rw [herr] at hchain1
        simp only [hrok, if_true] at h
        rcases hc : dloader.collect
            (fun s : (σ × List (LsoMsg × Except DlErr LsoResult)) × backendDlJob =>
              backendDlJob.genNext env be.recording F s.1 s.2)
            fuel ((w2, log2), j2) with _ | ⟨bs2, e2, ⟨w3, log3⟩, j3⟩
        · simp only [hc] at h
          cases h
        · simp only [hc, Option.some.injEq, Prod.mk.injEq] at h
          obtain ⟨-, he, ⟨-, hl3⟩, hj⟩ := h
          subst he hl3 hj
          cases hd2 : j2.done with
          | false =>
            obtain ⟨new2, hlog2, -, hchain2, hdone⟩ := ih w2 log2 j2 bs2 e2 w3 log3 j3 hd2 hc
            rw [hd2] at hchain1
            rw [hpfx1] at hchain2
            refine ⟨new1 ++ new2, by rw [hlog2, hlog1, List.append_assoc], ?_, ?_, hdone⟩
            · intro hn
              exact hne1 (List.append_eq_nil.1 hn).1
            · exact listingLog_append _ _ _ _ _ _ _ _ _ hchain1 hchain2
          | true =>
            cases fuel with
            | zero => simp [dloader.collect] at hc
            | succ f =>
              rw [collect_succ] at hc
              simp only [backendDlJob.backend_genNext_done env be.recording F (w2, log2) j2 hd2,
                Bool.false_eq_true, if_false, Option.some.injEq, Prod.mk.injEq] at hc
              obtain ⟨-, he, ⟨-, hl3⟩, hj⟩ := hc
              subst he hl3 hj
              exact ⟨new1, hlog1, hne1, hchain1, fun _ => hd2⟩

/-- The page loop on a recording backend: a failed call that it adds to the
log is the error it returns. -/
theorem backendDlJob.backend_loop_error {σ : Type} (env : Env) (be : Backend σ) :
    ∀ (fuel : Nat) (w : σ) (log : List (LsoMsg × Except DlErr LsoResult)) (j : backendDlJob)
      e w1 log1 j1,
      backendDlJob.loop env be.recording fuel (w, log) j = some (e, (w1, log1), j1) →
      ∀ (m : LsoMsg) (err : DlErr), (m, Except.error err) ∈ log1 →
        (m, Except.error err) ∈ log ∨ e = some err := by
  intro fuel
  induction fuel with
  | zero =>
    intro w log j e w1 log1 j1 hl m err hm
    by_cases hlt : j.objs.length < downloadBatchSize
    · simp [backendDlJob.loop, hlt] at hl
    · simp only [backendDlJob.loop, hlt, if_false, Option.some.injEq, Prod.mk.injEq] at hl
      obtain ⟨-, ⟨-, hlog⟩, -⟩ := hl
      subst hlog
      exact Or.inl hm
  | succ fuel ih =>
    intro w log j e w1 log1 j1 hl m err hm
    by_cases hlt : j.objs.length < downloadBatchSize
    · rw [backendDlJob.loop] at hl
      simp only [hlt, if_true, Backend.recording_ListObjects,
        Backend.recording_MaxPageSize] at hl
      rcases hlo : be.ListObjects w j.base.bck ⟨j.pfx, j.continuationToken, be.MaxPageSize⟩
        with ⟨res, w2⟩
      rw [hlo] at hl
      cases res with
      | error e2 =>
        simp only [Option.some.injEq, Prod.mk.injEq] at hl
        obtain ⟨he, ⟨-, hlog⟩, -⟩ := hl
        subst hlog he
        rcases List.mem_append.1 hm with h1 | h1
        · exact Or.inl h1
        · simp only [List.mem_singleton, Prod.mk.injEq, Except.error.injEq] at h1
          exact Or.inr (by rw [h1.2])
      | ok lst =>
        rcases hae : backendDlJob.addEntries env j lst.Entries j.objs with ⟨e3, objs⟩
        simp only [hae] at hl
        cases e3 with
        | some e4 =>
          simp only [Option.some.injEq, Prod.mk.injEq] at hl
          obtain ⟨-, ⟨-, hlog⟩, -⟩ := hl
          subst hlog
          rcases List.mem_append.1 hm with h1 | h1
          · exact Or.inl h1
          · simp at h1
        | none =>
          simp only at hl
          by_cases htok : lst.ContinuationToken = ""
          · simp only [htok, if_true, Option.some.injEq, Prod.mk.injEq] at hl
            obtain ⟨-, ⟨-, hlog⟩, -⟩ := hl
            subst hlog
            rcases List.mem_append.1 hm with h1 | h1
            · exact Or.inl h1
            · simp at h1
          · simp only [htok, if_false] at hl
            rcases ih w2
                (log ++ [(LsoMsg.mk j.pfx j.continuationToken be.MaxPageSize, Except.ok lst)])
                ⟨j.base, j.pfx, j.sfx, lst.ContinuationToken, objs, j.sync, j.done⟩
                e w1 log1 j1 hl m err hm with h1 | h1
            · rcases List.mem_append.1 h1 with h2 | h2
              · exact Or.inl h2
              · simp at h2
            · exact Or.inr h1
    · rw [backendDlJob.backend_loop_full env be.recording (fuel + 1) (w, log) j hlt] at hl
      simp only [Option.some.injEq, Prod.mk.injEq] at hl
      obtain ⟨-, ⟨-, hlog⟩, -⟩ := hl
      subst hlog
      exact Or.inl hm

/-- One call of a backend job on a recording backend: a failed call that it
adds to the log is the error it returns, and it returns `ok = true` only
without error. -/
theorem backendDlJob.backend_genNext_error {σ : Type} (env : Env) (be : Backend σ) (fuel : Nat)
    (w : σ) (log : List (LsoMsg × Except DlErr LsoResult)) (j : backendDlJob) (r : GenResult)
    (w1 : σ) (log1 : List (LsoMsg × Except DlErr LsoResult)) (j1 : backendDlJob)
    (h : backendDlJob.genNext env be.recording fuel (w, log) j = some (r, (w1, log1), j1)) :
    (r.ok = true → r.err = none) ∧
    ∀ (m : LsoMsg) (err : DlErr), (m, Except.error err) ∈ log1 →
      (m, Except.error err) ∈ log ∨ r.err = some err := by
  cases hd : j.done with
  | true =>
    rw [backendDlJob.backend_genNext_done env be.recording fuel (w, log) j hd] at h
    simp only [Option.some.injEq, Prod.mk.injEq] at h
    obtain ⟨hr, ⟨-, hlog⟩, -⟩ := h
    subst hlog hr
    exact ⟨fun _ => rfl, fun m err hm => Or.inl hm⟩
  | false =>
    rw [backendDlJob.backend_genNext_run env be.recording fuel (w, log) j hd] at h
    rcases hl : backendDlJob.loop env be.recording fuel (w, log) { j with objs := [] }
      with _ | ⟨e, ⟨w2, log2⟩, j2⟩
    · rw [hl] at h
      simp at h
    · have hle :=
        backendDlJob.backend_loop_error env be fuel w log { j with objs := [] } e w2 log2 j2 hl
      rw [hl] at h
      cases e with
      | none =>
        simp only [Option.some.injEq, Prod.mk.injEq] at h
        obtain ⟨hr, ⟨-, hl2⟩, -⟩ := h
        subst hr hl2
        exact ⟨fun _ => rfl, fun m err hm => (hle m err hm).imp id (fun h1 => by cases h1)⟩
      | some e =>
        simp only [Option.some.injEq, Prod.mk.injEq] at h
        obtain ⟨hr, ⟨-, hl2⟩, -⟩ := h
        subst hr hl2
        exact ⟨fun h1 => (by cases h1), fun m err hm => (hle m err hm).imp id id⟩

/-- The whole run of a backend job on a recording backend: a failed call in
its log is the error with which the run ends. -/
theorem backendDlJob.backend_collect_error {σ : Type} (env : Env) (be : Backend σ) (F : Nat) :
    ∀ (fuel : Nat) (w : σ) (log : List (LsoMsg × Except DlErr LsoResult)) (j : backendDlJob)
      bs e w1 log1 j1,
      dloader.collect
          (fun s : (σ × List (LsoMsg × Except DlErr LsoResult)) × backendDlJob =>
            backendDlJob.genNext env be.recording F s.1 s.2)
          fuel ((w, log), j) = some (bs, e, (w1, log1), j1) →
      ∀ (m : LsoMsg) (err : DlErr), (m, Except.error err) ∈ log1 →
        (m, Except.error err) ∈ log ∨ e = some err := by
  intro fuel
  induction fuel with
  | zero =>
    intro w log j bs e w1 log1 j1 h
    simp [dloader.collect] at h
  | succ fuel ih =>
    intro w log j bs e w1 log1 j1 h m err hm
    rw [collect_succ] at h
    rcases hg : backendDlJob.genNext env be.recording F (w, log) j
      with _ | ⟨r, ⟨w2, log2⟩, j2⟩
    · simp only [hg] at h
      cases h
    · obtain ⟨hok, hge⟩ := backendDlJob.backend_genNext_error env be F w log j r w2 log2 j2 hg
      simp only [hg] at h
      cases hrok : r.ok with
      | false =>
        simp only [hrok, Bool.false_eq_true, if_false, Option.some.injEq, Prod.mk.injEq] at h
        obtain ⟨-, he, ⟨-, hl2⟩, -⟩ := h
        subst he hl2
        exact hge m err hm
      | true =>
        simp only [hrok, if_true] at h
        rcases hc : dloader.collect
            (fun s : (σ × List (LsoMsg × Except DlErr LsoResult)) × backendDlJob =>
              backendDlJob.genNext env be.recording F s.1 s.2)
            fuel ((w2, log2), j2) with _ | ⟨bs2, e2, ⟨w3, log3⟩, j3⟩
        · simp only [hc] at h
          cases h
        · simp only [hc, Option.some.injEq, Prod.mk.injEq] at h
          obtain ⟨-, he, ⟨-, hl3⟩, -⟩ := h
          subst he hl3
          rcases ih w2 log2 j2 bs2 e2 w3 log3 j3 hc m err hm with h1 | h1
          · rcases hge m err h1 with h2 | h2
            · exact Or.inl h2
            · rw [hok hrok] at h2
              cases h2
          · exact Or.inr h1

/-- A job that `newBackendDlJob` returns has an empty continuation token and is
not done. -/
theorem newBackendDlJob_fresh (env : Env) (id : String) (bck : Bck) (payload : BackendBody)
    (job : backendDlJob) (h : newBackendDlJob env id bck payload = some (.ok job)) :
    job.continuationToken = "" ∧ job.done = false := by
  unfold newBackendDlJob at h
  by_cases hr : (!bck.isRemote) = true
  · simp [hr] at h
  · by_cases hh : bck.isHTTP = true
    · simp [hr, hh] at h
    · cases hb : newBaseDlJob env id bck payload.Timeout payload.Describe payload.Limits with
      | none => simp [hr, hh, hb] at h
      | some base =>
        simp only [hr, hh, hb, if_false, Bool.false_eq_true, Option.some.injEq,
          Except.ok.injEq] at h
        subst h
        exact ⟨rfl, rfl⟩

/-- C23 fails as stated: a listing returns one page with an empty continuation
token, but the partitioner fails on its entry; `genNext` returns the error and
`done` is not latched, although a listing has returned an empty token. -/
theorem backendDlJob.backend_done_not_latched_counterexample :
    (backendDlJob.genNext exEnv exScript.recording 1 (exBadPage, []) exBackendAll).map
        (fun x => (x.1, x.2.2.done, x.2.2.continuationToken)) =
      some (⟨[], false, some (.other "invalid URL escape")⟩, false, "") ∧
    (backendDlJob.genNext exEnv exScript.recording 1 (exBadPage, []) exBackendAll).map
        (fun x => x.2.1.2) =
      some [(⟨"", "", 1000⟩, .ok ⟨["%zz"], ""⟩)] :=
  ⟨by decide, by rfl⟩

/-- C23, amended: over the run of a backend job (not done at the start) up to
the first `ok = false`, with all `ListObjects` calls logged: there is at least
one call; every call carries the job's prefix; the first carries the job's
continuation token (empty for a job that `newBackendDlJob` has just returned)
and every later one the token of the page returned by the call before it, which
is not empty; `done` is latched at the end exactly when the run ended without
error and the last listing returned an empty token; the run ends with a nil
error only with `done` latched; once `done` is set, `genNext` issues no call
and changes nothing; a failed `ListObjects` call is the last call of the run,
its error is the error of the run, `done` is not latched and the job keeps the
token that the failed request carried; and when the last call returned a page,
the job holds the token of that page. -/
theorem backendDlJob.backend_listing_log {σ : Type} (env : Env) (be : Backend σ) (fuel : Nat)
    (w : σ) (j : backendDlJob) (bs : List (List dlObj)) (e : Option DlErr) (w1 : σ)
    (log1 : List (LsoMsg × Except DlErr LsoResult)) (j1 : backendDlJob)
    (hd : j.done = false)
    (h : backendDlJob.collect env be.recording fuel (w, []) j = some (bs, e, (w1, log1), j1)) :
    log1 ≠ [] ∧
    (∀ msg res, (msg, res) ∈ log1 → msg.Prefix = j.pfx) ∧
    (∀ msg res, log1.head? = some (msg, res) →
      msg.ContinuationToken = j.continuationToken) ∧
    (∀ (i : Nat) m1 r1 m2 r2, log1[i]? = some (m1, r1) → log1[i + 1]? = some (m2, r2) →
      ∃ lst, r1 = .ok lst ∧ lst.ContinuationToken ≠ "" ∧
        m2.ContinuationToken = lst.ContinuationToken) ∧
    (j1.done = true ↔
      (e = none ∧
        ∃ msg lst, log1.getLast? = some (msg, .ok lst) ∧ lst.ContinuationToken = "")) ∧
    (e = none → j1.done = true) ∧
    (j1.done = true → ∀ (env2 : Env) (fuel2 : Nat) s2,
      backendDlJob.genNext env2 be.recording fuel2 s2 j1 = some (⟨[], false, none⟩, s2, j1)) ∧
    (∀ (i : Nat) (m : LsoMsg) (err : DlErr), log1[i]? = some (m, Except.error err) →
      i + 1 = log1.length ∧ e = some err ∧ j1.done = false ∧
        j1.continuationToken = m.ContinuationToken) ∧
    (∀ (m : LsoMsg) (lst : LsoResult), log1.getLast? = some (m, Except.ok lst) →
      j1.continuationToken = lst.ContinuationToken) ∧
    (∀ (env0 : Env) (id : String) (bck : Bck) (payload : BackendBody),
      newBackendDlJob env0 id bck payload = some (.ok j) →
      ∀ msg res, log1.head? = some (msg, res) → msg.ContinuationToken = "") := by
  obtain ⟨new, hlog, hne, hchain, hdone⟩ :=
    backendDlJob.backend_collect_log env be fuel fuel w [] j bs e w1 log1 j1 hd h
  have herror := backendDlJob.backend_collect_error env be fuel fuel w [] j bs e w1 log1 j1 h
  simp only [List.nil_append] at hlog
  subst hlog
  obtain ⟨hhead, hnext⟩ := listingLog_chain _ _ _ _ _ _ _ hchain
  obtain ⟨hfail, hpage⟩ := listingLog_token _ _ _ _ _ _ _ hchain
  refine ⟨hne, ?_, ?_, ?_, ?_, hdone, ?_, ?_, hpage, ?_⟩
  · intro msg res hm
    exact (listingLog_requests _ _ _ _ _ _ _ hchain msg res hm).1
  · intro msg res hh
    rw [hhead msg res hh]
  · intro i m1 r1 m2 r2 h1 h2
    obtain ⟨lst, hr, htok, hm⟩ := hnext i m1 r1 m2 r2 h1 h2
    exact ⟨lst, hr, htok, by rw [hm]⟩
  · rw [listingLog_latched _ _ _ _ _ _ _ hchain]
    cases e <;> simp
  · intro hd1 env2 fuel2 s2
    exact backendDlJob.backend_genNext_done env2 be.recording fuel2 s2 j1 hd1
  · intro i m err hi
    obtain ⟨h1, h2, h3, -⟩ := hfail i m err hi
    refine ⟨h1, ?_, h3, h2⟩
    rcases herror m err (List.mem_iff_getElem?.2 ⟨i, hi⟩) with h4 | h4
    · cases h4
    · exact h4
  · intro env0 id bck payload hnew msg res hh
    rw [hhead msg res hh]
    exact (newBackendDlJob_fresh env0 id bck payload j hnew).1

theorem backendDlJob.backend_listing_log_witness :
    backendDlJob.collect exEnv exScript.recording 3 (exPages, []) exBackendJob =
        some ([exBackendDone.objs], none, ([], exListingLog), exBackendDone) ∧
      exBackendJob.done = false ∧ exBackendDone.done = true ∧
      ∀ (env2 : Env) (fuel2 : Nat) s2,
        backendDlJob.genNext env2 exScript.recording fuel2 s2 exBackendDone =
          some (⟨[], false, none⟩, s2, exBackendDone) :=
  ⟨by rfl, rfl, rfl,
    (backendDlJob.backend_listing_log exEnv exScript 3 exPages exBackendJob
      [exBackendDone.objs] none [] exListingLog exBackendDone rfl (by rfl)).2.2.2.2.2.2.1 rfl⟩

/-! ## The job record: `clone` -/

/-- C25: `clone()` returns a snapshot in which each of the twelve fields has
the value of the field of the same name in the record, and leaves the record
as it was. -/
theorem dljob.clone_fields (j : dljob) :
    j.clone.1.ID = j.ID ∧ j.clone.1.XactID = j.XactID ∧
    j.clone.1.Description = j.Description ∧ j.clone.1.StartedTime = j.StartedTime ∧
    j.clone.1.FinishedTime = j.FinishedTime ∧ j.clone.1.FinishedCnt = j.FinishedCnt ∧
    j.clone.1.ScheduledCnt = j.ScheduledCnt ∧ j.clone.1.SkippedCnt = j.SkippedCnt ∧
    j.clone.1.ErrorCnt = j.ErrorCnt ∧ j.clone.1.Total = j.Total ∧
    j.clone.1.Aborted = j.Aborted ∧ j.clone.1.AllDispatched = j.AllDispatched ∧
    j.clone.2 = j :=
  ⟨rfl, rfl, rfl, rfl, rfl, rfl, rfl, rfl, rfl, rfl, rfl, rfl, rfl⟩

/-! ## Backend job: creation -/

/-- C9 fails as stated: for a remote bucket that is not HTTP, a payload with a
positive bytes-per-hour limit and a cluster map without active targets,
`newBaseDlJob` divides by zero: the call returns neither an error nor a job. -/
theorem newBackendDlJob_no_target_counterexample :
    exBck.isRemote = true ∧ exBck.isHTTP = false ∧
    0 < exBodyLimited.Limits.BytesPerHour ∧ exEnvNoTargets.countActiveTargets = 0 ∧
    newBackendDlJob exEnvNoTargets "job-1" exBck exBodyLimited = none ∧
    ¬ ∃ job, newBackendDlJob exEnvNoTargets "job-1" exBck exBodyLimited = some (.ok job) :=
  ⟨rfl, rfl, by decide, rfl, rfl, by
    rintro ⟨job, h⟩
    rw [show newBackendDlJob exEnvNoTargets "job-1" exBck exBodyLimited = none from rfl] at h
    cases h⟩

/-- C9, amended: `newBackendDlJob` returns an error exactly when the bucket is
not remote or is an HTTP bucket; for a remote bucket that is not HTTP, and a
cluster map with an active target or a payload without positive bytes-per-hour
limit, it returns a job with the payload's prefix, suffix and sync flag, an
empty continuation token, an empty buffer and `done = false`; for a remote
bucket that is not HTTP, a positive bytes-per-hour limit and no active target
it returns nothing (the division by zero of `newBaseDlJob`). -/
theorem newBackendDlJob_spec (env : Env) (id : String) (bck : Bck) (payload : BackendBody) :
    ((∃ msg, newBackendDlJob env id bck payload = some (.error msg)) ↔
      (bck.isRemote = false ∨ bck.isHTTP = true)) ∧
    (bck.isRemote = true → bck.isHTTP = false →
      (0 < env.countActiveTargets ∨ payload.Limits.BytesPerHour ≤ 0) →
      ∃ job, newBackendDlJob env id bck payload = some (.ok job) ∧
        job.pfx = payload.Prefix ∧ job.sfx = payload.Suffix ∧ job.Sync = payload.Sync ∧
        job.continuationToken = "" ∧ job.objs = [] ∧ job.done = false ∧
        job.base.id = id ∧ job.base.bck = bck) ∧
    (bck.isRemote = true → bck.isHTTP = false →
      env.countActiveTargets = 0 → 0 < payload.Limits.BytesPerHour →
      newBackendDlJob env id bck payload = none) := by
  refine ⟨?_, ?_, ?_⟩
  · constructor
    · rintro ⟨msg, h⟩
      by_contra hcon
      simp only [not_or, Bool.not_eq_false, Bool.not_eq_true] at hcon
      unfold newBackendDlJob at h
      simp only [hcon.1, hcon.2, Bool.not_true, Bool.false_eq_true, if_false] at h
      cases hb : newBaseDlJob env id bck payload.Timeout payload.Describe payload.Limits with
      | none => simp [hb] at h
      | some base => simp [hb] at h
    · intro h
      rcases h with h | h
      · exact ⟨"bucket download requires a remote bucket", by simp [newBackendDlJob, h]⟩
      · cases hr : bck.isRemote with
        | false => exact ⟨"bucket download requires a remote bucket", by simp [newBackendDlJob, hr]⟩
        | true =>
          exact ⟨"bucket download does not support HTTP buckets",
            by simp [newBackendDlJob, hr, h]⟩
  · intro hr hh hn
    have hbase : ∃ base, newBaseDlJob env id bck payload.Timeout payload.Describe
        payload.Limits = some base ∧ base.id = id ∧ base.bck = bck := by
      unfold newBaseDlJob
      by_cases hpos : payload.Limits.BytesPerHour > 0
      · have hne : env.countActiveTargets ≠ 0 := by
          rcases hn with hn | hn
          · omega
          · omega
        simp only [hpos, if_true, hne, if_false]
        exact ⟨_, rfl, rfl, rfl⟩
      · simp only [hpos, if_false]
        exact ⟨_, rfl, rfl, rfl⟩
    obtain ⟨base, hb, hid, hbck⟩ := hbase
    refine ⟨⟨base, payload.Prefix, payload.Suffix, "", [], payload.Sync, false⟩, ?_,
      rfl, rfl, rfl, rfl, rfl, rfl, hid, hbck⟩
    simp [newBackendDlJob, hr, hh, hb]
  · intro hr hh hz hpos
    have hb : newBaseDlJob env id bck payload.Timeout payload.Describe payload.Limits = none := by
      unfold newBaseDlJob
      simp [hpos, hz]
    simp [newBackendDlJob, hr, hh, hb]

theorem newBackendDlJob_spec_witness :
    exBck.isRemote = true ∧ exBck.isHTTP = false ∧
    ∃ job, newBackendDlJob exEnv "job-1" exBck exBody = some (.ok job) ∧
      job.pfx = "foo-" ∧ job.sfx = "" ∧ job.Sync = true ∧
      job.continuationToken = "" ∧ job.objs = [] ∧ job.done = false ∧
      job.base.id = "job-1" ∧ job.base.bck = exBck :=
  ⟨rfl, rfl, (newBackendDlJob_spec exEnv "job-1" exBck exBody).2.1 rfl rfl (Or.inl (by decide))⟩

/-! ## Backend job: `checkObj` and `Len` -/

theorem string_eq_append_iff (name p : String) :
    (∃ t : String, name = p ++ t) ↔ p.toList <+: name.toList := by
  constructor
  · rintro ⟨t, rfl⟩
    exact ⟨t.toList, by simp⟩
  · rintro ⟨t, ht⟩
    exact ⟨String.mk t, String.ext (by simpa using ht.symm)⟩

theorem string_eq_append_left_iff (name p : String) :
    (∃ t : String, name = t ++ p) ↔ p.toList <:+ name.toList := by
  constructor
  · rintro ⟨t, rfl⟩
    exact ⟨t.toList, by simp⟩
  · rintro ⟨t, ht⟩
    exact ⟨String.mk t, String.ext (by simpa using ht.symm)⟩

/-- C11: `checkObj(name)` of a backend job is true exactly when `name` is the
job's prefix followed by something and something followed by the job's suffix;
with an empty prefix and an empty suffix every name is accepted. -/
theorem backendDlJob.backend_checkObj_iff (j : backendDlJob) (name : String) :
    (j.checkObj name = true ↔
      (∃ t : String, name = j.pfx ++ t) ∧ (∃ t : String, name = t ++ j.sfx)) ∧
    (j.pfx = "" → j.sfx = "" → j.checkObj name = true) := by
  have hiff : j.checkObj name = true ↔
      (∃ t : String, name = j.pfx ++ t) ∧ (∃ t : String, name = t ++ j.sfx) := by
    rw [string_eq_append_iff, string_eq_append_left_iff]
    simp [backendDlJob.checkObj, List.isPrefixOf_iff_prefix, List.isSuffixOf_iff_suffix]
  refine ⟨hiff, ?_⟩
  intro hp hs
  rw [hiff, hp, hs]
  exact ⟨⟨name, by simp⟩, ⟨name, by simp⟩⟩

theorem backendDlJob.backend_checkObj_iff_witness :
    exBackendAll.pfx = "" ∧ exBackendAll.sfx = "" ∧ exBackendAll.checkObj "bar-3" = true ∧
      exBackendJob.checkObj "bar-3" = false ∧ exBackendJob.checkObj "foo-3" = true :=
  ⟨rfl, rfl, (backendDlJob.backend_checkObj_iff exBackendAll "bar-3").2 rfl rfl,
    by decide, by decide⟩

/-- C12: `Len()` of a backend job is -1 in every state: for the job that
`newBackendDlJob` returns, before and after every `genNext` call, and after the
whole run, whatever was yielded. -/
theorem backendDlJob.backend_Len_unknown {σ : Type} (env : Env) (be : Backend σ) :
    (∀ j : backendDlJob, j.Len = -1) ∧
    (∀ id bck payload job, newBackendDlJob env id bck payload = some (.ok job) →
      job.Len = -1) ∧
    (∀ fuel w j r w1 j1, backendDlJob.genNext env be fuel w j = some (r, w1, j1) →
      j.Len = -1 ∧ j1.Len = -1) ∧
    (∀ fuel w j bs e w1 j1, backendDlJob.collect env be fuel w j = some (bs, e, w1, j1) →
      j1.Len = -1) :=
  ⟨fun _ => rfl, fun _ _ _ _ _ => rfl, fun _ _ _ _ _ _ _ => ⟨rfl, rfl⟩,
    fun _ _ _ _ _ _ _ _ => rfl⟩

theorem backendDlJob.backend_Len_unknown_witness :
    backendDlJob.genNext exEnv exFlaky 1 1 exBackendJob =
        some (⟨[⟨"foo-1", "", true⟩], true, none⟩, 2,
          { exBackendJob with objs := [⟨"foo-1", "", true⟩], done := true }) ∧
      exBackendJob.Len = -1 ∧
      backendDlJob.Len { exBackendJob with objs := [⟨"foo-1", "", true⟩], done := true } = -1 :=
  ⟨by decide,
    (backendDlJob.backend_Len_unknown exEnv exFlaky).2.2.1 1 1 exBackendJob
      ⟨[⟨"foo-1", "", true⟩], true, none⟩ 2
      { exBackendJob with objs := [⟨"foo-1", "", true⟩], done := true } (by decide)⟩

/-! ## List (slice) job: `Len` -/

/-- C13: `genNext` leaves `Len()` of a list job unchanged, and over the run
from cursor 0 to the first `ok = false` the numbers of items of the batches add
up to `Len()`. -/
theorem sliceDlJob.slice_Len_scheduled (j : sliceDlJob) (h0 : j.current = 0) (fuel : Nat)
    (hf : j.objs.length < fuel) :
    (∀ k : sliceDlJob, k.genNext.2.Len = k.Len) ∧
    ∃ bs j1, j.collect fuel = some (bs, none, j1) ∧
      (bs.map List.length).sum = j.Len ∧ j1.Len = j.Len := by
  constructor
  · intro k
    unfold sliceDlJob.genNext
    split
    · rfl
    · split <;> rfl
  · obtain ⟨bs, hc, hfl, -⟩ := sliceDlJob.slice_collect_spec fuel j (by omega) (by omega)
    refine ⟨bs, _, hc, ?_, rfl⟩
    rw [← List.length_flatten, hfl, h0]
    rfl

theorem sliceDlJob.slice_Len_scheduled_witness :
    exSlice.current = 0 ∧ exSlice.objs.length < 4 ∧
      ∃ bs j1, exSlice.collect 4 = some (bs, none, j1) ∧
        (bs.map List.length).sum = exSlice.Len ∧ j1.Len = exSlice.Len :=
  ⟨rfl, by decide, (sliceDlJob.slice_Len_scheduled exSlice rfl 4 (by decide)).2⟩

/-! ## The job record: `valid` -/

/-- C14: `valid()` returns an error exactly when `Aborted` is false,
`AllDispatched` is true and `ScheduledCnt` differs from the `int32` sum
`FinishedCnt + ErrorCnt`; its result is the same for two records that agree on
these five fields; and it leaves the record as it was. -/
theorem dljob.valid_iff (j : dljob) :
    (j.valid.1.isSome = true ↔
      (j.Aborted = false ∧ j.AllDispatched = true ∧
        j.ScheduledCnt ≠ wrap32 (j.FinishedCnt + j.ErrorCnt))) ∧
    (∀ k : dljob, k.Aborted = j.Aborted → k.AllDispatched = j.AllDispatched →
      k.ScheduledCnt = j.ScheduledCnt → k.FinishedCnt = j.FinishedCnt →
      k.ErrorCnt = j.ErrorCnt → k.valid.1 = j.valid.1) ∧
    j.valid.2 = j := by
  refine ⟨?_, ?_, ?_⟩
  · unfold dljob.valid
    cases ha : j.Aborted <;> cases hd : j.AllDispatched <;>
      by_cases hs : j.ScheduledCnt = wrap32 (j.FinishedCnt + j.ErrorCnt) <;> simp [hs]
  · intro k h1 h2 h3 h4 h5
    unfold dljob.valid
    rw [h1, h2, h3, h4, h5]
    cases j.Aborted <;> cases j.AllDispatched <;>
      by_cases hs : j.ScheduledCnt = wrap32 (j.FinishedCnt + j.ErrorCnt) <;> simp [hs]
  · unfold dljob.valid
    split
    · rfl
    · split
      · rfl
      · split <;> rfl

theorem dljob.valid_iff_witness :
    exRecord.valid.1 = none ∧
    ({ exRecord with ErrorCnt := 0 } : dljob).valid.1 = some "invalid: 3 != 2 + 0" ∧
    ({ exRecord with ErrorCnt := 0, SkippedCnt := 7, Total := -1 } : dljob).valid.1 =
      ({ exRecord with ErrorCnt := 0 } : dljob).valid.1 :=
  ⟨by decide, by decide,
    (dljob.valid_iff { exRecord with ErrorCnt := 0 }).2.1
      { exRecord with ErrorCnt := 0, SkippedCnt := 7, Total := -1 } rfl rfl rfl rfl rfl⟩

/-! ## Base job: limits -/

/-- C15: for a positive `limits.BytesPerHour = L` and `n ≥ 1` active targets,
`newBaseDlJob` gives the throttler the limit `L / n` (integer division), so
that `n` times it is at most `L` (`L = 1000000`, `n = 4` gives `250000`); a
`BytesPerHour` that is zero or negative is passed on as it is, without
division (also with no active target); the connections limit is passed on as
it is in both cases. -/
theorem newBaseDlJob_limits (env : Env) (id : String) (bck : Bck) (timeout desc : String)
    (limits : Limits) :
    (0 < limits.BytesPerHour → 0 < env.countActiveTargets →
      ∃ base, newBaseDlJob env id bck timeout desc limits = some base ∧
        base.t.BytesPerHour = limits.BytesPerHour / (env.countActiveTargets : Int) ∧
        (env.countActiveTargets : Int) * base.t.BytesPerHour ≤ limits.BytesPerHour ∧
        base.t.Connections = limits.Connections ∧
        (limits.BytesPerHour = 1000000 → env.countActiveTargets = 4 →
          base.t.BytesPerHour = 250000)) ∧
    (limits.BytesPerHour ≤ 0 →
      ∃ base, newBaseDlJob env id bck timeout desc limits = some base ∧ base.t = limits) := by
  constructor
  · intro hL hn
    have hn0 : env.countActiveTargets ≠ 0 := by omega
    have hnz : (env.countActiveTargets : Int) ≠ 0 := by omega
    have hdiv : Int.tdiv limits.BytesPerHour (env.countActiveTargets : Int) =
        limits.BytesPerHour / (env.countActiveTargets : Int) :=
      Int.tdiv_eq_ediv (le_of_lt hL) (by omega)
    refine ⟨⟨id, bck, env.parseDuration timeout, desc,
        ⟨Int.tdiv limits.BytesPerHour (env.countActiveTargets : Int), limits.Connections⟩, none⟩,
      by simp only [newBaseDlJob, gt_iff_lt, hL, if_true, hn0, if_false], ?_, ?_, rfl, ?_⟩
    · exact hdiv
    · show (env.countActiveTargets : Int) *
        Int.tdiv limits.BytesPerHour (env.countActiveTargets : Int) ≤ limits.BytesPerHour
      rw [hdiv]
      exact Int.mul_ediv_self_le hnz
    · intro h1 h4
      show Int.tdiv limits.BytesPerHour (env.countActiveTargets : Int) = 250000
      rw [h1, h4]
      decide
  · intro hL
    have hL2 : ¬ limits.BytesPerHour > 0 := by omega
    exact ⟨⟨id, bck, env.parseDuration timeout, desc, limits, none⟩,
      by simp only [newBaseDlJob, hL2, if_false], rfl⟩

theorem newBaseDlJob_limits_witness :
    (0 : Int) < 1000000 ∧ 0 < exEnv4.countActiveTargets ∧
      ∃ base, newBaseDlJob exEnv4 "job-1" exBck "1h" "" ⟨1000000, 8⟩ = some base ∧
        base.t.BytesPerHour = 250000 ∧ base.t.Connections = 8 := by
  refine ⟨by decide, by decide, ?_⟩
  obtain ⟨base, h1, -, -, h4, h5⟩ :=
    (newBaseDlJob_limits exEnv4 "job-1" exBck "1h" "" ⟨1000000, 8⟩).1 (by decide) (by decide)
  exact ⟨base, h1, h5 rfl rfl, h4⟩

/-- C16, the code at the failing input: with a cluster-wide limit of 3 bytes
per hour and four active targets, `newBaseDlJob` sets the per-target limit
to 0. -/
theorem newBaseDlJob_limit_zero :
    (newBaseDlJob exEnv4 "job-1" exBck "1h" "" ⟨3, 0⟩).map (fun base => base.t.BytesPerHour) =
      some 0 := by
  decide

/-! ## Base job: notifier and cleanup -/

/-- C17: on a job without notifier, `AddNotif` with a download notifier whose
`F` is set, and whose `P` is set if it is registered upon progress, passes all
assertions; afterwards `Notif()` is that notifier, bound to the job.  On a job
that has a notifier already, or with `F` unset, or upon progress with `P`
unset, an assertion is violated. -/
theorem baseDlJob.AddNotif_spec (j : baseDlJob) (nd : NotifDownload) (job : String) :
    (j.notif = none → nd.F = true → (nd.uponProgress = true → nd.P = true) →
      ∃ j1, j.AddNotif (.download nd) job = .ok j1 ∧
        j1.Notif = some { nd with job := some job } ∧
        j1 = { j with notif := some { nd with job := some job } }) ∧
    (j.notif ≠ none → ∀ n, j.AddNotif n job = .error .notifNotNil) ∧
    (j.notif = none → nd.F = false → j.AddNotif (.download nd) job = .error .noF) ∧
    (j.notif = none → nd.F = true → nd.uponProgress = true → nd.P = false →
      j.AddNotif (.download nd) job = .error .noP) := by
  refine ⟨?_, ?_, ?_, ?_⟩
  · intro hn hF hP
    refine ⟨{ j with notif := some { nd with job := some job } }, ?_, rfl, rfl⟩
    cases hu : nd.uponProgress with
    | false => simp [baseDlJob.AddNotif, hn, hF, hu]
    | true => simp [baseDlJob.AddNotif, hn, hF, hu, hP hu]
  · intro hn n
    cases hj : j.notif with
    | none => exact absurd hj hn
    | some x => simp [baseDlJob.AddNotif, hj]
  · intro hn hF
    simp [baseDlJob.AddNotif, hn, hF]
  · intro hn hF hu hP
    simp [baseDlJob.AddNotif, hn, hF, hu, hP]

theorem baseDlJob.AddNotif_spec_witness :
    exBase.notif = none ∧ exNotif.F = true ∧
      ∃ j1, exBase.AddNotif (.download exNotif) "job-1" = .ok j1 ∧
        j1.Notif = some { exNotif with job := some "job-1" } ∧
        j1 = { exBase with notif := some { exNotif with job := some "job-1" } } :=
  ⟨rfl, rfl,
    (baseDlJob.AddNotif_spec exBase exNotif "job-1").1 rfl rfl (fun h => by cases h)⟩

/-- C18 fails as stated: `cleanup` is not given the job's fatal error, and
the terminal notification carries the error of `markFinished` instead.  With a
store that marks the job finished the notification carries no error, whatever
error the job ran into; with a store that fails, it carries the store's error,
also for a job that ran into none. -/
theorem baseDlJob.cleanup_error_counterexample :
    baseDlJob.cleanup (fun _ => none) exBase =
      [.throttlerStop, .markFinished "job-1", .flush "job-1", .onFinished none none] ∧
    baseDlJob.cleanup (fun _ => some (.other "store closed")) exBase =
      [.throttlerStop, .markFinished "job-1", .logError (.other "store closed"),
        .flush "job-1", .onFinished none (some (.other "store closed"))] ∧
    ¬ (∀ (fatal : Option DlErr) (markFinished : String → Option DlErr) (j : baseDlJob),
        (j.cleanup markFinished).getLast? = some (.onFinished j.Notif fatal)) := by
  refine ⟨by decide, by decide, ?_⟩
  intro h
  have h1 := h (some (.other "listing failed")) (fun _ => none) exBase
  revert h1
  decide

/-- C18, amended: `cleanup` performs, once each and in this order: stop the
throttler, mark the job finished in the store, flush the store for the job's
id, fire the terminal notification of the job's notifier; the notification
carries the error that `markFinished` returned (none if it returned none),
which is also logged before the flush. -/
theorem baseDlJob.cleanup_trace (markFinished : String → Option DlErr) (j : baseDlJob) :
    (j.cleanup markFinished).filter (fun e => !e.isLog) =
      [.throttlerStop, .markFinished j.id, .flush j.id,
        .onFinished j.notif (markFinished j.id)] ∧
    (markFinished j.id = none →
      j.cleanup markFinished =
        [.throttlerStop, .markFinished j.id, .flush j.id, .onFinished j.notif none]) ∧
    (∀ e, markFinished j.id = some e →
      j.cleanup markFinished =
        [.throttlerStop, .markFinished j.id, .logError e, .flush j.id,
          .onFinished j.notif (some e)]) := by
  refine ⟨?_, ?_, ?_⟩
  · cases h : markFinished j.id <;>
      simp [baseDlJob.cleanup, baseDlJob.ID, baseDlJob.Notif, h, Effect.isLog]
  · intro h
    simp [baseDlJob.cleanup, baseDlJob.ID, baseDlJob.Notif, h]
  · intro e h
    simp [baseDlJob.cleanup, baseDlJob.ID, baseDlJob.Notif, h]

theorem baseDlJob.cleanup_trace_witness :
    baseDlJob.cleanup (fun _ => none) exBase =
      [.throttlerStop, .markFinished "job-1", .flush "job-1", .onFinished none none] :=
  (baseDlJob.cleanup_trace (fun _ => none) exBase).2.1 rfl

end dloader

namespace cmn

/-! ## `PrependProtocol` -/

theorem stringsContains_iff (s substr : String) :
    stringsContains s substr = true ↔ ∃ a b : String, s = a ++ substr ++ b := by
  unfold stringsContains
  rw [List.any_eq_true]
  constructor
  · rintro ⟨t, ht, hp⟩
    obtain ⟨a, ha⟩ := (List.mem_tails t s.toList).1 ht
    obtain ⟨b, hb⟩ := List.isPrefixOf_iff_prefix.1 hp
    refine ⟨String.mk a, String.mk b, String.ext ?_⟩
    have : s.toList = a ++ (substr.toList ++ b) := by
      rw [← ha, ← hb]
    simpa [List.append_assoc] using this
  · rintro ⟨a, b, rfl⟩
    refine ⟨substr.toList ++ b.toList, ?_, ?_⟩
    · rw [List.mem_tails]
      exact ⟨a.toList, by simp [List.append_assoc]⟩
    · exact List.isPrefixOf_iff_prefix.2 ⟨b.toList, rfl⟩

/-- C19: `PrependProtocol` returns `url` unchanged when `url` is empty or
contains `://` (that is, is of the form `a ++ "://" ++ b`); otherwise it
returns `proto ++ "://" ++ url`, where `proto` is the protocol argument when
exactly one is given and `http` when none or more than one is given. -/
theorem PrependProtocol_spec (url : String) (protocol : List String) :
    (stringsContains url "://" = true ↔ ∃ a b : String, url = a ++ "://" ++ b) ∧
    ((url = "" ∨ stringsContains url "://" = true) → PrependProtocol url protocol = url) ∧
    (url ≠ "" → stringsContains url "://" = false →
      (∀ p, protocol = [p] → PrependProtocol url protocol = p ++ "://" ++ url) ∧
      (protocol.length ≠ 1 → PrependProtocol url protocol = "http" ++ "://" ++ url)) := by
  refine ⟨stringsContains_iff url "://", ?_, ?_⟩
  · intro h
    rcases h with h | h
    · simp [PrependProtocol, h]
    · simp [PrependProtocol, h]
  · intro h1 h2
    constructor
    · intro p hp
      simp [PrependProtocol, h1, h2, hp]
    · intro hlen
      match protocol, hlen with
      | [], _ => simp [PrependProtocol, h1, h2, httpProto]
      | [p], hl => exact absurd rfl hl
      | p :: q :: rest, _ => simp [PrependProtocol, h1, h2, httpProto]

theorem PrependProtocol_spec_witness :
    PrependProtocol "s3://abc" ["https"] = "s3://abc" ∧
    PrependProtocol "abc.com/x" ["https"] = "https" ++ "://" ++ "abc.com/x" ∧
    PrependProtocol "abc.com/x" [] = "http" ++ "://" ++ "abc.com/x" ∧
    PrependProtocol "abc.com/x" ["https", "ftp"] = "http" ++ "://" ++ "abc.com/x" :=
  ⟨(PrependProtocol_spec "s3://abc" ["https"]).2.1 (Or.inr (by decide)),
    ((PrependProtocol_spec "abc.com/x" ["https"]).2.2 (by decide) (by decide)).1 "https" rfl,
    ((PrependProtocol_spec "abc.com/x" []).2.2 (by decide) (by decide)).2 (by decide),
    ((PrependProtocol_spec "abc.com/x" ["https", "ftp"]).2.2 (by decide) (by decide)).2
      (by decide)⟩

/-! ## `MatchItems` -/

/-- The index loop, started where all its indices are in range: it does not
panic, and when it reports no error the items from `idx` on are `items`. -/
theorem matchLoop_spec (apiItems : List String) :
    ∀ (items : List String) (idx : Nat), idx + items.length ≤ apiItems.length →
      ∃ r, matchLoop apiItems idx items = some r ∧
        (r = none → apiItems.drop idx = items ++ apiItems.drop (idx + items.length)) := by
  intro items
  induction items with
  | nil =>
    intro idx _
    exact ⟨none, rfl, fun _ => by simp⟩
  | cons item rest ih =>
    intro idx hlen
    simp only [List.length_cons] at hlen
    have hidx : idx < apiItems.length := by omega
    have hget : apiItems.get? idx = some apiItems[idx] := by
      rw [List.get?_eq_getElem?, List.getElem?_eq_getElem hidx]
    by_cases hne : item = apiItems[idx]
    · obtain ⟨r, hr, hspec⟩ := ih (idx + 1) (by omega)
      refine ⟨r, ?_, ?_⟩
      · rw [matchLoop, hget]
        simp only [hne, bne_self_eq_false, Bool.false_eq_true, if_false]
        exact hr
      · intro hnone
        rw [List.drop_eq_getElem_cons hidx, hspec hnone, hne]
        simp only [List.cons_append, List.length_cons]
        rw [show idx + 1 + rest.length = idx + (rest.length + 1) by omega]
    · refine ⟨some (.expectedItem item apiItems[idx]), ?_, fun h => by cases h⟩
      rw [matchLoop, hget]
      simp [hne]

theorem stringsSplit_of_not_mem : ∀ p : List Char, '/' ∉ p → stringsSplit p = [p] := by
  intro p
  induction p with
  | nil => intro _; rfl
  | cons c cs ih =>
    intro h
    have hc : c ≠ '/' := fun hc => h (by simp [hc])
    have hcs : '/' ∉ cs := fun hm => h (List.mem_cons_of_mem _ hm)
    simp [stringsSplit, hc, ih hcs]

theorem not_mem_of_mem_stringsSplit : ∀ s : List Char, ∀ p ∈ stringsSplit s, '/' ∉ p := by
  intro s
  induction s with
  | nil =>
    intro p hp
    simp only [stringsSplit, List.mem_singleton] at hp
    subst hp
    simp
  | cons c cs ih =>
    intro p hp
    by_cases hc : c = '/'
    · simp only [stringsSplit, hc, if_true, List.mem_cons] at hp
      rcases hp with rfl | hp
      · simp
      · exact ih p hp
    · simp only [stringsSplit, hc, if_false] at hp
      cases hsp : stringsSplit cs with
      | nil =>
        rw [hsp] at hp
        simp only [List.mem_singleton] at hp
        subst hp
        simpa using Ne.symm hc
      | cons piece rest =>
        rw [hsp] at hp ih
        simp only [List.mem_cons] at hp
        rcases hp with rfl | hp
        · have := ih piece (List.mem_cons_self _ _)
          simp only [List.mem_cons, not_or]
          exact ⟨Ne.symm hc, this⟩
        · exact ih p (List.mem_cons_of_mem _ hp)

/-- Splitting at the first slash: the part before it has no slash, and the
pieces of the string are that part followed by the pieces of the rest. -/
theorem cutSlash_spec : ∀ s : List Char,
    '/' ∉ (cutSlash s).1 ∧
    stringsSplit s =
      match (cutSlash s).2 with
      | none => [(cutSlash s).1]
      | some rest => (cutSlash s).1 :: stringsSplit rest := by
  intro s
  induction s with
  | nil => exact ⟨by simp [cutSlash], rfl⟩
  | cons c cs ih =>
    by_cases hc : c = '/'
    · simp [cutSlash, stringsSplit, hc]
    · obtain ⟨h1, h2⟩ := ih
      refine ⟨?_, ?_⟩
      · simp only [cutSlash, hc, if_false, List.mem_cons, not_or]
        exact ⟨Ne.symm hc, h1⟩
      · simp only [stringsSplit, hc, if_false, cutSlash]
        rw [h2]
        cases (cutSlash cs).2 <;> rfl

/-- The pieces of `SplitN`, each split at every slash, are the pieces of
`Split`. -/
theorem stringsSplitN_flatMap : ∀ (n : Nat) (s : List Char),
    (stringsSplitN (n + 1) s).flatMap stringsSplit = stringsSplit s := by
  intro n
  induction n with
  | zero => intro s; simp [stringsSplitN]
  | succ n ih =>
    intro s
    obtain ⟨h1, h2⟩ := cutSlash_spec s
    rw [stringsSplitN]
    rcases hcut : cutSlash s with ⟨piece, rest⟩
    rw [hcut] at h1 h2
    cases rest with
    | none =>
      simp only [List.flatMap_cons, List.flatMap_nil, List.append_nil]
      rw [stringsSplit_of_not_mem piece h1, h2]
    | some rest =>
      simp only [List.flatMap_cons]
      rw [stringsSplit_of_not_mem piece h1, ih rest, h2]
      rfl

theorem stringsSplit_flatMap (s : List Char) :
    (stringsSplit s).flatMap stringsSplit = stringsSplit s := by
  rw [List.flatMap_congr (fun p hp =>
    stringsSplit_of_not_mem p (not_mem_of_mem_stringsSplit s p hp))]
  simp

/-- The non-empty pieces of a list of pieces, each split further at every
slash, are the non-empty pieces of all of them split at every slash. -/
theorem flatMap_pieceSegments (pieces : List (List Char)) :
    ((pieces.map String.mk).filter (fun item => item != "")).flatMap pieceSegments =
      ((pieces.flatMap stringsSplit).map String.mk).filter (fun item => item != "") := by
  induction pieces with
  | nil => rfl
  | cons p ps ih =>
    rw [List.map_cons, List.flatMap_cons, List.map_append, List.filter_append, ← ih]
    by_cases hp : p = []
    · subst hp
      have h1 : (String.mk [] != "") = false := by decide
      rw [List.filter_cons, h1]
      simp only [Bool.false_eq_true, if_false]
      have h2 : List.filter (fun item => item != "") (List.map String.mk (stringsSplit [])) =
          [] := by decide
      rw [h2, List.nil_append]
    · have h1 : (String.mk p != "") = true := by
        simp only [bne_iff_ne, ne_eq]
        intro h
        exact hp (by simpa using congrArg String.data h)
      rw [List.filter_cons, h1]
      simp only [if_true, List.flatMap_cons]
      rfl

/-- The segments of a path are the pieces that `MatchItems` works on, each
split further at every slash. -/
theorem segments_eq_flatMap (unescapedPath : String) (itemsAfter : Int) (splitAfter : Bool)
    (items : List String) :
    segments unescapedPath =
      (apiItemsOf unescapedPath itemsAfter splitAfter items).flatMap pieceSegments := by
  cases splitAfter with
  | true =>
    unfold segments apiItemsOf
    simp only [if_true]
    rw [flatMap_pieceSegments, stringsSplit_flatMap]
  | false =>
    obtain ⟨m, hm⟩ : ∃ m, ((items.length : Int) + max 1 itemsAfter).toNat = m + 1 :=
      ⟨((items.length : Int) + max 1 itemsAfter).toNat - 1, by omega⟩
    unfold segments apiItemsOf
    simp only [if_true, Bool.false_eq_true, if_false]
    rw [flatMap_pieceSegments, hm, stringsSplitN_flatMap]

/-- C20 fails as stated: with `splitAfter = false` the path is split by
`SplitN`, whose last piece is the unsplit remainder.  For the path `/v1/a/b`
and the item `v1` with one item after, `MatchItems` returns `a/b`, while the
segments of the path that follow `v1` are `a` and `b`; and for the path
`//a/b` and the item `a/b` it succeeds although the segments `a`, `b` do not
begin with `a/b`. -/
theorem MatchItems_remainder_counterexample :
    MatchItems "/v1/a/b" 1 false ["v1"] = some (.ok ["a/b"]) ∧
    segments "/v1/a/b" = ["v1", "a", "b"] ∧
    MatchItems "//a/b" 0 false ["a/b"] = some (.ok []) ∧
    segments "//a/b" = ["a", "b"] :=
  ⟨by rfl, by decide, by rfl, by decide⟩

/-- C20, amended: `MatchItems` never indexes out of range, and whenever it
succeeds, the non-empty pieces of the escaped path without its leading slash
(the pieces of `strings.Split` when `splitAfter` is true, those of
`strings.SplitN` with `len(items) + max(1, itemsAfter)` pieces otherwise)
are `items` followed by the returned list; every returned element is
non-empty; the returned list has exactly `itemsAfter` elements when
`splitAfter` is false, and at least `itemsAfter` when it is true, in which
case the pieces are the segments of the path split at every slash.  In both
cases the segments of the path are `items` followed by the returned list,
each element split further at every slash. -/
theorem MatchItems_spec (unescapedPath : String) (itemsAfter : Int) (splitAfter : Bool)
    (items : List String) :
    (MatchItems unescapedPath itemsAfter splitAfter items).isSome = true ∧
    ∀ res, MatchItems unescapedPath itemsAfter splitAfter items = some (.ok res) →
      apiItemsOf unescapedPath itemsAfter splitAfter items = items ++ res ∧
      (∀ r ∈ res, r ≠ "") ∧
      (splitAfter = false → (res.length : Int) = itemsAfter) ∧
      (splitAfter = true →
        itemsAfter ≤ (res.length : Int) ∧ segments unescapedPath = items ++ res) ∧
      segments unescapedPath = (items ++ res).flatMap pieceSegments := by
  by_cases hlen : (apiItemsOf unescapedPath itemsAfter splitAfter items).length < items.length
  · constructor
    · simp [MatchItems, hlen]
    · intro res h
      simp [MatchItems, hlen] at h
  · obtain ⟨r, hr, hspec⟩ :=
      matchLoop_spec (apiItemsOf unescapedPath itemsAfter splitAfter items) items 0 (by omega)
    cases r with
    | some e =>
      constructor
      · simp [MatchItems, hlen, hr]
      · intro res h
        simp [MatchItems, hlen, hr] at h
    | none =>
      have hsplit := hspec rfl
      simp only [List.drop_zero, Nat.zero_add] at hsplit
      constructor
      · simp only [MatchItems, hlen, if_false, hr]
        split
        · rfl
        · split <;> rfl
      · intro res h
        simp only [MatchItems, hlen, if_false, hr] at h
        split at h
        · simp at h
        · rename_i hshort
          split at h
          · simp at h
          · rename_i hlong
            simp only [Option.some.injEq, Except.ok.injEq] at h
            subst h
            refine ⟨hsplit, ?_, ?_, ?_, ?_⟩
            · intro r hr1
              have hmem := List.mem_of_mem_drop hr1
              simp only [apiItemsOf, List.mem_filter, bne_iff_ne, ne_eq] at hmem
              exact hmem.2
            · intro hs
              subst hs
              simp only [Bool.not_false, Bool.and_true, decide_eq_true_eq] at hlong
              omega
            · intro hs
              refine ⟨by omega, ?_⟩
              rw [← hsplit, hs]
              rfl
            · rw [← hsplit]
              exact segments_eq_flatMap unescapedPath itemsAfter splitAfter items

theorem MatchItems_spec_witness :
    MatchItems "/v1/buckets/abc/x.txt" 1 true ["v1", "buckets"] =
        some (.ok ["abc", "x.txt"]) ∧
      segments "/v1/buckets/abc/x.txt" = ["v1", "buckets"] ++ ["abc", "x.txt"] := by
  refine ⟨by rfl, ?_⟩
  exact (((MatchItems_spec "/v1/buckets/abc/x.txt" 1 true ["v1", "buckets"]).2
    ["abc", "x.txt"] (by rfl)).2.2.2.1 rfl).2

/-! ## `NetworkCallWithRetry` -/

/-- C27, the code at the failing input: for a client with `Sleep` zero and no
back-off whose calls all fail, the default interval of half a second is stored
in `args.Sleep`, but every `time.Sleep` between two attempts is of zero
duration. -/
theorem NetworkCallWithRetry_sleep_zero :
    exRetryArgs.Sleep = 0 ∧ exRetryArgs.IsClient = true ∧ exRetryArgs.BackOff = false ∧
    (exRetryArgs.withDefaults exNetEnv).Sleep = 500000000 ∧
    NetworkCallWithRetry exNetEnv exRetryArgs 3 =
      some (some "boom",
        [NetEvent.call, NetEvent.sleep 0, NetEvent.call, NetEvent.sleep 0, NetEvent.call]) := by
  decide

/-! ## `MatchItems`: success and failure -/

/-- The index loop reports no error when the items from `idx` on are
`items`. -/
theorem matchLoop_complete (apiItems : List String) :
    ∀ (items : List String) (idx : Nat) (rest : List String),
      apiItems.drop idx = items ++ rest → matchLoop apiItems idx items = some none := by
  intro items
  induction items with
  | nil => intro idx rest _; rfl
  | cons item more ih =>
    intro idx rest h
    have hidx : idx < apiItems.length := by
      by_contra hcon
      rw [List.drop_eq_nil_of_le (by omega)] at h
      simp at h
    rw [List.drop_eq_getElem_cons hidx] at h
    simp only [List.cons_append, List.cons.injEq] at h
    rw [matchLoop, List.get?_eq_getElem?, List.getElem?_eq_getElem hidx]
    simp only [h.1, bne_self_eq_false, Bool.false_eq_true, if_false]
    exact ih (idx + 1) rest h.2

/-- The two outcomes of `MatchItems`: an error, or a list `res` such that the
pieces are `items ++ res`, with the count conditions. -/
theorem MatchItems_cases (unescapedPath : String) (itemsAfter : Int) (splitAfter : Bool)
    (items : List String) :
    (∃ e, MatchItems unescapedPath itemsAfter splitAfter items = some (.error e)) ∨
    (∃ res, MatchItems unescapedPath itemsAfter splitAfter items = some (.ok res) ∧
      apiItemsOf unescapedPath itemsAfter splitAfter items = items ++ res ∧
      itemsAfter ≤ (res.length : Int) ∧
      (splitAfter = false → (res.length : Int) ≤ itemsAfter)) := by
  by_cases hlen : (apiItemsOf unescapedPath itemsAfter splitAfter items).length < items.length
  · exact Or.inl ⟨_, by simp only [MatchItems, hlen, if_true]; rfl⟩
  · obtain ⟨r, hr, hspec⟩ :=
      matchLoop_spec (apiItemsOf unescapedPath itemsAfter splitAfter items) items 0 (by omega)
    cases r with
    | some e => exact Or.inl ⟨e, by simp only [MatchItems, hlen, if_false, hr]⟩
    | none =>
      have hsplit := hspec rfl
      simp only [List.drop_zero, Nat.zero_add] at hsplit
      by_cases hshort : (((apiItemsOf unescapedPath itemsAfter splitAfter items).drop
          items.length).length : Int) < itemsAfter
      · exact Or.inl ⟨_, by simp only [MatchItems, hlen, if_false, hr, hshort, if_true]; rfl⟩
      · by_cases hlong : ((decide ((((apiItemsOf unescapedPath itemsAfter splitAfter items).drop
            items.length).length : Int) > itemsAfter)) && !splitAfter) = true
        · exact Or.inl ⟨_, by
            simp only [MatchItems, hlen, if_false, hr, hshort, hlong, if_true]; rfl⟩
        · refine Or.inr ⟨_, by
            simp only [MatchItems, hlen, if_false, hr, hshort, hlong, Bool.false_eq_true],
            hsplit, by omega, ?_⟩
          intro hs
          subst hs
          simp only [Bool.not_false, Bool.and_true, decide_eq_true_eq] at hlong
          omega

/-- `MatchItems` succeeds with `res` when the pieces are `items ++ res` and
the count conditions hold. -/
theorem MatchItems_ok_of_split (unescapedPath : String) (itemsAfter : Int) (splitAfter : Bool)
    (items res : List String)
    (hsplit : apiItemsOf unescapedPath itemsAfter splitAfter items = items ++ res)
    (hmin : itemsAfter ≤ (res.length : Int))
    (hmax : splitAfter = false → (res.length : Int) ≤ itemsAfter) :
    MatchItems unescapedPath itemsAfter splitAfter items = some (.ok res) := by
  have hlen : ¬ (apiItemsOf unescapedPath itemsAfter splitAfter items).length < items.length := by
    rw [hsplit, List.length_append]
    omega
  have hloop : matchLoop (apiItemsOf unescapedPath itemsAfter splitAfter items) 0 items =
      some none :=
    matchLoop_complete _ items 0 res (by rw [List.drop_zero]; exact hsplit)
  have hdrop : (apiItemsOf unescapedPath itemsAfter splitAfter items).drop items.length = res := by
    rw [hsplit, List.drop_left]
  have hshort : ¬ ((res.length : Int) < itemsAfter) := by omega
  have hlong : ¬ ((decide ((res.length : Int) > itemsAfter) && !splitAfter) = true) := by
    cases splitAfter with
    | true => simp
    | false =>
      have := hmax rfl
      simp only [Bool.not_false, Bool.and_true, decide_eq_true_eq]
      omega
  simp only [MatchItems, hlen, if_false, hloop, hdrop, hshort, hlong, Bool.false_eq_true]

/-- A segment of a path has no slash and is not empty. -/
theorem mem_segments (unescapedPath x : String) (hx : x ∈ segments unescapedPath) :
    '/' ∉ x.toList ∧ x ≠ "" := by
  simp only [segments, apiItemsOf, if_true, List.mem_filter, List.mem_map, bne_iff_ne,
    ne_eq] at hx
  obtain ⟨⟨piece, hp, rfl⟩, hne⟩ := hx
  exact ⟨not_mem_of_mem_stringsSplit _ piece hp, hne⟩

/-- A non-empty string without slash is its own only segment. -/
theorem pieceSegments_clean (x : String) (h1 : '/' ∉ x.toList) (h2 : x ≠ "") :
    pieceSegments x = [x] := by
  have hx : String.mk x.toList = x := rfl
  simp only [pieceSegments, stringsSplit_of_not_mem x.toList h1, List.map_cons, List.map_nil,
    hx]
  simp [h2]

theorem flatMap_pieceSegments_clean (items : List String)
    (h : ∀ x ∈ items, '/' ∉ x.toList ∧ x ≠ "") : items.flatMap pieceSegments = items := by
  rw [List.flatMap_congr (fun x hx => pieceSegments_clean x (h x hx).1 (h x hx).2)]
  simp

/-- When `MatchItems` succeeds and `splitAfter` is true or no item contains a
slash, the segments of the path begin with `items`. -/
theorem MatchItems_ok_prefix (unescapedPath : String) (itemsAfter : Int) (splitAfter : Bool)
    (items res : List String)
    (hok : MatchItems unescapedPath itemsAfter splitAfter items = some (.ok res))
    (hclean : splitAfter = true ∨ ∀ x ∈ items, '/' ∉ x.toList) :
    items <+: segments unescapedPath := by
  rcases MatchItems_cases unescapedPath itemsAfter splitAfter items with ⟨e, he⟩ | ⟨res2, h2, hsplit, -, -⟩
  · rw [he] at hok
    cases hok
  · rcases hclean with hs | hclean
    · subst hs
      exact ⟨res2, hsplit.symm⟩
    · have hne : ∀ x ∈ items, '/' ∉ x.toList ∧ x ≠ "" := by
        intro x hx
        refine ⟨hclean x hx, ?_⟩
        have hmem : x ∈ apiItemsOf unescapedPath itemsAfter splitAfter items := by
          rw [hsplit]
          exact List.mem_append_left _ hx
        simp only [apiItemsOf, List.mem_filter, bne_iff_ne, ne_eq] at hmem
        exact hmem.2
      rw [segments_eq_flatMap unescapedPath itemsAfter splitAfter items, hsplit,
        List.flatMap_append, flatMap_pieceSegments_clean items hne]
      exact ⟨_, rfl⟩

/-- C21 fails as stated: with `splitAfter = false` an item that contains a
slash can match the unsplit remainder.  For the path `/v1///` and the items
`v1`, `/`, `MatchItems` succeeds although the path has one segment and there
are two items; for the path `/x//a/b` and the items `x`, `a/b` it succeeds
although the second segment `a` differs from the second item. -/
theorem MatchItems_slash_item_counterexample :
    MatchItems "/v1///" 0 false ["v1", "/"] = some (.ok []) ∧
    segments "/v1///" = ["v1"] ∧
    MatchItems "/x//a/b" 0 false ["x", "a/b"] = some (.ok []) ∧
    segments "/x//a/b" = ["x", "a", "b"] :=
  ⟨by rfl, by decide, by rfl, by decide⟩

/-- C21, amended: with `splitAfter = true`, `MatchItems` succeeds exactly when
the segments of the path are `items` followed by at least `itemsAfter` more,
and it then returns all of those; with `splitAfter = false` and
`itemsAfter = 0` it fails whenever the segments are `items` followed by at
least one more; and when `splitAfter` is true or no item contains a slash, it
fails whenever the path has fewer segments than there are items or some
segment differs from the item at its position. -/
theorem MatchItems_outcomes (unescapedPath : String) (itemsAfter : Int) (items : List String) :
    ((∃ res, MatchItems unescapedPath itemsAfter true items = some (.ok res)) ↔
      ∃ more, segments unescapedPath = items ++ more ∧ itemsAfter ≤ (more.length : Int)) ∧
    (∀ res, MatchItems unescapedPath itemsAfter true items = some (.ok res) →
      segments unescapedPath = items ++ res) ∧
    (∀ more, segments unescapedPath = items ++ more → more ≠ [] →
      ∃ e, MatchItems unescapedPath 0 false items = some (.error e)) ∧
    (∀ splitAfter, (splitAfter = true ∨ ∀ x ∈ items, '/' ∉ x.toList) →
      ((segments unescapedPath).length < items.length ∨
        ∃ (i : Nat) (x y : String),
          items[i]? = some x ∧ (segments unescapedPath)[i]? = some y ∧ x ≠ y) →
      ∃ e, MatchItems unescapedPath itemsAfter splitAfter items = some (.error e)) := by
  have hseg : ∀ a its, apiItemsOf unescapedPath a true its = segments unescapedPath :=
    fun _ _ => rfl
  refine ⟨⟨?_, ?_⟩, ?_, ?_, ?_⟩
  · rintro ⟨res, hok⟩
    rcases MatchItems_cases unescapedPath itemsAfter true items with ⟨e, he⟩ | ⟨r2, h2, hsplit, hmin, -⟩
    · rw [he] at hok
      cases hok
    · exact ⟨r2, by rw [← hseg itemsAfter items]; exact hsplit, hmin⟩
  · rintro ⟨more, hsplit, hmin⟩
    exact ⟨more, MatchItems_ok_of_split unescapedPath itemsAfter true items more
      (by rw [hseg]; exact hsplit) hmin (fun h => by cases h)⟩
  · intro res hok
    rcases MatchItems_cases unescapedPath itemsAfter true items with ⟨e, he⟩ | ⟨r2, h2, hsplit, -, -⟩
    · rw [he] at hok
      cases hok
    · rw [h2] at hok
      simp only [Option.some.injEq, Except.ok.injEq] at hok
      subst hok
      rw [← hseg itemsAfter items]
      exact hsplit
  · intro more hsplit hmore
    rcases MatchItems_cases unescapedPath 0 false items with ⟨e, he⟩ | ⟨res, hok, hres, -, hmax⟩
    · exact ⟨e, he⟩
    · exfalso
      have hnil : res = [] := by
        apply List.eq_nil_of_length_eq_zero
        have := hmax rfl
        omega
      subst hnil
      have hclean : ∀ x ∈ items, '/' ∉ x.toList ∧ x ≠ "" := by
        intro x hx
        exact mem_segments unescapedPath x (by rw [hsplit]; exact List.mem_append_left _ hx)
      have h1 := segments_eq_flatMap unescapedPath 0 false items
      rw [hres, List.append_nil, flatMap_pieceSegments_clean items hclean, hsplit] at h1
      exact hmore (List.append_right_eq_self.1 h1)
  · intro splitAfter hclean hbad
    rcases MatchItems_cases unescapedPath itemsAfter splitAfter items with ⟨e, he⟩ | ⟨res, hok, -, -, -⟩
    · exact ⟨e, he⟩
    · exfalso
      obtain ⟨t, ht⟩ := MatchItems_ok_prefix unescapedPath itemsAfter splitAfter items res hok hclean
      rcases hbad with hlt | ⟨i, x, y, hx, hy, hne⟩
      · rw [← ht, List.length_append] at hlt
        omega
      · have hi : i < items.length := (List.getElem?_eq_some.1 hx).1
        rw [← ht, List.getElem?_append_left hi, hx] at hy
        exact hne (Option.some.inj hy)

theorem MatchItems_outcomes_witness :
    segments "/v1/buckets/abc" = ["v1", "buckets"] ++ ["abc"] ∧
    (∃ res, MatchItems "/v1/buckets/abc" 1 true ["v1", "buckets"] = some (.ok res)) ∧
    (∃ e, MatchItems "/v1/buckets/abc" 0 false ["v1", "buckets"] = some (.error e)) ∧
    (∃ e, MatchItems "/v1/buckets/abc" 0 false ["v1", "objects"] = some (.error e)) :=
  ⟨by decide,
    (MatchItems_outcomes "/v1/buckets/abc" 1 ["v1", "buckets"]).1.2 ⟨["abc"], by decide, by decide⟩,
    (MatchItems_outcomes "/v1/buckets/abc" 1 ["v1", "buckets"]).2.2.1 ["abc"] (by decide)
      (by decide),
    (MatchItems_outcomes "/v1/buckets/abc" 0 ["v1", "objects"]).2.2.2 false
      (Or.inr (by decide)) (Or.inr ⟨1, "objects", "buckets", by decide, by decide, by decide⟩)⟩

/-! ## `PrependProtocol`: idempotence -/

/-- C26: `PrependProtocol` applied to its own result, with the same protocol
arguments, gives that result again; and its result is empty exactly when `url`
is empty. -/
theorem PrependProtocol_idempotent (url : String) (protocol : List String) :
    PrependProtocol (PrependProtocol url protocol) protocol = PrependProtocol url protocol ∧
    (PrependProtocol url protocol = "" ↔ url = "") := by
  by_cases h1 : url = ""
  · subst h1
    have h : PrependProtocol "" protocol = "" := by simp [PrependProtocol]
    rw [h, h]
    simp
  · cases h2 : stringsContains url "://" with
    | true =>
      have h : PrependProtocol url protocol = url := by simp [PrependProtocol, h2]
      rw [h, h]
      exact ⟨rfl, by simp [h1]⟩
    | false =>
      have h : ∃ proto, PrependProtocol url protocol = proto ++ "://" ++ url := by
        refine ⟨match protocol with
          | [p] => p
          | _ => httpProto, ?_⟩
        simp [PrependProtocol, h1, h2]
      obtain ⟨proto, hp⟩ := h
      have hc : stringsContains (proto ++ "://" ++ url) "://" = true :=
        (stringsContains_iff _ _).2 ⟨proto, url, rfl⟩
      have hne : proto ++ "://" ++ url ≠ "" := by
        intro hcon
        have hl := congrArg String.length hcon
        rw [String.length_append, String.length_append] at hl
        have h3 : "://".length = 3 := by decide
        have h0 : "".length = 0 := by decide
        omega
      rw [hp]
      refine ⟨by simp [PrependProtocol, hc], ?_⟩
      simp [hne, h1]

/-! ## `MakeRangeHdr` -/

/-- C28 fails as stated: for `start = 5` and `length = 0`, both non-negative
and not both zero, the header is `bytes=5-4`, a range whose end is below its
start. -/
theorem MakeRangeHdr_empty_counterexample :
    MakeRangeHdr "Range" "bytes=" 5 0 = [("Range", ["bytes=5-4"])] ∧
    wrapI64 (5 + 0 - 1) < 5 := by
  decide

/-- C28, amended: `MakeRangeHdr` returns no header when `start` and `length`
are both zero; for a non-negative `start` and a `length` of at least one (with
`start + length - 1` in the `int64` range) it returns a header with exactly
one value for the range key, the range prefix followed by
`<start>-<start+length-1>`, whose end is not below its start and which spans
exactly `length` bytes; for a positive `start` and `length = 0` the value ends
at `start - 1`, below its start. -/
theorem MakeRangeHdr_spec (hdrRange hdrRangeValPrefix : String) (start length : Int) :
    MakeRangeHdr hdrRange hdrRangeValPrefix 0 0 = [] ∧
    (0 ≤ start → 1 ≤ length → start + length - 1 < 9223372036854775808 →
      ∃ last, MakeRangeHdr hdrRange hdrRangeValPrefix start length =
          [(hdrRange, [hdrRangeValPrefix ++ toString start ++ "-" ++ toString last])] ∧
        last = start + length - 1 ∧ start ≤ last ∧ last - start + 1 = length) ∧
    (0 < start → start < 9223372036854775808 →
      MakeRangeHdr hdrRange hdrRangeValPrefix start 0 =
        [(hdrRange, [hdrRangeValPrefix ++ toString start ++ "-" ++ toString (start - 1)])]) := by
  refine ⟨by simp [MakeRangeHdr], ?_, ?_⟩
  · intro h0 h1 hmax
    have hw : wrapI64 (start + length - 1) = start + length - 1 := by
      unfold wrapI64
      omega
    have hne : ¬ (start = 0 ∧ length = 0) := by omega
    refine ⟨start + length - 1, ?_, rfl, by omega, by omega⟩
    simp only [MakeRangeHdr, Bool.and_eq_true, decide_eq_true_eq, hne, if_false, hw]
  · intro h0 hmax
    have hw : wrapI64 (start - 1) = start - 1 := by
      unfold wrapI64
      omega
    have hne : ¬ start = 0 := by omega
    simp [MakeRangeHdr, hne, hw]

theorem MakeRangeHdr_spec_witness :
    (0 : Int) ≤ 10 ∧ (1 : Int) ≤ 20 ∧
    ∃ last, MakeRangeHdr "Range" "bytes=" 10 20 =
        [("Range", ["bytes=" ++ toString (10 : Int) ++ "-" ++ toString last])] ∧
      last = 10 + 20 - 1 ∧ (10 : Int) ≤ last ∧ last - 10 + 1 = 20 :=
  ⟨by decide, by decide,
    (MakeRangeHdr_spec "Range" "bytes=" 10 20).2.1 (by decide) (by decide) (by decide)⟩

end cmn
